import Mathlib

/-!
The program fds: an ad-hoc file drop server and its upload client.

A shallow embedding of `cmd/fds/main.go` and a verification of its
specification.

Conventions of the embedding

* A Go `string` / `[]byte` is a `GoString`, a list whose elements stand for the
  bytes of the string.  The path and URL functions only ever compare an
  element with ASCII bytes (`/`, `.`, `?`, `#`, `%`, the control characters),
  which never occur inside a multi-byte UTF-8 sequence, so working element-wise
  on characters is the same as working on bytes.  The byte an escape `%XX` of
  a URL stands for is the element with that number.
* The program is written for a Unix-like system (`/` as separator, no volume
  names), so `path/filepath` and `path` agree.
* Everything the program does to the outside world (file system, HTTP, the
  random source, the interface table) goes through an explicit environment
  `Env` with explicit state passing.  Theorems about control flow hold for
  every environment; theorems that need the meaning of a file-system or HTTP
  call are stated for the reference environment `refEnv`, a model of a
  Unix-like machine and of the packages `os` and `net/http` of Go.
* `NewTempServer` and `main` only wire the pieces together and are not part of
  the embedding.
-/

namespace Fds

/-- A Go string, as the list of its bytes. -/
abbrev GoString := List Char

/-- Error values (`error` in Go); `none : Option Err` is Go's `nil` error. -/
inductive Err
  | ENOENT
  | ENOTDIR
  | EISDIR
  | EINVAL
  | EBUSY
  | ENOTEMPTY
  | EBADF
  | ECONNREFUSED
  | EADDRINUSE
  | closed
  | other (msg : GoString)
  deriving DecidableEq, Repr

deriving instance DecidableEq for Except

/-! ## `path` and `path/filepath` (Go standard library, Unix flavour) -/

/-- Right-to-left scan used by `pathElems`: the flag tells whether the first
element of the result is still open, that is, whether the byte to the left
belongs to it. -/
def pathElemsAux : GoString → Bool × List GoString
  | [] => (false, [])
  | c :: cs =>
    match pathElemsAux cs with
    | (o, r) =>
      if c = '/' then (false, r)
      else if o then
        match r with
        | h :: t => (true, (c :: h) :: t)
        | [] => (true, [[c]])
      else (true, [c] :: r)

/-- The non-empty elements of a slash-separated path, in order. -/
def pathElems (p : GoString) : List GoString := (pathElemsAux p).2

/-- Whether a path begins with a slash (`rooted` in `path.Clean`). -/
def isRooted : GoString → Bool
  | c :: _ => c == '/'
  | [] => false

/-- State of the scan of `path.Clean`: the number of leading `..` elements that
cannot be backtracked over (the part of the buffer before `dotdot`), and the
elements written after them, last element first. -/
structure CleanState where
  ups : Nat
  stack : List GoString
  deriving DecidableEq, Repr

/-- One element of the scan of `path.Clean`: `.` is dropped, `..` removes the
last backtrackable element, or is dropped at the root, or is appended when the
path is not rooted; any other element is appended. -/
def cleanStep (rooted : Bool) (st : CleanState) (e : GoString) : CleanState :=
  if e = ['.'] then st
  else if e = ['.', '.'] then
    match st.stack with
    | _ :: t => { st with stack := t }
    | [] => if rooted then st else { st with ups := st.ups + 1 }
  else { st with stack := e :: st.stack }

/-- The elements of the cleaned path. -/
def cleanElems (rooted : Bool) (es : List GoString) : List GoString :=
  let st := es.foldl (cleanStep rooted) ⟨0, []⟩
  List.replicate st.ups ['.', '.'] ++ st.stack.reverse

/-- Join elements with single slashes. -/
def joinSlash : List GoString → GoString
  | [] => []
  | [e] => e
  | e :: es => e ++ '/' :: joinSlash es

/-- Go's `path.Clean` (and `filepath.Clean` on Unix): the shortest path
equivalent to `p` by purely lexical processing.  Multiple slashes become one,
`.` elements are dropped, `..` elements cancel the element before them, `..`
at the root is dropped, and the empty result is `.`. -/
def path.Clean (p : GoString) : GoString :=
  let es := cleanElems (isRooted p) (pathElems p)
  if isRooted p then '/' :: joinSlash es
  else if es = [] then ['.'] else joinSlash es

/-- Go's `strings.Join(elem, "/")`: empty elements are kept. -/
def joinRaw : List GoString → GoString
  | [] => []
  | [e] => e
  | e :: es => e ++ '/' :: joinRaw es

/-- Go's `path.Join` (and `filepath.Join` on Unix): leading empty elements are
ignored, the rest is joined with slashes and cleaned; the result is empty when
every element is empty. -/
def path.Join : List GoString → GoString
  | [] => []
  | e :: es => if e = [] then path.Join es else path.Clean (joinRaw (e :: es))

/-- The loop of `path.Base` that strips trailing slashes. -/
def stripTrailingSlashes (p : GoString) : GoString :=
  (p.reverse.dropWhile (· == '/')).reverse

/-- What follows the last slash of `p` (all of `p` when it has none). -/
def afterLastSlash (p : GoString) : GoString :=
  (p.reverse.takeWhile (· != '/')).reverse

/-- Go's `path.Base` (and `filepath.Base` on Unix): the last element of the
path; `.` for the empty path and `/` for a path of slashes only. -/
def path.Base (p : GoString) : GoString :=
  if p = [] then ['.']
  else
    let q := afterLastSlash (stripTrailingSlashes p)
    if q = [] then ['/'] else q

/-- The function `filepath.Base`, which on Unix is `path.Base`. -/
def filepath.Base (p : GoString) : GoString := path.Base p

/-- The function `filepath.Join`, which on Unix is `path.Join`. -/
def filepath.Join (elem : List GoString) : GoString := path.Join elem

/-! ## The random segment -/

/-- The alphabet of `RandomStringRunes`: the 52 Latin letters. -/
def letterRunes : List Char :=
  "abcdefghijklmnopqrstuvwxyzABCDEFGHIJKLMNOPQRSTUVWXYZ".toList

/-! ## `net` -/

/-- Go's `net.IP`: a slice of bytes, 4 of them for IPv4 and 16 for IPv6. -/
abbrev IP := List Nat

/-- Go's `net.IPNet`: a network number and a mask. -/
structure IPNet where
  ip : IP
  mask : List Nat
  deriving DecidableEq, Repr

/-- Go's `net.Addr` as `privateIP` sees it: either a `*net.IPNet`, or an address
of another dynamic type, for which the type assertion fails. -/
inductive Addr
  | ipnet (n : IPNet)
  | other (text : GoString)
  deriving DecidableEq, Repr

/-- Go's `IP.To4`: the 4-byte form of an IPv4 address, also of one stored in
16 bytes as `::ffff:a.b.c.d`; `none` is Go's `nil`. -/
def IP.To4 (ip : IP) : Option IP :=
  if ip.length = 4 then some ip
  else if ip.length = 16 ∧ (ip.take 10).all (· == 0) ∧ ip.getD 10 0 = 255 ∧ ip.getD 11 0 = 255 then
    some (ip.drop 12)
  else none

/-- Go's `net.CIDRMask`. -/
def CIDRMask (ones bits : Nat) : List Nat :=
  if bits ≠ 32 ∧ bits ≠ 128 then []
  else if ones > bits then []
  else (List.range (bits / 8)).map fun i =>
    if ones ≥ 8 * (i + 1) then 255
    else if ones ≤ 8 * i then 0
    else 255 - 255 / 2 ^ (ones - 8 * i)

/-- Go's `networkNumberAndMask`; the pair of empty lists is `nil, nil`. -/
def networkNumberAndMask (n : IPNet) : IP × List Nat :=
  let ip? : Option IP :=
    match IP.To4 n.ip with
    | some x => some x
    | none => if n.ip.length = 16 then some n.ip else none
  match ip? with
  | none => ([], [])
  | some ip =>
    if n.mask.length = 4 then
      if ip.length ≠ 4 then ([], []) else (ip, n.mask)
    else if n.mask.length = 16 then
      if ip.length = 4 then (ip, n.mask.drop 12) else (ip, n.mask)
    else ([], [])

/-- Go's `(*IPNet).Contains`. -/
def IPNet.Contains (n : IPNet) (ip : IP) : Bool :=
  match networkNumberAndMask n with
  | (nn, m) =>
    let ip := match IP.To4 ip with
      | some x => x
      | none => ip
    if ip.length ≠ nn.length then false
    else (List.range ip.length).all fun i =>
      (nn.getD i 0 &&& m.getD i 0) == (ip.getD i 0 &&& m.getD i 0)

/-- The value `net.ParseCIDR` returns for an IPv4 literal `a.b.c.d/ones` whose
host bits are zero. -/
def cidr4 (a b c d ones : Nat) : IPNet := ⟨[a, b, c, d], CIDRMask ones 32⟩

/-- The table filled by the second `init`. -/
def privateIPBlocks : List IPNet :=
  [ cidr4 10 0 0 0 8,      -- RFC1918
    cidr4 172 16 0 0 12,   -- RFC1918
    cidr4 192 168 0 0 16,  -- RFC1918
    cidr4 169 254 0 0 16 ] -- RFC3927 link-local

/-- The function `isPrivateIP` of `main.go`. -/
def isPrivateIP (ip : IP) : Bool :=
  privateIPBlocks.any fun block => block.Contains ip

/-- Decimal text of a byte. -/
def byteText (n : Nat) : GoString :=
  let digit (d : Nat) : Char := Char.ofNat (48 + d)
  if n < 10 then [digit n]
  else if n < 100 then [digit (n / 10), digit (n % 10)]
  else [digit (n / 100), digit (n / 10 % 10), digit (n % 10)]

/-- One lower-case hexadecimal digit. -/
def hexDigit (n : Nat) : Char := "0123456789abcdef".toList.getD n '?'

/-- Hexadecimal text of a 16-bit group, without leading zeros. -/
def hexText (x : Nat) : GoString :=
  if x ≥ 4096 then [hexDigit (x / 4096), hexDigit (x / 256 % 16), hexDigit (x / 16 % 16), hexDigit (x % 16)]
  else if x ≥ 256 then [hexDigit (x / 256), hexDigit (x / 16 % 16), hexDigit (x % 16)]
  else if x ≥ 16 then [hexDigit (x / 16), hexDigit (x % 16)]
  else [hexDigit x]

/-- The eight 16-bit groups of a 16-byte address. -/
def groups16 (ip : IP) : List Nat :=
  (List.range 8).map fun i => ip.getD (2 * i) 0 * 256 + ip.getD (2 * i + 1) 0

/-- Start and end of the first longest run of at least two zero groups;
`(255, 255)` when there is none. -/
def zeroRun (g : List Nat) : Nat × Nat :=
  (List.range 8).foldl
    (fun best i =>
      let j := i + ((g.drop i).takeWhile (· == 0)).length
      if j - i ≥ 2 ∧ j - i > best.2 - best.1 then (i, j) else best)
    (255, 255)

/-- Text of the groups from index `i` on, the run `[zs, ze)` written as `::`. -/
def text6From (g : List Nat) (zs ze : Nat) : Nat → Nat → GoString
  | 0, _ => []
  | fuel + 1, i =>
    if i ≥ 8 then []
    else if i = zs then
      ':' :: ':' :: (if ze ≥ 8 then [] else hexText (g.getD ze 0) ++ text6From g zs ze fuel (ze + 1))
    else
      (if i > 0 then [':'] else []) ++ hexText (g.getD i 0) ++ text6From g zs ze fuel (i + 1)

/-- Go's `IP.String`: dotted decimal when `To4` succeeds, the compressed
hexadecimal form for the other 16-byte addresses. -/
def IP.String (ip : IP) : GoString :=
  if ip.length = 0 then "<nil>".toList
  else if ip.length ≠ 4 ∧ ip.length ≠ 16 then
    '?' :: ip.flatMap fun b => [hexDigit (b / 16), hexDigit (b % 16)]
  else
    match IP.To4 ip with
    | some [a, b, c, d] =>
      byteText a ++ '.' :: byteText b ++ '.' :: byteText c ++ '.' :: byteText d
    | _ =>
      let g := groups16 ip
      text6From g (zeroRun g).1 (zeroRun g).2 9 0

/-! ## The environment -/

/-- What the program asks of the operating system and of the Go runtime.
`σ` is the state of the world, `H` the type of open files (`*os.File`) and `R`
the type of HTTP responses (`*http.Response`). -/
structure Env (σ H R : Type) where
  /-- The draw that `rand.Intn` reduces modulo its argument. -/
  randInt : σ → Nat × σ
  /-- Go's `net.InterfaceAddrs`. -/
  interfaceAddrs : σ → Except Err (List Addr)
  /-- Go's `os.RemoveAll`. -/
  removeAll : GoString → σ → Option Err × σ
  /-- Go's `os.MkdirAll(path, 0755)`. -/
  mkdirAll : GoString → σ → Option Err × σ
  /-- Go's `os.Create`. -/
  create : GoString → σ → Except Err H × σ
  /-- Go's `os.OpenFile(name, os.O_RDONLY, 0)`. -/
  openFile : GoString → σ → Except Err H × σ
  /-- Go's `ioutil.ReadAll` on an open file. -/
  readFile : H → σ → Except Err GoString × σ
  /-- Go's `(*os.File).Write`. -/
  write : H → GoString → σ → Option Err × σ
  /-- Go's `(*os.File).Close`. -/
  close : H → σ → σ
  /-- Go's `http.Get`. -/
  httpGet : GoString → σ → Except Err R × σ
  /-- Go's `ioutil.ReadAll` on a response body. -/
  readBody : R → σ → Except Err GoString × σ
  /-- Closing a response body. -/
  closeBody : R → σ → σ
  /-- Registration of the static file route:
  http.Handle("/files/", http.StripPrefix("/files/", http.FileServer(http.Dir(dir)))). -/
  handleFiles : GoString → σ → σ
  /-- Registration of the control route `/dir`, whose handler writes `dir`. -/
  handleDir : GoString → σ → σ
  /-- Go's `http.ListenAndServe(addr, nil)`, running until the listener
  terminates.  The second argument is what the goroutine waiting on the signal
  channel does when SIGINT or SIGTERM arrives while the listener runs; whether
  and when it runs is up to the environment. -/
  listenAndServe : GoString → (σ → σ) → σ → Option Err × σ

section Program

variable {σ H R : Type}

/-- Go's `rand.Intn(n)` for `n > 0`: a value in `[0, n)`, here the draw of the
source reduced modulo `n`. -/
def randIntn (env : Env σ H R) (n : Nat) (h : 0 < n) (w : σ) : Fin n × σ :=
  (⟨(env.randInt w).1 % n, Nat.mod_lt _ h⟩, (env.randInt w).2)

/-- The function `RandomStringRunes` of `main.go`: `n` letters, each one
`letterRunes[rand.Intn(len(letterRunes))]`, in order. -/
def RandomStringRunes (env : Env σ H R) : Nat → σ → GoString × σ
  | 0, w => ([], w)
  | n + 1, w =>
    match randIntn env letterRunes.length (by decide) w with
    | (i, w1) =>
      match RandomStringRunes env n w1 with
      | (rest, w2) => (letterRunes.get i :: rest, w2)

/-- The loop of `privateIP` over the interface addresses: the first address
that is a `*net.IPNet` with a private IP decides. -/
def privateIPLoop : List Addr → GoString
  | [] => "0.0.0.0".toList
  | .ipnet n :: rest =>
    if isPrivateIP n.ip then IP.String n.ip else privateIPLoop rest
  | .other _ :: rest => privateIPLoop rest

/-- The function `privateIP` of `main.go`.  The result of the first call of
`net.InterfaceAddrs` is discarded, as in the source; the line logged on an
error goes to standard error, which is not part of the model. -/
def privateIP (env : Env σ H R) (w : σ) : GoString :=
  let _ := env.interfaceAddrs w
  match env.interfaceAddrs w with
  | .error _ => "0.0.0.0".toList
  | .ok addrs => privateIPLoop addrs

/-- The constant `host` of `main.go`. -/
def host : GoString := "0.0.0.0".toList

/-- The constant `port` of `main.go`. -/
def port : GoString := "8100".toList

/-- The type `Server` of `main.go`. -/
structure Server where
  dir : GoString
  host : GoString
  port : GoString
  ttl : Int
  deriving DecidableEq, Repr

/-- The method `(*Server).RemoveAll`. -/
def Server.RemoveAll (env : Env σ H R) (s : Server) (w : σ) : Option Err × σ :=
  if s.dir = [] ∨ s.dir = ['/'] then (none, w)
  else env.removeAll s.dir w

/-- The method `(*Server).Start`.  The goroutine that waits for SIGINT or
SIGTERM and then calls `s.RemoveAll()` is handed to the environment. -/
def Server.Start (env : Env σ H R) (s : Server) (w : σ) : Option Err × σ :=
  let w1 := env.handleFiles s.dir w
  let w2 := env.handleDir s.dir w1
  match env.listenAndServe (':' :: s.port) (fun v => (s.RemoveAll env v).2) w2 with
  | (some err, w3) => (some err, (s.RemoveAll env w3).2)
  | (none, w3) => (none, w3)

/-- The type `Client` of `main.go`. -/
structure Client where
  host : GoString
  port : GoString
  deriving DecidableEq, Repr

/-- The method `(*Client).Dir`; an error stands for Go's pair `"", err`. -/
def Client.Dir (env : Env σ H R) (c : Client) (w : σ) : Except Err GoString × σ :=
  match env.httpGet ("http://".toList ++ c.host ++ ':' :: c.port ++ "/dir".toList) w with
  | (.error e, w1) => (.error e, w1)
  | (.ok resp, w1) =>
    match env.readBody resp w1 with
    | (.error e, w2) => (.error e, env.closeBody resp w2)
    | (.ok b, w2) => (.ok b, env.closeBody resp w2)

/-- The line `Put` prints on success. -/
def urlLine (ip seg base : GoString) : GoString :=
  "http://".toList ++ ip ++ ':' :: port ++ "/files/".toList ++ seg ++ '/' :: base ++ ['\n']

/-- What `Put` returns: the error (`none` is `nil`), the bytes written to
standard output, and the state of the world. -/
structure PutResult (σ : Type) where
  err : Option Err
  out : GoString
  world : σ

/-- The method `(*Client).Put`. -/
def Client.Put (env : Env σ H R) (c : Client) (name : GoString) (w : σ) : PutResult σ :=
  match c.Dir env w with
  | (.error e, w1) => ⟨some e, [], w1⟩
  | (.ok dir, w1) =>
    match RandomStringRunes env 40 w1 with
    | (seg, w2) =>
      let randDir := path.Join [dir, seg]
      match env.mkdirAll randDir w2 with
      | (some e, w3) => ⟨some e, [], w3⟩
      | (none, w3) =>
        let base := filepath.Base name
        match env.create (filepath.Join [randDir, base]) w3 with
        | (.error e, w4) => ⟨some e, [], w4⟩
        | (.ok dst, w4) =>
          match env.openFile name w4 with
          | (.error e, w5) => ⟨some e, [], env.close dst w5⟩
          | (.ok src, w5) =>
            match env.readFile src w5 with
            | (.error e, w6) => ⟨some e, [], env.close dst (env.close src w6)⟩
            | (.ok body, w6) =>
              match env.write dst body w6 with
              | (some e, w7) => ⟨some e, [], env.close dst (env.close src w7)⟩
              | (none, w7) =>
                ⟨none, urlLine (privateIP env w7) (path.Base randDir) base,
                  env.close dst (env.close src w7)⟩

end Program

/-! ## The reference environment

A single machine with a file system without symbolic links, permissions or
I/O faults, one HTTP listener, and a random source given as a sequence. -/

/-- An absolute path: the names from the root down. -/
abbrev AbsPath := List GoString

/-- What a path names. -/
inductive Node
  | dir
  | file (data : GoString)
  deriving DecidableEq, Repr

/-- A file system: what each absolute path names, if anything. -/
abbrev FS := AbsPath → Option Node

/-- The node at a path; the root is always a directory. -/
def stat (fs : FS) (p : AbsPath) : Option Node :=
  if p = [] then some .dir else fs p

/-- The file system with the node at `p` replaced. -/
def setNode (fs : FS) (p : AbsPath) (n : Option Node) : FS :=
  fun q => if q = p then n else fs q

/-- One element of a path lookup. -/
def absStep (cur : AbsPath) (e : GoString) : AbsPath :=
  if e = ['.'] then cur
  else if e = ['.', '.'] then cur.dropLast
  else cur ++ [e]

/-- The elements of a path as the kernel looks them up: a trailing slash asks
for a directory, like a trailing `.` element. -/
def kernelElems (p : GoString) : List GoString :=
  if p.getLast? = some '/' then pathElems p ++ [['.']] else pathElems p

/-- Path lookup from `cur`: every node in which a further element is looked up
must be a directory.  The node reached in the end may be missing. -/
def walk (fs : FS) : AbsPath → List GoString → Except Err AbsPath
  | cur, [] => .ok cur
  | cur, e :: es =>
    match stat fs cur with
    | some .dir => walk fs (absStep cur e) es
    | some (.file _) => .error .ENOTDIR
    | none => .error .ENOENT

/-- Responses of the HTTP server. -/
inductive Response
  /-- Status 200 with this body. -/
  | ok (body : GoString)
  /-- Status 200 with the HTML listing of a directory. -/
  | listing (dir : AbsPath)
  /-- Status 301 of the file server (`localRedirect`), with this text as
  `Location`. -/
  | moved (location : GoString)
  /-- The redirection of `ServeMux` to this path (status 307; 301 in older
  releases of Go).  The `Location` is the path in escaped form, which a client
  unescapes again. -/
  | redirected (path : GoString)
  /-- An error status (4xx or 5xx). -/
  | failed (code : Nat)
  deriving DecidableEq, Repr

/-- The status code of a response. -/
def Response.status : Response → Nat
  | .ok _ => 200
  | .listing _ => 200
  | .moved _ => 301
  | .redirected _ => 307
  | .failed c => c

/-- The state of the reference world. -/
structure World where
  /-- The file system shared by the server and the client. -/
  fs : FS
  /-- The working directory. -/
  cwd : AbsPath
  /-- The draws of the random source, and how many were consumed. -/
  rnd : Nat → Nat
  drawn : Nat
  /-- The result of `net.InterfaceAddrs`. -/
  addrs : Except Err (List Addr)
  /-- The directory served under `/files/`, once registered. -/
  filesRoute : Option GoString
  /-- The body of the `/dir` route, once registered. -/
  dirRoute : Option GoString
  /-- The address a listener is bound to, while one runs. -/
  listening : Option GoString
  /-- The error with which a listener that could bind terminates. -/
  listenErr : Err
  /-- Whether SIGINT or SIGTERM arrives while the listener runs. -/
  signalled : Bool

/-- The absolute path a path string names, or why the lookup fails. -/
def namei (w : World) (p : GoString) : Except Err AbsPath :=
  if p = [] then .error .ENOENT
  else walk w.fs (if isRooted p then [] else w.cwd) (kernelElems p)

/-- Model of `os.Open` / `os.OpenFile(name, O_RDONLY, 0)`: the file must exist;
a directory can be opened too. -/
def osOpen (p : GoString) (w : World) : Except Err AbsPath × World :=
  match namei w p with
  | .error e => (.error e, w)
  | .ok t =>
    match stat w.fs t with
    | none => (.error .ENOENT, w)
    | some _ => (.ok t, w)

/-- Reading an open file to its end; reading a directory fails. -/
def osReadAll (t : AbsPath) (w : World) : Except Err GoString × World :=
  match stat w.fs t with
  | some (.file b) => (.ok b, w)
  | some .dir => (.error .EISDIR, w)
  | none => (.error .EBADF, w)

/-- Model of `os.Create`: a missing file is created in an existing directory, an
existing file is truncated, a directory is refused. -/
def osCreate (p : GoString) (w : World) : Except Err AbsPath × World :=
  match namei w p with
  | .error e => (.error e, w)
  | .ok t =>
    match stat w.fs t with
    | some .dir => (.error .EISDIR, w)
    | some (.file _) => (.ok t, { w with fs := setNode w.fs t (some (.file [])) })
    | none =>
      match stat w.fs t.dropLast with
      | some .dir => (.ok t, { w with fs := setNode w.fs t (some (.file [])) })
      | some (.file _) => (.error .ENOTDIR, w)
      | none => (.error .ENOENT, w)

/-- The first write on a file opened at offset 0. -/
def osWrite (t : AbsPath) (b : GoString) (w : World) : Option Err × World :=
  match stat w.fs t with
  | some (.file old) => (none, { w with fs := setNode w.fs t (some (.file (b ++ old.drop b.length))) })
  | _ => (some .EBADF, w)

/-- Lookup that creates the missing directories on its way. -/
def mkdirWalk (fs : FS) : AbsPath → List GoString → Option Err × FS
  | cur, [] =>
    match stat fs cur with
    | some .dir => (none, fs)
    | some (.file _) => (some .ENOTDIR, fs)
    | none => (some .ENOENT, fs)
  | cur, e :: es =>
    match stat fs cur with
    | some .dir =>
      if e = ['.'] ∨ e = ['.', '.'] then mkdirWalk fs (absStep cur e) es
      else
        match stat fs (cur ++ [e]) with
        | none => mkdirWalk (setNode fs (cur ++ [e]) (some .dir)) (cur ++ [e]) es
        | some _ => mkdirWalk fs (cur ++ [e]) es
    | some (.file _) => (some .ENOTDIR, fs)
    | none => (some .ENOENT, fs)

/-- Model of `os.MkdirAll`: the directory and the missing parents are created;
an existing directory is fine, a file on the way is an error. -/
def osMkdirAll (p : GoString) (w : World) : Option Err × World :=
  if p = [] then (some .ENOENT, w)
  else
    match mkdirWalk w.fs (if isRooted p then [] else w.cwd) (pathElems p) with
    | (e, fs1) => (e, { w with fs := fs1 })

/-- Go's `endsWithDot` of package `os`: whether the path is `.` or ends in
`/.`. -/
def endsWithDot (p : GoString) : Bool :=
  p = ['.'] ∨ (p.length ≥ 2 ∧ p.reverse.getD 0 ' ' = '.' ∧ p.reverse.getD 1 ' ' = '/')

/-- The lookup of the elements of a path, trailing slashes left aside: what
`splitPath` of package `os` and the lookup of the parent directory reach. -/
def resolve (w : World) (p : GoString) : Except Err AbsPath :=
  walk w.fs (if isRooted p then [] else w.cwd) (pathElems p)

/-- The file system without the node `t` and everything below it. -/
def removeTree (fs : FS) (t : AbsPath) : FS :=
  fun q => if t.isPrefixOf q then none else fs q

/-- The file system without what is below `t`; `t` itself stays. -/
def removeBelow (fs : FS) (t : AbsPath) : FS :=
  fun q => if t.isPrefixOf q ∧ q ≠ t then none else fs q

/-- Model of `os.RemoveAll` (Unix, `removeAll` and `removeAllFrom` of package
`os`), on a file system without permissions.

* The empty path: `nil`.  A path that is `.` or ends in `/.`: EINVAL, before
  anything is looked up.
* `Remove(path)` is tried first, and where it fails `removeAllFrom` works on
  the last element (`splitPath` drops trailing slashes) relative to the open
  parent directory.  When the lookup fails because something is missing the
  result is `nil`; when an element on the way is a regular file it is ENOTDIR.
* The last element is a name: a missing node is `nil`; a file (also when the
  path has a trailing slash) or a directory is removed with everything below
  it, with `nil`.
* The last element is `.` (the path ends in `./`) or `..`: `unlinkat` answers
  EISDIR, so the entries of the directory reached are removed, and the final
  `unlinkat(AT_REMOVEDIR)` fails with EINVAL for `.` and ENOTEMPTY for `..`;
  the directory itself stays.
* The path is made of slashes only: `splitPath` gives the parent `.` and the
  base `/`; once `.` is open, the entries of the root are removed and the
  final `unlinkat` fails with EBUSY. -/
def osRemoveAll (p : GoString) (w : World) : Option Err × World :=
  if p = [] then (none, w)
  else if endsWithDot p then (some .EINVAL, w)
  else
    match resolve w p with
    | .error .ENOENT => (none, w)
    | .error e => (some e, w)
    | .ok t =>
      match (pathElems p).getLast? with
      | none =>
        match (osOpen ['.'] w).1 with
        | .error .ENOENT => (none, w)
        | .error e => (some e, w)
        | .ok _ => (some .EBUSY, { w with fs := removeBelow w.fs t })
      | some e =>
        if e = ['.'] then (some .EINVAL, { w with fs := removeBelow w.fs t })
        else if e = ['.', '.'] then (some .ENOTEMPTY, { w with fs := removeBelow w.fs t })
        else
          match stat w.fs t with
          | none => (none, w)
          | some _ => (none, { w with fs := removeTree w.fs t })

/-- The directory `http.Dir(d)` serves: the working directory for the empty
string. -/
def httpRoot (d : GoString) : GoString := if d = [] then ['.'] else d

/-- Model of `http.Dir(root).Open(name)`. -/
def httpDirOpen (w : World) (root name : GoString) : Except Err AbsPath :=
  (osOpen (filepath.Join [httpRoot root, path.Clean ('/' :: name)]) w).1

/-- Go's `toHTTPError` after `mapOpenError`: a missing file, also one below a
regular file, is 404; anything else is 500. -/
def toHTTPError : Err → Nat
  | .ENOENT => 404
  | .ENOTDIR => 404
  | _ => 500

/-- Go's `strings.TrimSuffix(name, "/")`. -/
def trimSlash (s : GoString) : GoString :=
  if s.getLast? = some '/' then s.dropLast else s

/-- Model of the handler `http.FileServer(http.Dir(root))` for a GET without
range or conditional headers, on the URL path `urlPath`. -/
def fileServer (w : World) (root urlPath : GoString) : Response :=
  let upath := if isRooted urlPath then urlPath else '/' :: urlPath
  let name := path.Clean upath
  if "/index.html".toList.isSuffixOf upath then .moved "./".toList
  else
    match httpDirOpen w root name with
    | .error e => .failed (toHTTPError e)
    | .ok f =>
      match stat w.fs f with
      | none => .failed 404
      | some (.file b) =>
        if upath.getLast? = some '/' then .moved ("../".toList ++ path.Base upath)
        else .ok b
      | some .dir =>
        if upath.getLast? ≠ some '/' then .moved (path.Base upath ++ ['/'])
        else
          match httpDirOpen w root (trimSlash name ++ "/index.html".toList) with
          | .error _ => .listing f
          | .ok ff =>
            match stat w.fs ff with
            | some (.file b) => .ok b
            | _ => .listing ff

/-- Go's `cleanPath` of package `net/http`. -/
def cleanPath (p : GoString) : GoString :=
  if p = [] then ['/']
  else
    let p1 := if isRooted p then p else '/' :: p
    let np := path.Clean p1
    if p1.getLast? = some '/' ∧ np ≠ ['/'] then np ++ ['/'] else np

/-- Model of the default `ServeMux` with the two routes of `Start`, for a GET
whose URL path, as the server has it after unescaping the request target, is
`p`. -/
def serveHTTP (w : World) (p : GoString) : Response :=
  let cp := cleanPath p
  if cp = "/files".toList ∧ w.filesRoute.isSome then .redirected "/files/".toList
  else if cp ≠ p then .redirected cp
  else if p = "/dir".toList ∧ w.dirRoute.isSome then
    match w.dirRoute with
    | some d => .ok d
    | none => .failed 404
  else if "/files/".toList.isPrefixOf p then
    match w.filesRoute with
    | some root => fileServer w root (p.drop 7)
    | none => .failed 404
  else .failed 404

/-- Go's `stringContainsCTLByte` of package `net/url`, for one byte: an ASCII
control character. -/
def isCTL (c : Char) : Bool := decide (c.toNat < 32) || decide (c.toNat = 127)

/-- Go's `unhex` of package `net/url`; `none` where `ishex` fails. -/
def unhex (c : Char) : Option Nat :=
  if 48 ≤ c.toNat ∧ c.toNat ≤ 57 then some (c.toNat - 48)
  else if 97 ≤ c.toNat ∧ c.toNat ≤ 102 then some (c.toNat - 97 + 10)
  else if 65 ≤ c.toNat ∧ c.toNat ≤ 70 then some (c.toNat - 65 + 10)
  else none

/-- Go's `unescape` of package `net/url` in the mode of a path or a fragment:
every `%` must be followed by two hexadecimal digits and stands with them for
one byte; `none` is the error `EscapeError`. -/
def unescape : GoString → Option GoString
  | [] => some []
  | c :: rest =>
    if c = '%' then
      match rest with
      | a :: b :: rest2 =>
        match unhex a, unhex b, unescape rest2 with
        | some x, some y, some r => some (Char.ofNat (16 * x + y) :: r)
        | _, _, _ => none
      | _ => none
    else
      match unescape rest with
      | some r => some (c :: r)
      | none => none

/-- The part of a URL or of a reference that holds the path: the fragment is
cut off at the first `#` and must unescape, what is left must be free of
control characters, and the query is cut off at the first `?`.  As in
`url.Parse`; `none` is an error. -/
def cutQuery (raw : GoString) : Option GoString :=
  let u := raw.takeWhile (· ≠ '#')
  if u.any isCTL then none
  else if (unescape ((raw.dropWhile (· ≠ '#')).drop 1)).isNone then none
  else some (u.takeWhile (· ≠ '?'))

/-- Model of `url.Parse` for the absolute URLs of this program, which begin
with `http://`: the authority, up to the first slash, and the unescaped path.
Other schemes are not modelled (`none`, like an error of `url.Parse`). -/
def parseURL (raw : GoString) : Option (GoString × GoString) :=
  match cutQuery raw with
  | none => none
  | some u =>
    if "http://".toList.isPrefixOf u then
      match unescape ((u.drop 7).dropWhile (· ≠ '/')) with
      | none => none
      | some p => some ((u.drop 7).takeWhile (· ≠ '/'), p)
    else none

/-- Go's `strings.Split(s, "/")`. -/
def splitSlash : GoString → List GoString
  | [] => [[]]
  | c :: cs =>
    if c = '/' then [] :: splitSlash cs
    else
      match splitSlash cs with
      | h :: t => (c :: h) :: t
      | [] => [[c]]

/-- The string up to its last slash, the slash left out; `none` when it has no
slash. -/
def beforeLastSlash (s : GoString) : Option GoString :=
  if '/' ∈ s then some ((s.reverse.dropWhile (· ≠ '/')).drop 1).reverse else none

/-- One turn of the loop of Go's `resolvePath` of package `net/url`, on the
text written after the leading slash and the flag `first`. -/
def resolveStep (st : GoString × Bool) (elem : GoString) : GoString × Bool :=
  if elem = ['.'] then (st.1, false)
  else if elem = ['.', '.'] then
    match beforeLastSlash st.1 with
    | none => ([], true)
    | some d => (d, st.2)
  else ((if st.2 then st.1 else st.1 ++ ['/']) ++ elem, false)

/-- Go's `resolvePath` of package `net/url`: the path of a reference resolved
against a base path, with the elements `.` and `..` worked off. -/
def resolvePath (base ref : GoString) : GoString :=
  let full :=
    if ref = [] then base
    else if isRooted ref then ref
    else (base.reverse.dropWhile (· ≠ '/')).reverse ++ ref
  if full = [] then []
  else
    let st := (splitSlash full).foldl resolveStep ([], true)
    let last := (splitSlash full).getLast?
    let dst := if last = some ['.'] ∨ last = some ['.', '.'] then st.1 ++ ['/'] else st.1
    if isRooted dst then dst else '/' :: dst

/-- Where a client goes for the `Location` of a redirection received for
`path` on `authority` (Go's `(*URL).Parse` of the request URL, that is
`url.Parse` and `ResolveReference`).  An absolute URL is parsed as such, and
the elements `.` and `..` of its path are worked off.  A reference without
scheme keeps the authority, and its path is resolved against the one
requested; when it does not begin with a slash its first element must hold no
colon.  A reference that names another authority (it begins with `//`) or
another scheme is not modelled (`none`, an error).  Paths are resolved in
unescaped form, so an escaped slash or dot is not told apart from a plain
one. -/
def followLocation (authority path loc : GoString) : Option (GoString × GoString) :=
  if "http://".toList.isPrefixOf loc then
    match parseURL loc with
    | none => none
    | some (a, p) => some (a, resolvePath p [])
  else if "//".toList.isPrefixOf loc then none
  else
    match cutQuery loc with
    | none => none
    | some u =>
      if isRooted u = false ∧ ':' ∈ u.takeWhile (· ≠ '/') then none
      else
        match unescape u with
        | none => none
        | some ref => some (authority, resolvePath path ref)

/-- The hosts under which the one machine of the world is reached: `0.0.0.0`
and the IPv4 addresses of its interfaces. -/
def localHosts (w : World) : List GoString :=
  "0.0.0.0".toList ::
    match w.addrs with
    | .error _ => []
    | .ok addrs =>
      addrs.filterMap fun a =>
        match a with
        | .ipnet n => if (IP.To4 n.ip).isSome then some (IP.String n.ip) else none
        | .other _ => none

/-- One GET: the request reaches the server when the authority is one of the
hosts of the machine followed by the address the listener is bound to (`:`
and the port); the server sees the path the client has, or `/` for the empty
path (the client sends the path escaped and the server unescapes it). -/
def roundTrip (w : World) (authority path : GoString) : Except Err Response :=
  match w.listening with
  | none => .error .ECONNREFUSED
  | some addr =>
    if (localHosts w).any (fun h => h ++ addr = authority) then
      .ok (serveHTTP w (if path = [] then ['/'] else path))
    else .error .ECONNREFUSED

/-- The loop of `(*http.Client).do` for a GET: a redirection with a `Location`
is followed; the tenth response in a row that redirects is an error. -/
def httpDo (w : World) : Nat → GoString → GoString → Except Err Response
  | 0, _, _ => .error (.other "stopped after 10 redirects".toList)
  | fuel + 1, authority, path =>
    match roundTrip w authority path with
    | .error e => .error e
    | .ok (.moved loc) =>
      if loc = [] then .ok (.moved loc)
      else
        match followLocation authority path loc with
        | none => .error (.other "failed to parse Location header".toList)
        | some (a, p) => httpDo w fuel a p
    | .ok (.redirected p) => httpDo w fuel authority p
    | .ok r => .ok r

/-- Model of `http.Get`: the URL is parsed and requested; redirections are
followed as the default client does. -/
def osHttpGet (url : GoString) (w : World) : Except Err Response × World :=
  match parseURL url with
  | none => (.error (.other "invalid URL".toList), w)
  | some (authority, path) => (httpDo w 10 authority path, w)

/-- Reading the body of a response.  The text of a directory listing and of
the error pages is not modelled. -/
def osReadBody (r : Response) (w : World) : Except Err GoString × World :=
  match r with
  | .ok b => (.ok b, w)
  | _ => (.error (.other "body not modelled".toList), w)

/-- Model of `http.ListenAndServe`: binding fails when a listener already runs;
otherwise the listener runs, the signal goroutine runs if a signal arrives,
and the listener terminates with the error the world holds. -/
def osListenAndServe (_addr : GoString) (onSignal : World → World) (w : World) :
    Option Err × World :=
  match w.listening with
  | some _ => (some .EADDRINUSE, w)
  | none => (some w.listenErr, if w.signalled then onSignal w else w)

/-- The reference environment. -/
def refEnv : Env World AbsPath Response where
  randInt w := (w.rnd w.drawn, { w with drawn := w.drawn + 1 })
  interfaceAddrs w := w.addrs
  removeAll := osRemoveAll
  mkdirAll := osMkdirAll
  create := osCreate
  openFile := osOpen
  readFile := osReadAll
  write := osWrite
  close _ w := w
  httpGet := osHttpGet
  readBody := osReadBody
  closeBody _ w := w
  handleFiles dir w := { w with filesRoute := some dir }
  handleDir dir w := { w with dirRoute := some dir }
  listenAndServe := osListenAndServe

/-! ## Specification-side definitions -/

/-- The 32-bit value of the IPv4 address `a.b.c.d`. -/
def ipv4Value (a b c d : Nat) : Nat := a * 2 ^ 24 + b * 2 ^ 16 + c * 2 ^ 8 + d

/-- Membership of a 32-bit value in the block `base/len`. -/
def inBlock (base len v : Nat) : Prop := base ≤ v ∧ v < base + 2 ^ (32 - len)

/-- An address lies in one of the four private ranges 10.0.0.0/8,
172.16.0.0/12, 192.168.0.0/16, 169.254.0.0/16.  Only an address with an IPv4
form lies in a range. -/
def inPrivateRange (ip : IP) : Prop :=
  match IP.To4 ip with
  | some [a, b, c, d] =>
    inBlock (ipv4Value 10 0 0 0) 8 (ipv4Value a b c d) ∨
    inBlock (ipv4Value 172 16 0 0) 12 (ipv4Value a b c d) ∨
    inBlock (ipv4Value 192 168 0 0) 16 (ipv4Value a b c d) ∨
    inBlock (ipv4Value 169 254 0 0) 16 (ipv4Value a b c d)
  | _ => False

/-- Whether an interface address is a network address whose IP is private; an
address of another kind has no IP to test. -/
def Addr.isPrivate : Addr → Bool
  | .ipnet n => isPrivateIP n.ip
  | .other _ => false

/-- The text of an interface address that is a network address. -/
def Addr.text : Addr → GoString
  | .ipnet n => IP.String n.ip
  | .other t => t

/-- A path element: non-empty and without a slash. -/
def PlainElem (e : GoString) : Prop := e ≠ [] ∧ '/' ∉ e

/-- A path element other than `.` and `..`. -/
def NormalElem (e : GoString) : Prop := PlainElem e ∧ e ≠ ['.'] ∧ e ≠ ['.', '.']

instance (e : GoString) : Decidable (PlainElem e) := by
  unfold PlainElem
  infer_instance

instance (e : GoString) : Decidable (NormalElem e) := by
  unfold NormalElem
  infer_instance

/-- The cleaned path with the given rootedness and elements. -/
def render (r : Bool) (es : List GoString) : GoString :=
  if r then '/' :: joinSlash es
  else if es = [] then ['.'] else joinSlash es

/-- The states the scan of `path.Clean` can reach: normal elements on the
stack, and no leading `..` for a rooted path. -/
def CleanState.Valid (r : Bool) (st : CleanState) : Prop :=
  (∀ e ∈ st.stack, NormalElem e) ∧ (r = true → st.ups = 0)

/-- The elements a state stands for. -/
def CleanState.elems (st : CleanState) : List GoString :=
  List.replicate st.ups ['.', '.'] ++ st.stack.reverse

/-- A string that is empty or ends in a slash. -/
def EndsDir (x : GoString) : Prop := x = [] ∨ ∃ y, x = y ++ ['/']

/-- The elements of the cleaned form of a path. -/
def cleanOf (d : GoString) : List GoString := cleanElems (isRooted d) (pathElems d)

/-- A run of `Put` through root discovery and the drawing of the segment. -/
structure PutStage2 (env : Env σ H R) (c : Client) (name : GoString) (w : σ) where
  dir : GoString
  seg : GoString
  w1 : σ
  w2 : σ
  hDir : c.Dir env w = (.ok dir, w1)
  hSeg : RandomStringRunes env 40 w1 = (seg, w2)

/-- The directory `Put` creates in a run. -/
def PutStage2.randDir {env : Env σ H R} {c : Client} {name : GoString} {w : σ}
    (s : PutStage2 env c name w) : GoString := path.Join [s.dir, s.seg]

/-- The destination file of a run. -/
def PutStage2.dest {env : Env σ H R} {c : Client} {name : GoString} {w : σ}
    (s : PutStage2 env c name w) : GoString := filepath.Join [s.randDir, filepath.Base name]

/-- A run of `Put` through the creation of the directory. -/
structure PutStage3 (env : Env σ H R) (c : Client) (name : GoString) (w : σ)
    extends PutStage2 env c name w where
  w3 : σ
  hMkdir : env.mkdirAll toPutStage2.randDir w2 = (none, w3)

/-- A run of `Put` through the creation of the destination file. -/
structure PutStage4 (env : Env σ H R) (c : Client) (name : GoString) (w : σ)
    extends PutStage3 env c name w where
  dst : H
  w4 : σ
  hCreate : env.create toPutStage2.dest w3 = (.ok dst, w4)

/-- A run of `Put` through the opening of the source file. -/
structure PutStage5 (env : Env σ H R) (c : Client) (name : GoString) (w : σ)
    extends PutStage4 env c name w where
  src : H
  w5 : σ
  hOpen : env.openFile name w4 = (.ok src, w5)

/-- A run of `Put` through the reading of the source file. -/
structure PutStage6 (env : Env σ H R) (c : Client) (name : GoString) (w : σ)
    extends PutStage5 env c name w where
  body : GoString
  w6 : σ
  hRead : env.readFile src w5 = (.ok body, w6)

/-- A run of `Put` in which every step succeeds, with the values and states in
between. -/
structure PutRun (env : Env σ H R) (c : Client) (name : GoString) (w : σ)
    extends PutStage6 env c name w where
  w7 : σ
  hWrite : env.write dst body w6 = (none, w7)

/-- One of the steps of `Put` fails: root discovery, creation of the directory,
creation of the destination, opening or reading the source, or the write. -/
def PutStepFails (env : Env σ H R) (c : Client) (name : GoString) (w : σ) : Prop :=
  (∃ e w1, c.Dir env w = (.error e, w1)) ∨
  (∃ (s : PutStage2 env c name w) (e : Err) (w3 : σ),
    env.mkdirAll s.randDir s.w2 = (some e, w3)) ∨
  (∃ (s : PutStage3 env c name w) (e : Err) (w4 : σ),
    env.create s.dest s.w3 = (.error e, w4)) ∨
  (∃ (s : PutStage4 env c name w) (e : Err) (w5 : σ),
    env.openFile name s.w4 = (.error e, w5)) ∨
  (∃ (s : PutStage5 env c name w) (e : Err) (w6 : σ),
    env.readFile s.src s.w5 = (.error e, w6)) ∨
  (∃ (s : PutStage6 env c name w) (e : Err) (w7 : σ),
    env.write s.dst s.body s.w6 = (some e, w7))

/-- The absolute path a path string names when every element on the way is a
directory: the lexical result of the lookup. -/
def lexPath (cwd : AbsPath) (p : GoString) : AbsPath :=
  (pathElems p).foldl absStep (if isRooted p then [] else cwd)

/-- The second file system has everything the first has, and more directories
at most. -/
def GrowsDirs (fs fs1 : FS) : Prop :=
  ∀ p, stat fs1 p = stat fs p ∨ (stat fs p = none ∧ stat fs1 p = some .dir)

/-- Nothing that exists in the first file system is missing in the second. -/
def Keeps (fs fs1 : FS) : Prop := ∀ p, stat fs p ≠ none → stat fs1 p ≠ none

/-- The run through root discovery, when `Dir` answers `dir`. -/
def stage2Of (env : Env σ H R) (c : Client) (name : GoString) (w : σ) (dir : GoString)
    (h : (c.Dir env w).1 = .ok dir) : PutStage2 env c name w :=
  { dir := dir
    seg := (RandomStringRunes env 40 (c.Dir env w).2).1
    w1 := (c.Dir env w).2
    w2 := (RandomStringRunes env 40 (c.Dir env w).2).2
    hDir := Prod.ext h rfl
    hSeg := rfl }

/-- The run through the creation of the directory, when it succeeds. -/
def stage3Of {env : Env σ H R} {c : Client} {name : GoString} {w : σ}
    (s : PutStage2 env c name w) (h : (env.mkdirAll s.randDir s.w2).1 = none) :
    PutStage3 env c name w :=
  { s with
    w3 := (env.mkdirAll s.randDir s.w2).2
    hMkdir := Prod.ext h rfl }

/-- The run through the creation of the destination, when it succeeds. -/
def stage4Of {env : Env σ H R} {c : Client} {name : GoString} {w : σ}
    (s : PutStage3 env c name w) (dst : H) (h : (env.create s.dest s.w3).1 = .ok dst) :
    PutStage4 env c name w :=
  { s with
    dst := dst
    w4 := (env.create s.dest s.w3).2
    hCreate := Prod.ext h rfl }

/-- The absolute path a scan state stands for, from the start directory. -/
def CleanState.denote (start : AbsPath) (st : CleanState) : AbsPath :=
  (List.dropLast^[st.ups] start) ++ st.stack.reverse

/-- The second file system is the first with some nodes removed. -/
def Shrinks (fs fs1 : FS) : Prop := ∀ p, stat fs1 p = stat fs p ∨ stat fs1 p = none

/-- The last element of a path, trailing slashes left aside, is a name other
than `.` and `..`. -/
def NormalLast (p : GoString) : Prop :=
  ∃ e, (pathElems p).getLast? = some e ∧ e ≠ ['.'] ∧ e ≠ ['.', '.']

/-- A byte that stands for itself in a URL, outside the authority: not the
start of a query, of a fragment or of an escape, and no control character. -/
def urlPlain (c : Char) : Bool := c != '?' && c != '#' && c != '%' && !isCTL c

/-- A name that the path of a URL carries as it is. -/
def URLSafe (s : GoString) : Prop := ∀ c ∈ s, urlPlain c = true

instance (s : GoString) : Decidable (URLSafe s) := by
  unfold URLSafe
  infer_instance

/-- The interface addresses of the world are made of bytes. -/
def byteAddrs (w : World) : Bool :=
  match w.addrs with
  | .error _ => true
  | .ok addrs =>
    addrs.all fun a =>
      match a with
      | .ipnet n => n.ip.all (· < 256)
      | .other _ => true

/-! ## A sample world -/

/-- A small file system: the served directory `/tmp/srv` and a home directory
with two files. -/
def sampleFS : FS := fun p =>
  if p = ["tmp".toList] then some .dir
  else if p = ["tmp".toList, "srv".toList] then some .dir
  else if p = ["home".toList] then some .dir
  else if p = ["home".toList, "sample.txt".toList] then some (.file "hello".toList)
  else if p = ["home".toList, "index.html".toList] then some (.file "<p>hi</p>".toList)
  else none

/-- A world in which a server started on `/tmp/srv` is listening. -/
def sampleWorld : World where
  fs := sampleFS
  cwd := ["home".toList]
  rnd := fun i => 7 * i + 3
  drawn := 0
  addrs := .ok [.other "lo".toList, .ipnet ⟨[127, 0, 0, 1], [255, 0, 0, 0]⟩,
    .ipnet ⟨[192, 168, 1, 20], [255, 255, 255, 0]⟩]
  filesRoute := some "/tmp/srv".toList
  dirRoute := some "/tmp/srv".toList
  listening := some ":8100".toList
  listenErr := .closed
  signalled := false

/-- The client of `main`. -/
def sampleClient : Client := ⟨host, port⟩

/-- A server on the directory `dir`, with the constants of `NewTempServer`. -/
def serverOn (dir : GoString) : Server := ⟨dir, host, port, 0⟩

/-- The segment drawn from the random source of the sample world. -/
def sampleSegment : GoString := "dkryFMTahovCJQXelszGNUbipwDKRYfmtAHOVcjq".toList

/-- The run of `Put` in the sample world on a local path that does not exist,
up to the creation of the destination. -/
def missingStage : PutStage4 refEnv sampleClient "missing.txt".toList sampleWorld :=
  stage4Of
    (stage3Of (stage2Of refEnv sampleClient "missing.txt".toList sampleWorld "/tmp/srv".toList
      (by decide)) (by decide))
    ["tmp".toList, "srv".toList, sampleSegment, "missing.txt".toList] (by decide)

/-- The run of `Put` in the sample world on the local path `/`, up to the
creation of the directory. -/
def rootStage : PutStage3 refEnv sampleClient "/".toList sampleWorld :=
  stage3Of (stage2Of refEnv sampleClient "/".toList sampleWorld "/tmp/srv".toList
    (by decide)) (by decide)

/-- The sample world in which the directory of the segment about to be drawn
exists already and holds a file `f`. -/
def aliasWorld : World :=
  { sampleWorld with
    fs := fun p =>
      if p = ["tmp".toList, "srv".toList, sampleSegment] then some .dir
      else if p = ["tmp".toList, "srv".toList, sampleSegment, "f".toList] then
        some (.file "data".toList)
      else sampleFS p }

/-- The sample world with four more files in the home directory, whose names
hold a `?`, a `%`, a `#` and a tab. -/
def oddWorld : World :=
  { sampleWorld with
    fs := fun p =>
      if p = ["home".toList, "a?b.txt".toList] then some (.file "Q".toList)
      else if p = ["home".toList, "100%.txt".toList] then some (.file "P".toList)
      else if p = ["home".toList, "a#b.txt".toList] then some (.file "F".toList)
      else if p = ["home".toList, "a\tb.txt".toList] then some (.file "T".toList)
      else sampleFS p }

/-! ## Theorems -/

section Theorems

variable {σ H R : Type}

/-! ### Lemmas -/

theorem letterRunes_length : letterRunes.length = 52 := by decide

theorem letterRunes_isAlpha : ∀ c ∈ letterRunes, c.isAlpha = true ∧ c ≠ '/' ∧ c ≠ '.' := by decide

theorem RemoveAll_of_guard (env : Env σ H R) (s : Server) (w : σ)
    (h : s.dir = [] ∨ s.dir = ['/']) : s.RemoveAll env w = (none, w) := by
  unfold Server.RemoveAll
  rw [if_pos h]

/-! #### Private addresses -/

theorem to4_cases (ip : IP) : (IP.To4 ip = none ∧ ip.length ≠ 4) ∨ (∃ a b c d, IP.To4 ip = some [a, b, c, d] ∧ a ∈ ip ∧ b ∈ ip ∧ c ∈ ip ∧ d ∈ ip) := by
  unfold IP.To4
  split_ifs with h1 h2
  · right
    match ip, h1 with
    | [a, b, c, d], _ => exact ⟨a, b, c, d, rfl, by simp, by simp, by simp, by simp⟩
  · right
    obtain ⟨hl, -⟩ := h2
    match ip, hl with
    | [_, _, _, _, _, _, _, _, _, _, _, _, a, b, c, d], _ =>
      exact ⟨a, b, c, d, rfl, by simp, by simp, by simp, by simp⟩
  · left
    exact ⟨rfl, h1⟩

theorem contains_of_to4 (n0 n1 n2 n3 ones : Nat) (ip : IP) (a b c d : Nat)
    (h : IP.To4 ip = some [a, b, c, d]) (hm : (CIDRMask ones 32).length = 4) :
    (cidr4 n0 n1 n2 n3 ones).Contains ip =
      ((List.range 4).all fun i =>
        ([n0, n1, n2, n3].getD i 0 &&& (CIDRMask ones 32).getD i 0) ==
          ([a, b, c, d].getD i 0 &&& (CIDRMask ones 32).getD i 0)) := by
  have h4 : IP.To4 [n0, n1, n2, n3] = some [n0, n1, n2, n3] := rfl
  simp [IPNet.Contains, networkNumberAndMask, cidr4, h, h4, hm]

theorem land255 (a : Nat) (h : a < 256) : a &&& 255 = a := by
  have : (255 : Nat) = 2 ^ 8 - 1 := by norm_num
  rw [this, Nat.and_pow_two_sub_one_eq_mod, Nat.mod_eq_of_lt (by simpa using h)]

theorem land240 (b : Nat) (h : b < 256) : (16 = b &&& 240) ↔ (16 ≤ b ∧ b ≤ 31) := by
  interval_cases b <;> decide

theorem isPrivateIP_of_to4 (ip : IP) (a b c d : Nat) (h : IP.To4 ip = some [a, b, c, d])
    (ha : a < 256) (hb : b < 256) :
    isPrivateIP ip = true ↔ (a = 10 ∨ (a = 172 ∧ 16 ≤ b ∧ b ≤ 31) ∨ (a = 192 ∧ b = 168) ∨ (a = 169 ∧ b = 254)) := by
  unfold isPrivateIP privateIPBlocks
  simp only [List.any_cons, List.any_nil, Bool.or_false, Bool.or_eq_true]
  rw [contains_of_to4 _ _ _ _ _ ip a b c d h (by decide), contains_of_to4 _ _ _ _ _ ip a b c d h (by decide),
    contains_of_to4 _ _ _ _ _ ip a b c d h (by decide), contains_of_to4 _ _ _ _ _ ip a b c d h (by decide)]
  have e8 : CIDRMask 8 32 = [255, 0, 0, 0] := by decide
  have e12 : CIDRMask 12 32 = [255, 240, 0, 0] := by decide
  have e16 : CIDRMask 16 32 = [255, 255, 0, 0] := by decide
  rw [e8, e12, e16]
  simp [List.range_succ, land255 a ha, land255 b hb, land240 b hb]
  have c1 : (10 &&& 255 : Nat) = 10 := by decide
  have c2 : (172 &&& 255 : Nat) = 172 := by decide
  have c3 : (16 &&& 240 : Nat) = 16 := by decide
  have c4 : (192 &&& 255 : Nat) = 192 := by decide
  have c5 : (168 &&& 255 : Nat) = 168 := by decide
  have c6 : (169 &&& 255 : Nat) = 169 := by decide
  have c7 : (254 &&& 255 : Nat) = 254 := by decide
  rw [c1, c2, c3, c4, c5, c6, c7, land240 b hb]
  omega

theorem isPrivateIP_of_not_to4 (ip : IP) (h : IP.To4 ip = none) (hl : ip.length ≠ 4) :
    isPrivateIP ip = false := by
  have key : ∀ n0 n1 n2 n3 ones, (CIDRMask ones 32).length = 4 →
      (cidr4 n0 n1 n2 n3 ones).Contains ip = false := by
    intro n0 n1 n2 n3 ones hm
    have h4 : IP.To4 [n0, n1, n2, n3] = some [n0, n1, n2, n3] := rfl
    simp [IPNet.Contains, networkNumberAndMask, cidr4, h, h4, hm, hl]
  unfold isPrivateIP privateIPBlocks
  simp [key _ _ _ _ _ (by decide : (CIDRMask 8 32).length = 4),
    key _ _ _ _ _ (by decide : (CIDRMask 12 32).length = 4),
    key _ _ _ _ _ (by decide : (CIDRMask 16 32).length = 4)]

theorem inPrivateRange_of_to4 (ip : IP) (a b c d : Nat) (h : IP.To4 ip = some [a, b, c, d])
    (ha : a < 256) (hb : b < 256) (hc : c < 256) (hd : d < 256) :
    inPrivateRange ip ↔ (a = 10 ∨ (a = 172 ∧ 16 ≤ b ∧ b ≤ 31) ∨ (a = 192 ∧ b = 168) ∨ (a = 169 ∧ b = 254)) := by
  unfold inPrivateRange
  rw [h]
  simp only [inBlock, ipv4Value]
  norm_num
  omega

theorem isPrivateIP_iff (ip : IP) (hb : ∀ x ∈ ip, x < 256) :
    isPrivateIP ip = true ↔ inPrivateRange ip := by
  rcases to4_cases ip with ⟨h, hl⟩ | ⟨a, b, c, d, h, ha, hb', hc, hd⟩
  · rw [isPrivateIP_of_not_to4 ip h hl]
    simp [inPrivateRange, h]
  · rw [isPrivateIP_of_to4 ip a b c d h (hb a ha) (hb b hb'),
      inPrivateRange_of_to4 ip a b c d h (hb a ha) (hb b hb') (hb c hc) (hb d hd)]

theorem privateIP_loop_eq (addrs : List Addr) :
    privateIPLoop addrs =
      match addrs.find? Addr.isPrivate with
      | some a => a.text
      | none => "0.0.0.0".toList := by
  induction addrs with
  | nil => rfl
  | cons a rest ih =>
    cases a with
    | ipnet n =>
      by_cases hp : isPrivateIP n.ip = true
      · simp [privateIPLoop, List.find?, Addr.isPrivate, hp, Addr.text]
      · simp [privateIPLoop, List.find?, Addr.isPrivate, hp, ih]
    | other t => simp [privateIPLoop, List.find?, Addr.isPrivate, ih]

theorem string_of_to4 (ip : IP) (a b c d : Nat) (h : IP.To4 ip = some [a, b, c, d]) :
    IP.String ip =
      byteText a ++ '.' :: byteText b ++ '.' :: byteText c ++ '.' :: byteText d := by
  have hl : ip.length = 4 ∨ ip.length = 16 := by
    unfold IP.To4 at h
    split_ifs at h with h1 h2
    · exact Or.inl h1
    · exact Or.inr h2.1
  unfold IP.String
  rw [if_neg (by omega), if_neg (by omega), h]

/-! #### The random segment -/

theorem RandomStringRunes_length (env : Env σ H R) (n : Nat) (w : σ) :
    (RandomStringRunes env n w).1.length = n := by
  induction n generalizing w with
  | zero => rfl
  | succ n ih =>
    simp only [RandomStringRunes, List.length_cons, ih]

theorem RandomStringRunes_mem (env : Env σ H R) (n : Nat) (w : σ) :
    ∀ c ∈ (RandomStringRunes env n w).1, c ∈ letterRunes := by
  induction n generalizing w with
  | zero => intro c hc; simp [RandomStringRunes] at hc
  | succ n ih =>
    intro c hc
    simp only [RandomStringRunes, List.mem_cons] at hc
    rcases hc with rfl | hc
    · exact List.get_mem _ _ _
    · exact ih _ c hc

/-! #### Path elements and `path.Clean` -/

theorem pathElemsAux_cons (c : Char) (cs : GoString) :
    pathElemsAux (c :: cs) =
      if c = '/' then (false, (pathElemsAux cs).2)
      else if (pathElemsAux cs).1 = true then
        match (pathElemsAux cs).2 with
        | h :: t => (true, (c :: h) :: t)
        | [] => (true, [[c]])
      else (true, [c] :: (pathElemsAux cs).2) := by
  rcases h : pathElemsAux cs with ⟨o, r⟩
  simp [pathElemsAux, h]

theorem pathElemsAux_open (p : GoString) :
    (pathElemsAux p).1 = true → (pathElemsAux p).2 ≠ [] := by
  induction p with
  | nil => simp [pathElemsAux]
  | cons c cs ih =>
    rw [pathElemsAux_cons]
    split_ifs with h1 h2
    · simp
    · cases h : (pathElemsAux cs).2 with
      | nil => simp
      | cons x t => simp
    · simp

theorem pathElemsAux_append (a y : GoString) (hy : (pathElemsAux y).1 = false) :
    pathElemsAux (a ++ y) = ((pathElemsAux a).1, (pathElemsAux a).2 ++ (pathElemsAux y).2) := by
  induction a with
  | nil =>
    rcases h : pathElemsAux y with ⟨o, r⟩
    rw [h] at hy
    simp only at hy
    simp [pathElemsAux, h, hy]
  | cons c cs ih =>
    have hopen := pathElemsAux_open cs
    rw [List.cons_append, pathElemsAux_cons, ih, pathElemsAux_cons]
    by_cases h1 : c = '/'
    · simp [h1]
    · by_cases h2 : (pathElemsAux cs).1 = true
      · cases h : (pathElemsAux cs).2 with
        | nil => exact absurd h (hopen h2)
        | cons x t => simp [h1, h2]
      · simp [h1, h2]

theorem pathElemsAux_slash (y : GoString) : (pathElemsAux ('/' :: y)).1 = false := by
  rcases h : pathElemsAux y with ⟨o, r⟩
  simp [pathElemsAux, h]

theorem pathElems_slash (y : GoString) : pathElems ('/' :: y) = pathElems y := by
  unfold pathElems
  rcases h : pathElemsAux y with ⟨o, r⟩
  simp [pathElemsAux, h]

theorem pathElems_append_slash (a b : GoString) :
    pathElems (a ++ '/' :: b) = pathElems a ++ pathElems b := by
  unfold pathElems
  rw [pathElemsAux_append a _ (pathElemsAux_slash b)]
  show _ ++ pathElems ('/' :: b) = _
  rw [pathElems_slash]
  rfl

theorem pathElemsAux_plain (s : GoString) (hs : PlainElem s) : pathElemsAux s = (true, [s]) := by
  obtain ⟨hne, hsl⟩ := hs
  induction s with
  | nil => exact absurd rfl hne
  | cons c cs ih =>
    have hc : c ≠ '/' := fun h => hsl (by simp [h])
    have hcs : '/' ∉ cs := fun h => hsl (by simp [h])
    cases cs with
    | nil => simp [pathElemsAux, hc]
    | cons c2 cs2 =>
      have := ih (by simp) hcs
      rw [pathElemsAux_cons, this]
      simp [hc]

theorem pathElems_plain (s : GoString) (hs : PlainElem s) : pathElems s = [s] := by
  unfold pathElems
  rw [pathElemsAux_plain s hs]

theorem pathElems_nil : pathElems [] = [] := rfl

theorem pathElems_all_plain (p : GoString) : ∀ e ∈ pathElems p, PlainElem e := by
  unfold pathElems
  induction p with
  | nil => simp [pathElemsAux]
  | cons c cs ih =>
    have hopen := pathElemsAux_open cs
    rw [pathElemsAux_cons]
    by_cases h1 : c = '/'
    · simpa [h1] using ih
    · by_cases h2 : (pathElemsAux cs).1 = true
      · cases h : (pathElemsAux cs).2 with
        | nil => exact absurd h (hopen h2)
        | cons x t =>
          rw [h] at ih
          rw [if_neg h1, if_pos h2]
          intro e he
          simp only [List.mem_cons] at he
          rcases he with rfl | he
          · have hx := ih x (by simp)
            refine ⟨by simp, ?_⟩
            simp only [List.mem_cons, not_or]
            exact ⟨fun h => h1 h.symm, hx.2⟩
          · exact ih e (by simp [he])
      · rw [if_neg h1, if_neg h2]
        intro e he
        simp only [List.mem_cons] at he
        rcases he with rfl | he
        · refine ⟨by simp, ?_⟩
          simp only [List.mem_singleton]
          exact fun h => h1 h.symm
        · exact ih e he

theorem Clean_eq_render (p : GoString) :
    path.Clean p = render (isRooted p) (cleanElems (isRooted p) (pathElems p)) := by
  unfold path.Clean render
  by_cases h : isRooted p = true <;> simp [h]

theorem normalElem_plain {e : GoString} (h : NormalElem e) : PlainElem e := h.1

theorem plain_dotdot : PlainElem ['.', '.'] := by
  constructor <;> decide

theorem plain_dot : PlainElem ['.'] := by
  constructor <;> decide

theorem cleanStep_normal (r : Bool) (st : CleanState) (e : GoString) (h : NormalElem e) :
    cleanStep r st e = ⟨st.ups, e :: st.stack⟩ := by
  unfold cleanStep
  rw [if_neg h.2.1, if_neg h.2.2]

theorem foldl_cleanStep_normal (r : Bool) (xs : List GoString) (hx : ∀ e ∈ xs, NormalElem e)
    (st : CleanState) :
    xs.foldl (cleanStep r) st = ⟨st.ups, xs.reverse ++ st.stack⟩ := by
  induction xs generalizing st with
  | nil => simp
  | cons x xs ih =>
    rw [List.foldl_cons, cleanStep_normal r st x (hx x (by simp)),
      ih (fun e he => hx e (by simp [he]))]
    simp

theorem foldl_cleanStep_ups (k u : Nat) :
    (List.replicate u ['.', '.']).foldl (cleanStep false) ⟨k, []⟩ = ⟨k + u, []⟩ := by
  induction u generalizing k with
  | zero => rfl
  | succ u ih =>
    rw [List.replicate_succ, List.foldl_cons]
    have : cleanStep false ⟨k, []⟩ ['.', '.'] = ⟨k + 1, []⟩ := by
      simp [cleanStep]
    rw [this, ih]
    congr 1
    omega

theorem cleanStep_valid (r : Bool) (st : CleanState) (e : GoString)
    (hst : st.Valid r) (he : PlainElem e) : (cleanStep r st e).Valid r := by
  obtain ⟨ups, stack⟩ := st
  unfold cleanStep
  by_cases h1 : e = ['.']
  · rw [if_pos h1]
    exact hst
  · rw [if_neg h1]
    by_cases h2 : e = ['.', '.']
    · rw [if_pos h2]
      cases stack with
      | nil =>
        cases r with
        | true => simpa using hst
        | false => exact ⟨by simp, by simp⟩
      | cons x t =>
        refine ⟨?_, hst.2⟩
        intro e' he'
        exact hst.1 e' (by simp [he'])
    · rw [if_neg h2]
      refine ⟨?_, hst.2⟩
      intro e' he'
      simp only [List.mem_cons] at he'
      rcases he' with rfl | he'
      · exact ⟨he, h1, h2⟩
      · exact hst.1 e' he'

theorem foldl_cleanStep_valid (r : Bool) (es : List GoString) (he : ∀ e ∈ es, PlainElem e)
    (st : CleanState) (hst : st.Valid r) : (es.foldl (cleanStep r) st).Valid r := by
  induction es generalizing st with
  | nil => exact hst
  | cons x xs ih =>
    rw [List.foldl_cons]
    exact ih (fun e h => he e (by simp [h])) _
      (cleanStep_valid r st x hst (he x (by simp)))

theorem valid_init (r : Bool) : (⟨0, []⟩ : CleanState).Valid r :=
  ⟨by simp, fun _ => rfl⟩

theorem cleanElems_eq (r : Bool) (es : List GoString) :
    cleanElems r es = (es.foldl (cleanStep r) ⟨0, []⟩).elems := rfl

theorem foldl_cleanStep_elems (r : Bool) (st : CleanState) (hst : st.Valid r) :
    st.elems.foldl (cleanStep r) ⟨0, []⟩ = st := by
  unfold CleanState.elems
  rw [List.foldl_append]
  have hu : (List.replicate st.ups ['.', '.']).foldl (cleanStep r) ⟨0, []⟩ = ⟨st.ups, []⟩ := by
    cases r with
    | true => simp [hst.2 rfl]
    | false => simpa using foldl_cleanStep_ups 0 st.ups
  rw [hu, foldl_cleanStep_normal r _ (by simpa using hst.1)]
  simp

theorem cleanElems_idem (r : Bool) (es : List GoString) (he : ∀ e ∈ es, PlainElem e) :
    cleanElems r (cleanElems r es) = cleanElems r es := by
  rw [cleanElems_eq r es, cleanElems_eq,
    foldl_cleanStep_elems r _ (foldl_cleanStep_valid r es he _ (valid_init r))]

theorem cleanElems_append_normal (r : Bool) (es xs : List GoString)
    (hx : ∀ e ∈ xs, NormalElem e) : cleanElems r (es ++ xs) = cleanElems r es ++ xs := by
  rw [cleanElems_eq, cleanElems_eq, List.foldl_append, foldl_cleanStep_normal r xs hx]
  simp [CleanState.elems]

theorem cleanElems_clean_append (r : Bool) (es xs : List GoString)
    (he : ∀ e ∈ es, PlainElem e) :
    cleanElems r (cleanElems r es ++ xs) = cleanElems r (es ++ xs) := by
  rw [cleanElems_eq r (_ ++ xs), List.foldl_append, cleanElems_eq r es,
    foldl_cleanStep_elems r _ (foldl_cleanStep_valid r es he _ (valid_init r)),
    cleanElems_eq r (es ++ xs), List.foldl_append]

theorem cleanElems_plain (r : Bool) (es : List GoString) (he : ∀ e ∈ es, PlainElem e) :
    ∀ e ∈ cleanElems r es, PlainElem e := by
  have hv := foldl_cleanStep_valid r es he _ (valid_init r)
  rw [cleanElems_eq]
  intro e h
  simp only [CleanState.elems, List.mem_append, List.mem_replicate, List.mem_reverse] at h
  rcases h with ⟨-, rfl⟩ | h
  · exact plain_dotdot
  · exact (hv.1 e h).1

theorem isRooted_plain (e : GoString) (h : PlainElem e) : isRooted e = false := by
  obtain ⟨hne, hsl⟩ := h
  cases e with
  | nil => rfl
  | cons c cs =>
    have : c ≠ '/' := fun hc => hsl (by simp [hc])
    simp [isRooted, this]

theorem isRooted_append (a b : GoString) (ha : a ≠ []) : isRooted (a ++ b) = isRooted a := by
  cases a with
  | nil => exact absurd rfl ha
  | cons c cs => rfl

theorem joinSlash_cons_cons (e e2 : GoString) (rest : List GoString) :
    joinSlash (e :: e2 :: rest) = e ++ '/' :: joinSlash (e2 :: rest) := rfl

theorem pathElems_joinSlash (es : List GoString) (h : ∀ e ∈ es, PlainElem e) :
    pathElems (joinSlash es) = es := by
  induction es with
  | nil => rfl
  | cons e rest ih =>
    cases rest with
    | nil => exact pathElems_plain e (h e (by simp))
    | cons e2 rest =>
      rw [joinSlash_cons_cons, pathElems_append_slash, pathElems_plain e (h e (by simp)),
        ih (fun x hx => h x (by simp [hx]))]
      rfl

theorem isRooted_joinSlash (es : List GoString) (h : ∀ e ∈ es, PlainElem e) :
    isRooted (joinSlash es) = false := by
  cases es with
  | nil => rfl
  | cons e rest =>
    cases rest with
    | nil => exact isRooted_plain e (h e (by simp))
    | cons e2 rest =>
      rw [joinSlash_cons_cons, isRooted_append _ _ (h e (by simp)).1]
      exact isRooted_plain e (h e (by simp))

theorem isRooted_render (r : Bool) (es : List GoString) (h : ∀ e ∈ es, PlainElem e) :
    isRooted (render r es) = r := by
  unfold render
  cases r with
  | true => rfl
  | false =>
    by_cases he : es = []
    · simp [he, isRooted]
    · simp [he, isRooted_joinSlash es h]

theorem pathElems_render (r : Bool) (es : List GoString) (h : ∀ e ∈ es, PlainElem e)
    (hne : r = true ∨ es ≠ []) : pathElems (render r es) = es := by
  unfold render
  cases r with
  | true => simp [pathElems_slash, pathElems_joinSlash es h]
  | false =>
    have he : es ≠ [] := by simpa using hne
    simp [he, pathElems_joinSlash es h]

theorem render_ne_nil (r : Bool) (es : List GoString) (h : ∀ e ∈ es, PlainElem e) :
    render r es ≠ [] := by
  unfold render
  cases r with
  | true => simp
  | false =>
    by_cases he : es = []
    · simp [he]
    · simp only [he, if_false, Bool.false_eq_true]
      intro hj
      have := pathElems_joinSlash es h
      rw [hj] at this
      exact he this.symm

theorem joinSlash_snoc (es : List GoString) (e b : GoString) :
    joinSlash (es ++ [e, b]) = joinSlash (es ++ [e]) ++ '/' :: b := by
  induction es with
  | nil => rfl
  | cons x rest ih =>
    cases rest with
    | nil => simp [joinSlash]
    | cons y rest =>
      have h1 : (x :: y :: rest) ++ [e, b] = x :: y :: (rest ++ [e, b]) := rfl
      have h2 : (x :: y :: rest) ++ [e] = x :: y :: (rest ++ [e]) := rfl
      rw [h1, h2, joinSlash_cons_cons, joinSlash_cons_cons]
      have ih' : joinSlash (y :: (rest ++ [e, b])) = joinSlash (y :: (rest ++ [e])) ++ '/' :: b := ih
      rw [ih']
      simp

theorem render_snoc (r : Bool) (es : List GoString) (e b : GoString) :
    render r (es ++ [e, b]) = render r (es ++ [e]) ++ '/' :: b := by
  unfold render
  cases r with
  | true => simp [joinSlash_snoc]
  | false => simp [joinSlash_snoc]

theorem joinSlash_last (es : List GoString) (s : GoString) :
    ∃ x, joinSlash (es ++ [s]) = x ++ s ∧ EndsDir x := by
  induction es with
  | nil => exact ⟨[], rfl, Or.inl rfl⟩
  | cons e rest ih =>
    obtain ⟨x, hx, hd⟩ := ih
    have h1 : joinSlash ((e :: rest) ++ [s]) = e ++ '/' :: joinSlash (rest ++ [s]) := by
      cases rest <;> rfl
    refine ⟨e ++ '/' :: x, by rw [h1, hx]; simp, Or.inr ?_⟩
    rcases hd with rfl | ⟨y, rfl⟩
    · exact ⟨e, rfl⟩
    · exact ⟨e ++ '/' :: y, by simp⟩

theorem render_last (r : Bool) (es : List GoString) (s : GoString) :
    ∃ x, render r (es ++ [s]) = x ++ s ∧ EndsDir x := by
  obtain ⟨x, hx, hd⟩ := joinSlash_last es s
  unfold render
  cases r with
  | true =>
    refine ⟨'/' :: x, by simp [hx], Or.inr ?_⟩
    rcases hd with rfl | ⟨y, rfl⟩
    · exact ⟨[], rfl⟩
    · exact ⟨'/' :: y, rfl⟩
  | false => exact ⟨x, by simp [hx], hd⟩

theorem Base_append_plain (x s : GoString) (hx : EndsDir x) (hs : PlainElem s) :
    path.Base (x ++ s) = s := by
  obtain ⟨hne, hsl⟩ := hs
  have hlast : ∀ c, s.reverse.head? = some c → c ≠ '/' := by
    intro c hc
    have : c ∈ s.reverse := List.mem_of_mem_head? hc
    intro h
    exact hsl (by simpa [h] using this)
  have hrev : s.reverse ≠ [] := by simpa using hne
  unfold path.Base
  rw [if_neg (by simp [hne])]
  have hstrip : stripTrailingSlashes (x ++ s) = x ++ s := by
    unfold stripTrailingSlashes
    rw [List.reverse_append]
    cases hr : s.reverse with
    | nil => exact absurd hr hrev
    | cons c cs =>
      have hc : c ≠ '/' := hlast c (by simp [hr])
      rw [List.cons_append, List.dropWhile_cons_of_neg (by simpa using hc), ← List.cons_append, ← hr,
        ← List.reverse_append, List.reverse_reverse]
  have htake : afterLastSlash (x ++ s) = s := by
    unfold afterLastSlash
    rw [List.reverse_append]
    have hall : ∀ c ∈ s.reverse, (c != '/') = true := by
      intro c hc
      have : c ∈ s := by simpa using hc
      simp only [bne_iff_ne, ne_eq]
      intro h
      exact hsl (h ▸ this)
    rcases hx with rfl | ⟨y, rfl⟩
    · simp only [List.reverse_nil, List.append_nil]
      rw [List.takeWhile_eq_self_iff.mpr hall, List.reverse_reverse]
    · rw [List.reverse_append, List.reverse_singleton, List.singleton_append,
        List.takeWhile_append_of_pos hall]
      simp
  simp only [hstrip, htake, if_neg hne]

theorem Join_two_ne (a b : GoString) (ha : a ≠ []) :
    path.Join [a, b] = path.Clean (a ++ '/' :: b) := by
  simp [path.Join, ha, joinRaw]

theorem Join_nil_left (b : GoString) (hb : b ≠ []) : path.Join [[], b] = path.Clean b := by
  simp [path.Join, hb, joinRaw]

theorem cleanOf_plain (d : GoString) : ∀ e ∈ cleanOf d, PlainElem e :=
  cleanElems_plain _ _ (pathElems_all_plain d)

theorem cleanElems_cleanOf (d : GoString) : cleanElems (isRooted d) (cleanOf d) = cleanOf d :=
  cleanElems_idem _ _ (pathElems_all_plain d)

theorem Clean_append_normal (a : GoString) (xs : List GoString) (ha : a ≠ [])
    (hx : ∀ e ∈ xs, NormalElem e) (y : GoString) (hy : pathElems y = xs) :
    path.Clean (a ++ '/' :: y) = render (isRooted a) (cleanOf a ++ xs) := by
  rw [Clean_eq_render, isRooted_append a _ ha, pathElems_append_slash, hy,
    cleanElems_append_normal _ _ _ hx]
  rfl

theorem Join_seg (d seg : GoString) (hs : NormalElem seg) :
    path.Join [d, seg] = render (isRooted d) (cleanOf d ++ [seg]) := by
  have hx : ∀ e ∈ [seg], NormalElem e := by simpa using hs
  by_cases hd : d = []
  · subst hd
    rw [Join_nil_left seg hs.1.1, Clean_eq_render, isRooted_plain seg hs.1,
      pathElems_plain seg hs.1]
    have : cleanElems false [seg] = cleanElems false [] ++ [seg] :=
      cleanElems_append_normal false [] [seg] hx
    rw [this]
    rfl
  · rw [Join_two_ne d seg hd]
    exact Clean_append_normal d [seg] hd hx seg (pathElems_plain seg hs.1)

theorem Base_Join_seg (d seg : GoString) (hs : NormalElem seg) :
    path.Base (path.Join [d, seg]) = seg := by
  rw [Join_seg d seg hs]
  obtain ⟨x, hx, hd⟩ := render_last (isRooted d) (cleanOf d) seg
  rw [hx]
  exact Base_append_plain x seg hd hs.1

theorem plain_snoc (es : List GoString) (xs : List GoString) (he : ∀ e ∈ es, PlainElem e)
    (hx : ∀ e ∈ xs, NormalElem e) : ∀ e ∈ es ++ xs, PlainElem e := by
  intro e h
  rcases List.mem_append.mp h with h | h
  · exact he e h
  · exact (hx e h).1

theorem Join_dest (d seg base : GoString) (hs : NormalElem seg) (hb : NormalElem base) :
    filepath.Join [path.Join [d, seg], base] =
      render (isRooted d) (cleanOf d ++ [seg, base]) := by
  have hseg : ∀ e ∈ [seg], NormalElem e := by simpa using hs
  have hbase : ∀ e ∈ [base], NormalElem e := by simpa using hb
  have hpl := plain_snoc (cleanOf d) [seg] (cleanOf_plain d) hseg
  unfold filepath.Join
  rw [Join_seg d seg hs, Join_two_ne _ _ (render_ne_nil _ _ hpl), Clean_eq_render,
    isRooted_append _ _ (render_ne_nil _ _ hpl), isRooted_render _ _ hpl,
    pathElems_append_slash, pathElems_render _ _ hpl (Or.inr (by simp)),
    pathElems_plain base hb.1, cleanElems_append_normal _ _ _ hbase,
    cleanElems_append_normal _ _ _ hseg, cleanElems_cleanOf]
  simp

theorem Join_dest_child (d seg base : GoString) (hs : NormalElem seg) (hb : NormalElem base) :
    filepath.Join [path.Join [d, seg], base] = path.Join [d, seg] ++ '/' :: base := by
  rw [Join_dest d seg base hs hb, Join_seg d seg hs, render_snoc]

theorem Clean_rooted_two (seg base : GoString) (hs : NormalElem seg) (hb : NormalElem base) :
    path.Clean ('/' :: seg ++ '/' :: base) = '/' :: seg ++ '/' :: base := by
  have hx : ∀ e ∈ [seg, base], NormalElem e := by
    intro e he
    simp only [List.mem_cons, List.mem_singleton, List.not_mem_nil, or_false] at he
    rcases he with rfl | rfl
    · exact hs
    · exact hb
  have hp : pathElems ('/' :: seg ++ '/' :: base) = [seg, base] := by
    rw [List.cons_append, pathElems_slash, pathElems_append_slash, pathElems_plain seg hs.1,
      pathElems_plain base hb.1]
    rfl
  rw [Clean_eq_render, hp]
  have : cleanElems true [seg, base] = cleanElems true [] ++ [seg, base] :=
    cleanElems_append_normal true [] [seg, base] hx
  simp only [List.cons_append, isRooted, beq_self_eq_true]
  rw [this]
  simp [render, cleanElems, joinSlash]

theorem cleanOf_httpRoot (d : GoString) :
    isRooted (httpRoot d) = isRooted d ∧ cleanOf (httpRoot d) = cleanOf d := by
  unfold httpRoot
  by_cases hd : d = []
  · subst hd
    simp only [if_true]
    constructor
    · rfl
    · decide
  · simp [hd]

theorem httpRoot_ne_nil (d : GoString) : httpRoot d ≠ [] := by
  unfold httpRoot
  by_cases hd : d = [] <;> simp [hd]

theorem Join_httpRoot (d seg base : GoString) (hs : NormalElem seg) (hb : NormalElem base) :
    filepath.Join [httpRoot d, path.Clean ('/' :: path.Clean ('/' :: seg ++ '/' :: base))] =
      filepath.Join [path.Join [d, seg], base] := by
  have hx : ∀ e ∈ [seg, base], NormalElem e := by
    intro e he
    simp only [List.mem_cons, List.mem_singleton, List.not_mem_nil, or_false] at he
    rcases he with rfl | rfl
    · exact hs
    · exact hb
  have hp : pathElems ('/' :: seg ++ '/' :: base) = [seg, base] := by
    rw [List.cons_append, pathElems_slash, pathElems_append_slash, pathElems_plain seg hs.1,
      pathElems_plain base hb.1]
    rfl
  rw [Join_dest d seg base hs hb, Clean_rooted_two seg base hs hb]
  have h2 : path.Clean ('/' :: ('/' :: seg ++ '/' :: base)) = '/' :: seg ++ '/' :: base := by
    rw [Clean_eq_render]
    have hp2 : pathElems ('/' :: ('/' :: seg ++ '/' :: base)) = [seg, base] := by
      rw [pathElems_slash, hp]
    rw [hp2]
    have : cleanElems true [seg, base] = cleanElems true [] ++ [seg, base] :=
      cleanElems_append_normal true [] [seg, base] hx
    simp only [isRooted, beq_self_eq_true]
    rw [this]
    simp [render, cleanElems, joinSlash]
  rw [h2]
  unfold filepath.Join
  rw [Join_two_ne _ _ (httpRoot_ne_nil d),
    Clean_append_normal (httpRoot d) [seg, base] (httpRoot_ne_nil d) hx _ hp,
    (cleanOf_httpRoot d).1, (cleanOf_httpRoot d).2]

theorem letters_normal (s : GoString) (hne : s ≠ []) (hl : ∀ c ∈ s, c ∈ letterRunes) :
    NormalElem s := by
  refine ⟨⟨hne, ?_⟩, ?_, ?_⟩
  · intro h
    exact (letterRunes_isAlpha _ (hl _ h)).2.1 rfl
  · intro h
    have := hl '.' (by simp [h])
    exact (letterRunes_isAlpha _ this).2.2 rfl
  · intro h
    have := hl '.' (by simp [h])
    exact (letterRunes_isAlpha _ this).2.2 rfl

theorem segment_normal (env : Env σ H R) (w : σ) :
    NormalElem (RandomStringRunes env 40 w).1 := by
  apply letters_normal
  · intro h
    have := RandomStringRunes_length env 40 w
    rw [h] at this
    simp at this
  · exact RandomStringRunes_mem env 40 w

theorem Join_served (d seg : GoString) (hs : NormalElem seg) :
    filepath.Join [httpRoot d, '/' :: seg] = path.Join [d, seg] := by
  have hx : ∀ e ∈ [seg], NormalElem e := by simpa using hs
  unfold filepath.Join
  rw [Join_two_ne _ _ (httpRoot_ne_nil d),
    Clean_append_normal (httpRoot d) [seg] (httpRoot_ne_nil d) hx ('/' :: seg)
      (by rw [pathElems_slash, pathElems_plain seg hs.1]),
    (cleanOf_httpRoot d).1, (cleanOf_httpRoot d).2, Join_seg d seg hs]

/-! #### The reference file system -/

theorem walk_eq_foldl (fs : FS) (cur : AbsPath) (es : List GoString) (t : AbsPath)
    (h : walk fs cur es = .ok t) : t = es.foldl absStep cur := by
  induction es generalizing cur with
  | nil =>
    simp only [walk, Except.ok.injEq] at h
    simp [h]
  | cons e es ih =>
    unfold walk at h
    split at h
    · exact ih _ h
    · exact absurd h (by simp)
    · exact absurd h (by simp)

theorem foldl_kernelElems (cur : AbsPath) (p : GoString) :
    (kernelElems p).foldl absStep cur = (pathElems p).foldl absStep cur := by
  unfold kernelElems
  split_ifs
  · rw [List.foldl_append]
    simp [absStep]
  · rfl

theorem namei_lex (w : World) (p : GoString) (t : AbsPath) (h : namei w p = .ok t) :
    t = lexPath w.cwd p := by
  unfold namei at h
  by_cases hp : p = []
  · rw [if_pos hp] at h
    exact absurd h (by simp)
  · rw [if_neg hp] at h
    rw [walk_eq_foldl _ _ _ _ h, foldl_kernelElems]
    rfl

theorem stat_setNode (fs : FS) (q : AbsPath) (n : Option Node) (p : AbsPath) (hq : q ≠ []) :
    stat (setNode fs q n) p = if p = q then n else stat fs p := by
  unfold stat setNode
  by_cases h1 : p = []
  · subst h1
    have : ¬ ([] = q) := fun h => hq h.symm
    simp [this]
  · simp [h1]

theorem stat_root (fs : FS) : stat fs [] = some .dir := by
  simp [stat]

theorem absStep_normal (cur : AbsPath) (e : GoString) (h1 : e ≠ ['.']) (h2 : e ≠ ['.', '.']) :
    absStep cur e = cur ++ [e] := by
  unfold absStep
  rw [if_neg h1, if_neg h2]

theorem growsDirs_refl (fs : FS) : GrowsDirs fs fs := fun _ => Or.inl rfl

theorem growsDirs_trans {a b c : FS} (h1 : GrowsDirs a b) (h2 : GrowsDirs b c) :
    GrowsDirs a c := by
  intro p
  rcases h1 p with h | ⟨h, h'⟩
  · rcases h2 p with k | ⟨k, k'⟩
    · exact Or.inl (k.trans h)
    · exact Or.inr ⟨h ▸ k, k'⟩
  · rcases h2 p with k | ⟨k, k'⟩
    · exact Or.inr ⟨h, k.trans h'⟩
    · rw [h'] at k
      exact absurd k (by simp)

theorem mkdirWalk_spec (fs : FS) (cur : AbsPath) (es : List GoString) :
    GrowsDirs fs (mkdirWalk fs cur es).2 ∧
      ((mkdirWalk fs cur es).1 = none →
        stat (mkdirWalk fs cur es).2 (es.foldl absStep cur) = some .dir) := by
  induction es generalizing fs cur with
  | nil =>
    unfold mkdirWalk
    split <;> simp_all [growsDirs_refl]
  | cons e es ih =>
    unfold mkdirWalk
    split
    · split_ifs with hdot
      · have := ih fs (absStep cur e)
        simpa using this
      · have hn : absStep cur e = cur ++ [e] :=
          absStep_normal cur e (fun h => hdot (Or.inl h)) (fun h => hdot (Or.inr h))
        split
        · rename_i hnone
          have := ih (setNode fs (cur ++ [e]) (some .dir)) (cur ++ [e])
          refine ⟨growsDirs_trans ?_ this.1, ?_⟩
          · intro p
            rw [stat_setNode _ _ _ _ (by simp)]
            by_cases hp : p = cur ++ [e]
            · right
              simp [hp, hnone]
            · left
              simp [hp]
          · rw [List.foldl_cons, hn]
            exact this.2
        · have := ih fs (cur ++ [e])
          rw [List.foldl_cons, hn]
          exact this
    · simp [growsDirs_refl]
    · simp [growsDirs_refl]

theorem osMkdirAll_spec (p : GoString) (w : World) :
    (osMkdirAll p w).2 = { w with fs := (osMkdirAll p w).2.fs } ∧
      GrowsDirs w.fs (osMkdirAll p w).2.fs ∧
      ((osMkdirAll p w).1 = none → stat (osMkdirAll p w).2.fs (lexPath w.cwd p) = some .dir) := by
  unfold osMkdirAll
  by_cases h : p = []
  · rw [if_pos h]
    simp [growsDirs_refl]
  · rw [if_neg h]
    have := mkdirWalk_spec w.fs (if isRooted p then [] else w.cwd) (pathElems p)
    rcases hm : mkdirWalk w.fs (if isRooted p then [] else w.cwd) (pathElems p) with ⟨e, fs1⟩
    rw [hm] at this
    exact ⟨rfl, this.1, this.2⟩

theorem osCreate_ok (p : GoString) (w : World) (t : AbsPath) (w1 : World)
    (h : osCreate p w = (.ok t, w1)) :
    namei w p = .ok t ∧ stat w.fs t ≠ some .dir ∧ t ≠ [] ∧
      w1 = { w with fs := setNode w.fs t (some (.file [])) } := by
  unfold osCreate at h
  split at h
  · simp at h
  · rename_i t' hn
    have hroot : ∀ x : AbsPath, stat w.fs x ≠ some .dir → x ≠ [] := by
      intro x hx hx'
      subst hx'
      exact hx (stat_root _)
    split at h
    · simp at h
    · rename_i b hs
      simp only [Prod.mk.injEq, Except.ok.injEq] at h
      obtain ⟨rfl, rfl⟩ := h
      have : stat w.fs t' ≠ some .dir := by simp [hs]
      exact ⟨hn, this, hroot _ this, rfl⟩
    · rename_i hs
      split at h
      · simp only [Prod.mk.injEq, Except.ok.injEq] at h
        obtain ⟨rfl, rfl⟩ := h
        have : stat w.fs t' ≠ some .dir := by simp [hs]
        exact ⟨hn, this, hroot _ this, rfl⟩
      · simp at h
      · simp at h

theorem osCreate_err (p : GoString) (w : World) (e : Err) (w1 : World)
    (h : osCreate p w = (.error e, w1)) : w1 = w := by
  unfold osCreate at h
  split at h
  · simp only [Prod.mk.injEq] at h; exact h.2.symm
  · split at h
    · simp only [Prod.mk.injEq] at h; exact h.2.symm
    · simp at h
    · split at h
      · simp at h
      · simp only [Prod.mk.injEq] at h; exact h.2.symm
      · simp only [Prod.mk.injEq] at h; exact h.2.symm

theorem osOpen_world (p : GoString) (w : World) : (osOpen p w).2 = w := by
  unfold osOpen
  split
  · rfl
  · split <;> rfl

theorem osOpen_ok (p : GoString) (w : World) (t : AbsPath) (w1 : World)
    (h : osOpen p w = (.ok t, w1)) : namei w p = .ok t ∧ stat w.fs t ≠ none ∧ w1 = w := by
  unfold osOpen at h
  split at h
  · simp at h
  · rename_i t' hn
    split at h
    · simp at h
    · rename_i n hs
      simp only [Prod.mk.injEq, Except.ok.injEq] at h
      obtain ⟨rfl, rfl⟩ := h
      exact ⟨hn, by simp [hs], rfl⟩

theorem osReadAll_world (t : AbsPath) (w : World) : (osReadAll t w).2 = w := by
  unfold osReadAll
  split <;> rfl

theorem osReadAll_ok (t : AbsPath) (w : World) (b : GoString) (w1 : World)
    (h : osReadAll t w = (.ok b, w1)) : stat w.fs t = some (.file b) ∧ w1 = w := by
  unfold osReadAll at h
  split at h
  · rename_i b' hs
    simp only [Prod.mk.injEq, Except.ok.injEq] at h
    obtain ⟨rfl, rfl⟩ := h
    exact ⟨hs, rfl⟩
  · simp at h
  · simp at h

theorem osWrite_ok (t : AbsPath) (b : GoString) (w w1 : World)
    (h : osWrite t b w = (none, w1)) :
    ∃ old, stat w.fs t = some (.file old) ∧ t ≠ [] ∧
      w1 = { w with fs := setNode w.fs t (some (.file (b ++ old.drop b.length))) } := by
  unfold osWrite at h
  split at h
  · rename_i old hs
    simp only [Prod.mk.injEq, true_and] at h
    refine ⟨old, hs, ?_, h.symm⟩
    intro ht
    subst ht
    rw [stat_root] at hs
    simp at hs
  · simp at h

theorem osWrite_err (t : AbsPath) (b : GoString) (w w1 : World) (e : Err)
    (h : osWrite t b w = (some e, w1)) : w1 = w := by
  unfold osWrite at h
  split at h
  · simp at h
  · simp only [Prod.mk.injEq] at h; exact h.2.symm

theorem RandomStringRunes_world (n : Nat) (w : World) :
    (RandomStringRunes refEnv n w).2 = { w with drawn := w.drawn + n } := by
  induction n generalizing w with
  | zero => rfl
  | succ n ih =>
    simp only [RandomStringRunes, randIntn]
    rw [ih]
    simp [refEnv]
    omega

theorem Dir_world (c : Client) (w : World) : (c.Dir refEnv w).2 = w := by
  unfold Client.Dir
  have h1 : ∀ url, (refEnv.httpGet url w).2 = w := by
    intro url
    simp only [refEnv, osHttpGet]
    split <;> rfl
  have h2 : ∀ r w, (refEnv.readBody r w).2 = w := by
    intro r w
    simp only [refEnv, osReadBody]
    split <;> rfl
  split
  · rename_i e w1 h
    have := h1 ("http://".toList ++ c.host ++ ':' :: c.port ++ "/dir".toList)
    rw [h] at this
    exact this
  · rename_i resp w1 h
    have e1 := h1 ("http://".toList ++ c.host ++ ':' :: c.port ++ "/dir".toList)
    rw [h] at e1
    simp only at e1
    subst e1
    split
    · rename_i e w2 h'
      have := h2 resp w1
      rw [h'] at this
      exact this
    · rename_i b w2 h'
      have := h2 resp w1
      rw [h'] at this
      exact this

theorem keeps_refl (fs : FS) : Keeps fs fs := fun _ h => h

theorem keeps_trans {a b c : FS} (h1 : Keeps a b) (h2 : Keeps b c) : Keeps a c :=
  fun p h => h2 p (h1 p h)

theorem growsDirs_keeps {a b : FS} (h : GrowsDirs a b) : Keeps a b := by
  intro p hp
  rcases h p with k | ⟨k, -⟩
  · rw [k]; exact hp
  · exact absurd k hp

theorem keeps_setNode (fs : FS) (q : AbsPath) (n : Node) : Keeps fs (setNode fs q (some n)) := by
  intro p hp
  unfold stat setNode at *
  by_cases h1 : p = []
  · simp [h1]
  · by_cases h2 : p = q
    · subst h2
      simp [h1]
    · simpa [h1, h2] using hp

theorem osMkdirAll_keeps (p : GoString) (w : World) : Keeps w.fs (osMkdirAll p w).2.fs :=
  growsDirs_keeps (osMkdirAll_spec p w).2.1

theorem osCreate_keeps (p : GoString) (w : World) : Keeps w.fs (osCreate p w).2.fs := by
  rcases h : osCreate p w with ⟨e | t, w1⟩
  · rw [osCreate_err p w e w1 h]
    exact keeps_refl _
  · rw [(osCreate_ok p w t w1 h).2.2.2]
    exact keeps_setNode _ _ _

theorem osWrite_keeps (t : AbsPath) (b : GoString) (w : World) : Keeps w.fs (osWrite t b w).2.fs := by
  rcases h : osWrite t b w with ⟨_ | e, w1⟩
  · obtain ⟨old, -, -, hw⟩ := osWrite_ok t b w w1 h
    rw [hw]
    exact keeps_setNode _ _ _
  · rw [osWrite_err t b w w1 e h]
    exact keeps_refl _

/-! #### Runs of `Put` -/

theorem Put_of_run {env : Env σ H R} {c : Client} {name : GoString} {w : σ}
    (r : PutRun env c name w) :
    c.Put env name w =
      ⟨none, urlLine (privateIP env r.w7) (path.Base r.randDir) (filepath.Base name),
        env.close r.dst (env.close r.src r.w7)⟩ := by
  have h3 := r.hMkdir
  have h4 := r.hCreate
  unfold PutStage2.dest at h4
  unfold PutStage2.randDir at h3 h4 ⊢
  unfold Client.Put
  simp only [r.hDir, r.hSeg, h3, h4, r.hOpen, r.hRead, r.hWrite]

/-- The ways `Put` can end: at one of its six fallible steps, or in success. -/
theorem Put_eq_cases (env : Env σ H R) (c : Client) (name : GoString) (w : σ) :
    (∃ e w1, c.Dir env w = (.error e, w1) ∧ c.Put env name w = ⟨some e, [], w1⟩) ∨
    (∃ (s : PutStage2 env c name w) (e : Err) (w3 : σ),
      env.mkdirAll s.randDir s.w2 = (some e, w3) ∧ c.Put env name w = ⟨some e, [], w3⟩) ∨
    (∃ (s : PutStage3 env c name w) (e : Err) (w4 : σ),
      env.create s.dest s.w3 = (.error e, w4) ∧ c.Put env name w = ⟨some e, [], w4⟩) ∨
    (∃ (s : PutStage4 env c name w) (e : Err) (w5 : σ),
      env.openFile name s.w4 = (.error e, w5) ∧
        c.Put env name w = ⟨some e, [], env.close s.dst w5⟩) ∨
    (∃ (s : PutStage5 env c name w) (e : Err) (w6 : σ),
      env.readFile s.src s.w5 = (.error e, w6) ∧
        c.Put env name w = ⟨some e, [], env.close s.dst (env.close s.src w6)⟩) ∨
    (∃ (s : PutStage6 env c name w) (e : Err) (w7 : σ),
      env.write s.dst s.body s.w6 = (some e, w7) ∧
        c.Put env name w = ⟨some e, [], env.close s.dst (env.close s.src w7)⟩) ∨
    (∃ r : PutRun env c name w,
      c.Put env name w =
        ⟨none, urlLine (privateIP env r.w7) (path.Base r.randDir) (filepath.Base name),
          env.close r.dst (env.close r.src r.w7)⟩) := by
  rcases h1 : c.Dir env w with ⟨e | dir, w1⟩
  · left
    exact ⟨e, w1, rfl, by simp only [Client.Put, h1]⟩
  right
  rcases h2 : RandomStringRunes env 40 w1 with ⟨seg, w2⟩
  let s2 : PutStage2 env c name w := ⟨dir, seg, w1, w2, h1, h2⟩
  rcases h3 : env.mkdirAll (path.Join [dir, seg]) w2 with ⟨_ | e, w3⟩
  swap
  · left
    exact ⟨s2, e, w3, h3, by simp only [Client.Put, h1, h2, h3]⟩
  right
  let s3 : PutStage3 env c name w := ⟨s2, w3, h3⟩
  rcases h4 : env.create (filepath.Join [path.Join [dir, seg], filepath.Base name]) w3
    with ⟨e | dst, w4⟩
  · left
    exact ⟨s3, e, w4, h4, by simp only [Client.Put, h1, h2, h3, h4]⟩
  right
  let s4 : PutStage4 env c name w := ⟨s3, dst, w4, h4⟩
  rcases h5 : env.openFile name w4 with ⟨e | src, w5⟩
  · left
    exact ⟨s4, e, w5, h5, by simp only [Client.Put, h1, h2, h3, h4, h5]⟩
  right
  let s5 : PutStage5 env c name w := ⟨s4, src, w5, h5⟩
  rcases h6 : env.readFile src w5 with ⟨e | body, w6⟩
  · left
    exact ⟨s5, e, w6, h6, by simp only [Client.Put, h1, h2, h3, h4, h5, h6]⟩
  right
  let s6 : PutStage6 env c name w := ⟨s5, body, w6, h6⟩
  rcases h7 : env.write dst body w6 with ⟨_ | e, w7⟩
  swap
  · left
    exact ⟨s6, e, w7, h7, by simp only [Client.Put, h1, h2, h3, h4, h5, h6, h7]⟩
  right
  exact ⟨⟨s6, w7, h7⟩, Put_of_run _⟩

theorem stage2_ref {c : Client} {name : GoString} {w : World}
    (s : PutStage2 refEnv c name w) :
    s.w1 = w ∧ s.w2 = { w with drawn := w.drawn + 40 } ∧
      s.seg = (RandomStringRunes refEnv 40 w).1 ∧ NormalElem s.seg := by
  have h1 : s.w1 = w := by
    have := Dir_world c w
    rw [s.hDir] at this
    exact this
  have h2 := RandomStringRunes_world 40 s.w1
  have h3 := segment_normal refEnv s.w1
  rw [s.hSeg] at h2 h3
  simp only at h2 h3
  have h4 : s.seg = (RandomStringRunes refEnv 40 s.w1).1 := by rw [s.hSeg]
  rw [h1] at h2 h4
  exact ⟨h1, h2, h4, h3⟩

theorem stage3_ref {c : Client} {name : GoString} {w : World}
    (s : PutStage3 refEnv c name w) :
    s.w3 = { w with drawn := w.drawn + 40, fs := s.w3.fs } ∧ GrowsDirs w.fs s.w3.fs ∧
      stat s.w3.fs (lexPath w.cwd s.randDir) = some .dir := by
  have h := osMkdirAll_spec s.randDir s.w2
  have hm : osMkdirAll s.randDir s.w2 = (none, s.w3) := s.hMkdir
  rw [hm] at h
  simp only [forall_const] at h
  obtain ⟨h1, h2, h3⟩ := h
  have hw2 := (stage2_ref s.toPutStage2).2.1
  rw [hw2] at h1 h2 h3
  exact ⟨h1, h2, h3⟩

theorem stage4_ref {c : Client} {name : GoString} {w : World}
    (s : PutStage4 refEnv c name w) :
    s.dst = lexPath w.cwd s.dest ∧ s.dst ≠ [] ∧ stat s.w3.fs s.dst ≠ some .dir ∧
      namei s.w3 s.dest = .ok s.dst ∧
      s.w4 = { w with drawn := w.drawn + 40, fs := setNode s.w3.fs s.dst (some (.file [])) } := by
  have hc : osCreate s.dest s.w3 = (.ok s.dst, s.w4) := s.hCreate
  obtain ⟨h1, h2, h3, h4⟩ := osCreate_ok _ _ _ _ hc
  have hw3 := (stage3_ref s.toPutStage3).1
  have hcwd : s.w3.cwd = w.cwd := by rw [hw3]
  refine ⟨?_, h3, h2, h1, ?_⟩
  · rw [namei_lex _ _ _ h1, hcwd]
  · rw [h4]
    conv_lhs => rw [hw3]

theorem stage5_ref {c : Client} {name : GoString} {w : World}
    (s : PutStage5 refEnv c name w) :
    s.w5 = s.w4 ∧ s.src = lexPath w.cwd name ∧ namei s.w4 name = .ok s.src ∧
      stat s.w4.fs s.src ≠ none := by
  have ho : osOpen name s.w4 = (.ok s.src, s.w5) := s.hOpen
  obtain ⟨h1, h2, h3⟩ := osOpen_ok _ _ _ _ ho
  have hcwd : s.w4.cwd = w.cwd := by rw [(stage4_ref s.toPutStage4).2.2.2.2]
  exact ⟨h3, by rw [namei_lex _ _ _ h1, hcwd], h1, h2⟩

theorem stage6_ref {c : Client} {name : GoString} {w : World}
    (s : PutStage6 refEnv c name w) :
    s.w6 = s.w4 ∧ stat s.w4.fs s.src = some (.file s.body) := by
  have hr : osReadAll s.src s.w5 = (.ok s.body, s.w6) := s.hRead
  obtain ⟨h1, h2⟩ := osReadAll_ok _ _ _ _ hr
  have h5 := (stage5_ref s.toPutStage5).1
  rw [h5] at h1 h2
  exact ⟨h2, h1⟩

theorem setNode_setNode (fs : FS) (q : AbsPath) (a b : Option Node) :
    setNode (setNode fs q a) q b = setNode fs q b := by
  funext p
  unfold setNode
  by_cases h : p = q <;> simp [h]

theorem run_ref {c : Client} {name : GoString} {w : World} (r : PutRun refEnv c name w) :
    r.w7 = { w with drawn := w.drawn + 40,
                    fs := setNode r.w3.fs r.dst (some (.file r.body)) } := by
  have hw : osWrite r.dst r.body r.w6 = (none, r.w7) := r.hWrite
  obtain ⟨old, h1, h2, h3⟩ := osWrite_ok _ _ _ _ hw
  have h6 := (stage6_ref r.toPutStage6).1
  have h4 := (stage4_ref r.toPutStage4).2.2.2.2
  rw [h6, h4] at h1 h3
  simp only at h1 h3
  rw [stat_setNode _ _ _ _ h2, if_pos rfl] at h1
  simp only [Option.some.injEq, Node.file.injEq] at h1
  subst h1
  rw [h3, setNode_setNode]
  simp

theorem Put_keeps (c : Client) (name : GoString) (w : World) :
    Keeps w.fs (c.Put refEnv name w).world.fs := by
  have k3 : ∀ s : PutStage3 refEnv c name w, Keeps w.fs s.w3.fs :=
    fun s => growsDirs_keeps (stage3_ref s).2.1
  have k4 : ∀ s : PutStage4 refEnv c name w, Keeps w.fs s.w4.fs := by
    intro s
    rw [(stage4_ref s).2.2.2.2]
    exact keeps_trans (k3 s.toPutStage3) (keeps_setNode _ _ _)
  rcases Put_eq_cases refEnv c name w with ⟨e, w1, h, hP⟩ | ⟨s, e, w3, h, hP⟩ |
    ⟨s, e, w4, h, hP⟩ | ⟨s, e, w5, h, hP⟩ | ⟨s, e, w6, h, hP⟩ | ⟨s, e, w7, h, hP⟩ | ⟨r, hP⟩
  · rw [hP]
    have := Dir_world c w
    rw [h] at this
    simp only at this ⊢
    rw [this]
    exact keeps_refl _
  · rw [hP]
    have := osMkdirAll_keeps s.randDir s.w2
    have hm : osMkdirAll s.randDir s.w2 = (some e, w3) := h
    rw [hm, (stage2_ref s).2.1] at this
    exact this
  · rw [hP]
    have := osCreate_err _ _ _ _ (show osCreate s.dest s.w3 = (.error e, w4) from h)
    simp only
    rw [this]
    exact k3 s
  · rw [hP]
    have := osOpen_world name s.w4
    rw [show osOpen name s.w4 = (.error e, w5) from h] at this
    simp only at this
    show Keeps w.fs w5.fs
    rw [this]
    exact k4 s
  · rw [hP]
    have := osReadAll_world s.src s.w5
    rw [show osReadAll s.src s.w5 = (.error e, w6) from h] at this
    simp only at this
    show Keeps w.fs w6.fs
    rw [this, (stage5_ref s).1]
    exact k4 s.toPutStage4
  · rw [hP]
    have := osWrite_err _ _ _ _ _ (show osWrite s.dst s.body s.w6 = (some e, w7) from h)
    show Keeps w.fs w7.fs
    rw [this, (stage6_ref s).1]
    exact k4 s.toPutStage4
  · rw [hP]
    show Keeps w.fs r.w7.fs
    rw [run_ref r]
    exact keeps_trans (k3 r.toPutStage3) (keeps_setNode _ _ _)

theorem Put_fail_dir {env : Env σ H R} {c : Client} {name : GoString} {w : σ} {e : Err} {w1 : σ}
    (h : c.Dir env w = (.error e, w1)) : c.Put env name w = ⟨some e, [], w1⟩ := by
  simp only [Client.Put, h]

theorem Put_fail_mkdir {env : Env σ H R} {c : Client} {name : GoString} {w : σ}
    (s : PutStage2 env c name w) {e : Err} {w3 : σ}
    (h : env.mkdirAll s.randDir s.w2 = (some e, w3)) :
    c.Put env name w = ⟨some e, [], w3⟩ := by
  unfold PutStage2.randDir at h
  simp only [Client.Put, s.hDir, s.hSeg, h]

theorem Put_fail_create {env : Env σ H R} {c : Client} {name : GoString} {w : σ}
    (s : PutStage3 env c name w) {e : Err} {w4 : σ}
    (h : env.create s.dest s.w3 = (.error e, w4)) :
    c.Put env name w = ⟨some e, [], w4⟩ := by
  have h3 := s.hMkdir
  unfold PutStage2.dest at h
  unfold PutStage2.randDir at h h3
  simp only [Client.Put, s.hDir, s.hSeg, h3, h]

theorem Put_fail_open {env : Env σ H R} {c : Client} {name : GoString} {w : σ}
    (s : PutStage4 env c name w) {e : Err} {w5 : σ}
    (h : env.openFile name s.w4 = (.error e, w5)) :
    c.Put env name w = ⟨some e, [], env.close s.dst w5⟩ := by
  have h3 := s.hMkdir
  have h4 := s.hCreate
  unfold PutStage2.dest at h4
  unfold PutStage2.randDir at h3 h4
  simp only [Client.Put, s.hDir, s.hSeg, h3, h4, h]

theorem Put_fail_read {env : Env σ H R} {c : Client} {name : GoString} {w : σ}
    (s : PutStage5 env c name w) {e : Err} {w6 : σ}
    (h : env.readFile s.src s.w5 = (.error e, w6)) :
    c.Put env name w = ⟨some e, [], env.close s.dst (env.close s.src w6)⟩ := by
  have h3 := s.hMkdir
  have h4 := s.hCreate
  unfold PutStage2.dest at h4
  unfold PutStage2.randDir at h3 h4
  simp only [Client.Put, s.hDir, s.hSeg, h3, h4, s.hOpen, h]

theorem Put_fail_write {env : Env σ H R} {c : Client} {name : GoString} {w : σ}
    (s : PutStage6 env c name w) {e : Err} {w7 : σ}
    (h : env.write s.dst s.body s.w6 = (some e, w7)) :
    c.Put env name w = ⟨some e, [], env.close s.dst (env.close s.src w7)⟩ := by
  have h3 := s.hMkdir
  have h4 := s.hCreate
  unfold PutStage2.dest at h4
  unfold PutStage2.randDir at h3 h4
  simp only [Client.Put, s.hDir, s.hSeg, h3, h4, s.hOpen, s.hRead, h]

theorem Put_err_iff (env : Env σ H R) (c : Client) (name : GoString) (w : σ) :
    (c.Put env name w).err ≠ none ↔ PutStepFails env c name w := by
  constructor
  · intro h
    rcases Put_eq_cases env c name w with ⟨e, w1, h1, -⟩ | ⟨s, e, w3, h1, -⟩ |
      ⟨s, e, w4, h1, -⟩ | ⟨s, e, w5, h1, -⟩ | ⟨s, e, w6, h1, -⟩ | ⟨s, e, w7, h1, -⟩ | ⟨r, hP⟩
    · exact Or.inl ⟨e, w1, h1⟩
    · exact Or.inr (Or.inl ⟨s, e, w3, h1⟩)
    · exact Or.inr (Or.inr (Or.inl ⟨s, e, w4, h1⟩))
    · exact Or.inr (Or.inr (Or.inr (Or.inl ⟨s, e, w5, h1⟩)))
    · exact Or.inr (Or.inr (Or.inr (Or.inr (Or.inl ⟨s, e, w6, h1⟩))))
    · exact Or.inr (Or.inr (Or.inr (Or.inr (Or.inr ⟨s, e, w7, h1⟩))))
    · rw [hP] at h
      exact absurd rfl h
  · rintro (⟨e, w1, h⟩ | ⟨s, e, w3, h⟩ | ⟨s, e, w4, h⟩ | ⟨s, e, w5, h⟩ | ⟨s, e, w6, h⟩ |
      ⟨s, e, w7, h⟩)
    · rw [Put_fail_dir h]; simp
    · rw [Put_fail_mkdir s h]; simp
    · rw [Put_fail_create s h]; simp
    · rw [Put_fail_open s h]; simp
    · rw [Put_fail_read s h]; simp
    · rw [Put_fail_write s h]; simp

theorem Put_out_iff (env : Env σ H R) (c : Client) (name : GoString) (w : σ) :
    (c.Put env name w).out = [] ↔ (c.Put env name w).err ≠ none := by
  rcases Put_eq_cases env c name w with ⟨e, w1, -, hP⟩ | ⟨s, e, w3, -, hP⟩ |
    ⟨s, e, w4, -, hP⟩ | ⟨s, e, w5, -, hP⟩ | ⟨s, e, w6, -, hP⟩ | ⟨s, e, w7, -, hP⟩ | ⟨r, hP⟩
  all_goals rw [hP]
  all_goals try simp
  simp [urlLine]

theorem Put_open_failure {c : Client} {name : GoString} {w : World}
    (s : PutStage4 refEnv c name w) (e : Err) (w5 : World)
    (h : refEnv.openFile name s.w4 = (.error e, w5)) :
    (c.Put refEnv name w).err = some e ∧ (c.Put refEnv name w).out = [] ∧
      stat (c.Put refEnv name w).world.fs (lexPath w.cwd s.randDir) = some .dir ∧
      stat (c.Put refEnv name w).world.fs (lexPath w.cwd s.dest) = some (.file []) := by
  rw [Put_fail_open s h]
  have hw := osOpen_world name s.w4
  rw [show osOpen name s.w4 = (.error e, w5) from h] at hw
  simp only at hw
  obtain ⟨h1, h2, h3, -, h5⟩ := stage4_ref s
  have hd := (stage3_ref s.toPutStage3).2.2
  refine ⟨rfl, rfl, ?_, ?_⟩
  · show stat w5.fs _ = _
    rw [hw, h5]
    simp only
    rw [stat_setNode _ _ _ _ h2, if_neg, hd]
    intro heq
    rw [heq] at hd
    exact h3 hd
  · show stat w5.fs _ = _
    rw [hw, h5, ← h1]
    simp only
    rw [stat_setNode _ _ _ _ h2, if_pos rfl]

/-! #### Lexical paths -/

theorem absStep_dot (cur : AbsPath) : absStep cur ['.'] = cur := by
  simp [absStep]

theorem absStep_dotdot (cur : AbsPath) : absStep cur ['.', '.'] = cur.dropLast := by
  simp [absStep]

theorem foldl_absStep_normal (cur : AbsPath) (xs : List GoString)
    (hx : ∀ e ∈ xs, NormalElem e) : xs.foldl absStep cur = cur ++ xs := by
  induction xs generalizing cur with
  | nil => simp
  | cons x xs ih =>
    rw [List.foldl_cons, absStep_normal cur x (hx x (by simp)).2.1 (hx x (by simp)).2.2,
      ih _ (fun e he => hx e (by simp [he]))]
    simp

theorem foldl_absStep_ups (cur : AbsPath) (u : Nat) :
    (List.replicate u ['.', '.']).foldl absStep cur = List.dropLast^[u] cur := by
  induction u generalizing cur with
  | zero => rfl
  | succ u ih =>
    rw [List.replicate_succ, List.foldl_cons, absStep_dotdot, ih, Function.iterate_succ_apply]

theorem foldl_absStep_elems (start : AbsPath) (st : CleanState) (r : Bool) (hst : st.Valid r) :
    st.elems.foldl absStep start = st.denote start := by
  unfold CleanState.elems CleanState.denote
  rw [List.foldl_append, foldl_absStep_ups, foldl_absStep_normal _ _ (by simpa using hst.1)]

theorem denote_cleanStep (r : Bool) (start : AbsPath) (st : CleanState) (e : GoString)
    (hst : st.Valid r) (hr : r = true → start = []) :
    (cleanStep r st e).denote start = absStep (st.denote start) e := by
  obtain ⟨ups, stack⟩ := st
  unfold cleanStep
  by_cases h1 : e = ['.']
  · rw [if_pos h1, h1, absStep_dot]
  · rw [if_neg h1]
    by_cases h2 : e = ['.', '.']
    · rw [if_pos h2, h2, absStep_dotdot]
      cases stack with
      | nil =>
        cases r with
        | true =>
          have hu : ups = 0 := hst.2 rfl
          subst hu
          simp [CleanState.denote, hr rfl]
        | false =>
          simp only [CleanState.denote, List.reverse_nil, List.append_nil, Bool.false_eq_true,
            if_false]
          rw [Function.iterate_succ_apply']
      | cons x t =>
        simp only [CleanState.denote, List.reverse_cons]
        rw [← List.append_assoc, List.dropLast_concat]
    · rw [if_neg h2, absStep_normal _ _ h1 h2]
      simp [CleanState.denote]

theorem foldl_cleanStep_denote (r : Bool) (start : AbsPath) (es : List GoString)
    (he : ∀ e ∈ es, PlainElem e) (st : CleanState) (hst : st.Valid r)
    (hr : r = true → start = []) :
    (es.foldl (cleanStep r) st).denote start = es.foldl absStep (st.denote start) := by
  induction es generalizing st with
  | nil => rfl
  | cons x xs ih =>
    rw [List.foldl_cons, List.foldl_cons,
      ih (fun e h => he e (by simp [h])) _ (cleanStep_valid r st x hst (he x (by simp))),
      denote_cleanStep r start st x hst hr]

theorem lexPath_render (cwd : AbsPath) (r : Bool) (es : List GoString)
    (h : ∀ e ∈ es, PlainElem e) :
    lexPath cwd (render r es) = es.foldl absStep (if r then [] else cwd) := by
  unfold lexPath
  rw [isRooted_render r es h]
  by_cases hne : r = true ∨ es ≠ []
  · rw [pathElems_render r es h hne]
  · have hr : r = false := by
      cases r with
      | true => exact absurd (Or.inl rfl) hne
      | false => rfl
    have he : es = [] := by
      by_contra hc
      exact hne (Or.inr hc)
    subst hr he
    have : pathElems (render false []) = [['.']] := by decide
    rw [this]
    simp [absStep]

/-- Cleaning a path does not change what it names. -/
theorem lexPath_Clean (cwd : AbsPath) (p : GoString) :
    lexPath cwd (path.Clean p) = lexPath cwd p := by
  have hpl := pathElems_all_plain p
  rw [Clean_eq_render, lexPath_render cwd _ _ (cleanElems_plain _ _ hpl), cleanElems_eq]
  have hv := foldl_cleanStep_valid (isRooted p) (pathElems p) hpl _ (valid_init _)
  have hr : isRooted p = true → (if isRooted p = true then [] else cwd) = [] := by
    intro h
    rw [if_pos h]
  rw [foldl_absStep_elems _ _ _ hv, foldl_cleanStep_denote _ _ _ hpl _ (valid_init _) hr]
  simp [CleanState.denote, lexPath]

theorem lexPath_append_slash (cwd : AbsPath) (a b : GoString) (ha : a ≠ []) :
    lexPath cwd (a ++ '/' :: b) = (pathElems b).foldl absStep (lexPath cwd a) := by
  unfold lexPath
  rw [isRooted_append a _ ha, pathElems_append_slash, List.foldl_append]

theorem lexPath_Join_two (cwd : AbsPath) (a b : GoString) (ha : a ≠ []) :
    lexPath cwd (filepath.Join [a, b]) = (pathElems b).foldl absStep (lexPath cwd a) := by
  unfold filepath.Join
  rw [Join_two_ne a b ha, lexPath_Clean, lexPath_append_slash cwd a b ha]

theorem Join_seg_ne_nil (d seg : GoString) (hs : NormalElem seg) : path.Join [d, seg] ≠ [] := by
  have hseg : ∀ e ∈ [seg], NormalElem e := by simpa using hs
  rw [Join_seg d seg hs]
  exact render_ne_nil _ _ (plain_snoc (cleanOf d) [seg] (cleanOf_plain d) hseg)

theorem lexPath_Join_seg (cwd : AbsPath) (d seg : GoString) (hs : NormalElem seg) :
    lexPath cwd (path.Join [d, seg]) =
      (cleanOf d).foldl absStep (if isRooted d then [] else cwd) ++ [seg] := by
  have hseg : ∀ e ∈ [seg], NormalElem e := by simpa using hs
  rw [Join_seg d seg hs,
    lexPath_render cwd _ _ (plain_snoc (cleanOf d) [seg] (cleanOf_plain d) hseg),
    List.foldl_append, foldl_absStep_normal _ _ hseg]

theorem Base_cases (p : GoString) :
    path.Base p = ['.'] ∨ path.Base p = ['.', '.'] ∨ path.Base p = ['/'] ∨
      NormalElem (path.Base p) := by
  unfold path.Base
  by_cases hp : p = []
  · simp [hp]
  · rw [if_neg hp]
    by_cases hq : afterLastSlash (stripTrailingSlashes p) = []
    · simp [hq]
    · simp only [hq, if_false]
      have hpl : PlainElem (afterLastSlash (stripTrailingSlashes p)) := by
        refine ⟨hq, ?_⟩
        unfold afterLastSlash
        intro hmem
        rw [List.mem_reverse] at hmem
        have := List.mem_takeWhile_imp hmem
        simp at this
      by_cases h1 : afterLastSlash (stripTrailingSlashes p) = ['.']
      · exact Or.inl h1
      · by_cases h2 : afterLastSlash (stripTrailingSlashes p) = ['.', '.']
        · exact Or.inr (Or.inl h2)
        · exact Or.inr (Or.inr (Or.inr ⟨hpl, h1, h2⟩))

theorem mkdirWalk_start (fs : FS) (cur : AbsPath) (es : List GoString)
    (h : (mkdirWalk fs cur es).1 = none) : stat fs cur = some .dir := by
  cases es with
  | nil =>
    unfold mkdirWalk at h
    split at h <;> simp_all
  | cons e es =>
    unfold mkdirWalk at h
    split at h <;> simp_all

theorem mkdirWalk_between (fs : FS) (cur : AbsPath) (es1 es2 : List GoString)
    (h : (mkdirWalk fs cur (es1 ++ es2)).1 = none) :
    stat (mkdirWalk fs cur (es1 ++ es2)).2 (es1.foldl absStep cur) = some .dir := by
  induction es1 generalizing fs cur with
  | nil =>
    have h1 := mkdirWalk_start fs cur _ h
    rcases (mkdirWalk_spec fs cur ([] ++ es2)).1 cur with k | ⟨k, -⟩
    · rw [List.foldl_nil, k, h1]
    · rw [h1] at k
      exact absurd k (by simp)
  | cons e es1 ih =>
    have h1 := mkdirWalk_start fs cur _ h
    rw [List.cons_append] at h ⊢
    rw [List.foldl_cons]
    unfold mkdirWalk at h ⊢
    rw [h1] at h ⊢
    simp only at h ⊢
    by_cases hdot : e = ['.'] ∨ e = ['.', '.']
    · rw [if_pos hdot] at h ⊢
      exact ih _ _ h
    · rw [if_neg hdot] at h ⊢
      have hn : absStep cur e = cur ++ [e] :=
        absStep_normal cur e (fun h => hdot (Or.inl h)) (fun h => hdot (Or.inr h))
      rw [hn]
      split at h
      · exact ih _ _ h
      · exact ih _ _ h

theorem osCreate_dir_fails (p : GoString) (w : World)
    (h : stat w.fs (lexPath w.cwd p) = some .dir) : ∃ e, osCreate p w = (.error e, w) := by
  unfold osCreate
  cases hn : namei w p with
  | error e => exact ⟨e, rfl⟩
  | ok t =>
    have := namei_lex w p t hn
    rw [← this] at h
    simp only [h]
    exact ⟨_, rfl⟩

theorem osMkdirAll_between (p : GoString) (w : World) (es1 es2 : List GoString)
    (h : (osMkdirAll p w).1 = none) (hp : pathElems p = es1 ++ es2) :
    stat (osMkdirAll p w).2.fs (es1.foldl absStep (if isRooted p then [] else w.cwd))
      = some .dir := by
  unfold osMkdirAll at h ⊢
  by_cases hnil : p = []
  · rw [if_pos hnil] at h
    exact absurd h (by simp)
  · rw [if_neg hnil] at h ⊢
    rw [hp] at h ⊢
    have := mkdirWalk_between w.fs (if isRooted p then [] else w.cwd) es1 es2
    rcases hm : mkdirWalk w.fs (if isRooted p then [] else w.cwd) (es1 ++ es2) with ⟨e, fs1⟩
    rw [hm] at this h
    exact this h

theorem create_special_fails {c : Client} {name : GoString} {w : World}
    (s : PutStage3 refEnv c name w) (hb : ¬ NormalElem (filepath.Base name)) :
    ∃ e, osCreate s.dest s.w3 = (.error e, s.w3) := by
  have hs := (stage2_ref s.toPutStage2).2.2.2
  have hw2 := (stage2_ref s.toPutStage2).2.1
  have hne := Join_seg_ne_nil s.dir s.seg hs
  obtain ⟨hw3, -, hd⟩ := stage3_ref s
  have hcwd : s.w3.cwd = w.cwd := by rw [hw3]
  apply osCreate_dir_fails
  rw [hcwd]
  unfold PutStage2.dest
  rw [lexPath_Join_two _ _ _ (by exact hne)]
  rcases Base_cases name with h | h | h | h
  · unfold filepath.Base
    rw [h]
    have : pathElems ['.'] = [['.']] := by decide
    rw [this, List.foldl_cons, List.foldl_nil, absStep_dot]
    exact hd
  · unfold filepath.Base
    rw [h]
    have : pathElems ['.', '.'] = [['.', '.']] := by decide
    rw [this, List.foldl_cons, List.foldl_nil, absStep_dotdot]
    unfold PutStage2.randDir
    rw [lexPath_Join_seg _ _ _ hs, List.dropLast_concat]
    have hm : osMkdirAll s.randDir s.w2 = (none, s.w3) := s.hMkdir
    have hseg : ∀ e ∈ [s.seg], NormalElem e := by simpa using hs
    have hpl := plain_snoc (cleanOf s.dir) [s.seg] (cleanOf_plain s.dir) hseg
    have hel : pathElems s.randDir = cleanOf s.dir ++ [s.seg] := by
      unfold PutStage2.randDir
      rw [Join_seg _ _ hs, pathElems_render _ _ hpl (Or.inr (by simp))]
    have hroot : isRooted s.randDir = isRooted s.dir := by
      unfold PutStage2.randDir
      rw [Join_seg _ _ hs, isRooted_render _ _ hpl]
    have := osMkdirAll_between s.randDir s.w2 (cleanOf s.dir) [s.seg] (by rw [hm]) hel
    rw [hm, hroot, hw2] at this
    exact this
  · unfold filepath.Base
    rw [h]
    have : pathElems ['/'] = [] := by decide
    rw [this, List.foldl_nil]
    exact hd
  · exact absurd h hb

theorem Put_special_fails {c : Client} {name : GoString} {w : World}
    (s : PutStage3 refEnv c name w) (hb : ¬ NormalElem (filepath.Base name)) :
    (c.Put refEnv name w).err ≠ none ∧ (c.Put refEnv name w).world = s.w3 := by
  obtain ⟨e, he⟩ := create_special_fails s hb
  have : refEnv.create s.dest s.w3 = (.error e, s.w3) := he
  rw [Put_fail_create s this]
  simp

theorem run_base_normal {c : Client} {name : GoString} {w : World}
    (r : PutRun refEnv c name w) : NormalElem (filepath.Base name) := by
  by_contra hb
  obtain ⟨e, he⟩ := create_special_fails r.toPutStage3 hb
  have hc : osCreate r.dest r.w3 = (.ok r.dst, r.w4) := r.hCreate
  rw [he] at hc
  simp at hc

theorem dest_child (cwd : AbsPath) (d seg base : GoString) (hs : NormalElem seg)
    (hb : NormalElem base) :
    lexPath cwd (filepath.Join [path.Join [d, seg], base]) =
      lexPath cwd (path.Join [d, seg]) ++ [base] := by
  rw [lexPath_Join_two _ _ _ (Join_seg_ne_nil d seg hs), pathElems_plain base hb.1,
    List.foldl_cons, List.foldl_nil, absStep_normal _ _ hb.2.1 hb.2.2]

theorem run_final {c : Client} {name : GoString} {w : World} (r : PutRun refEnv c name w) :
    (c.Put refEnv name w).world = r.w7 ∧
      stat r.w7.fs (lexPath w.cwd r.randDir ++ [filepath.Base name]) = some (.file r.body) := by
  have hb := run_base_normal r
  have hs := (stage2_ref r.toPutStage2).2.2.2
  obtain ⟨h1, h2, -⟩ := stage4_ref r.toPutStage4
  refine ⟨by rw [Put_of_run r]; rfl, ?_⟩
  have : lexPath w.cwd r.randDir ++ [filepath.Base name] = r.dst := by
    rw [h1]
    unfold PutStage2.dest PutStage2.randDir
    rw [dest_child _ _ _ _ hs hb]
  rw [this, run_ref r]
  simp only
  rw [stat_setNode _ _ _ _ h2, if_pos rfl]

/-! #### Removal -/

theorem walk_shrinks (fs fs1 : FS) (h : Shrinks fs fs1) (cur : AbsPath) (es : List GoString)
    (t : AbsPath) (hw : walk fs cur es = .ok t) :
    walk fs1 cur es = .ok t ∨ walk fs1 cur es = .error .ENOENT := by
  induction es generalizing cur with
  | nil =>
    left
    simpa [walk] using hw
  | cons e es ih =>
    unfold walk at hw ⊢
    split at hw
    · rename_i hs
      rcases h cur with k | k
      · rw [k, hs]
        exact ih _ hw
      · rw [k]
        exact Or.inr rfl
    · exact absurd hw (by simp)
    · exact absurd hw (by simp)

theorem resolve_lex (w : World) (p : GoString) (t : AbsPath) (h : resolve w p = .ok t) :
    t = lexPath w.cwd p :=
  walk_eq_foldl _ _ _ _ h

theorem resolve_shrinks (w w1 : World) (h : Shrinks w.fs w1.fs) (hc : w1.cwd = w.cwd)
    (p : GoString) (t : AbsPath) (hn : resolve w p = .ok t) :
    resolve w1 p = .ok t ∨ resolve w1 p = .error .ENOENT := by
  unfold resolve at hn ⊢
  rw [hc]
  exact walk_shrinks _ _ h _ _ _ hn

theorem shrinks_removeTree (fs : FS) (t : AbsPath) : Shrinks fs (removeTree fs t) := by
  intro q
  unfold stat removeTree
  by_cases hq : q = []
  · simp [hq]
  · by_cases hpre : t.isPrefixOf q = true
    · right; simp [hq, hpre]
    · left; simp [hq, hpre]

theorem shrinks_removeBelow (fs : FS) (t : AbsPath) : Shrinks fs (removeBelow fs t) := by
  intro q
  unfold stat removeBelow
  by_cases hq : q = []
  · simp [hq]
  · by_cases hpre : t.isPrefixOf q = true ∧ q ≠ t
    · right; simp only [hq, if_false, if_pos hpre]
    · left; simp only [hq, if_false, if_neg hpre]

theorem removeTree_idem (fs : FS) (t : AbsPath) :
    removeTree (removeTree fs t) t = removeTree fs t := by
  funext q
  unfold removeTree
  by_cases h : t.isPrefixOf q = true <;> simp [h]

theorem removeBelow_idem (fs : FS) (t : AbsPath) :
    removeBelow (removeBelow fs t) t = removeBelow fs t := by
  funext q
  unfold removeBelow
  by_cases h : t.isPrefixOf q = true ∧ q ≠ t
  · simp only [if_pos h]
  · simp only [if_neg h]

theorem stat_removeTree (fs : FS) (t : AbsPath) (ht : t ≠ []) : stat (removeTree fs t) t = none := by
  unfold stat removeTree
  simp [ht]

theorem endsWithDot_last (p : GoString) (h : endsWithDot p = true) :
    (pathElems p).getLast? = some ['.'] := by
  unfold endsWithDot at h
  simp only [decide_eq_true_eq] at h
  rcases h with h | ⟨h1, h2, h3⟩
  · rw [h]
    rfl
  · rcases hr : p.reverse with _ | ⟨a, _ | ⟨b, r⟩⟩
    · have : p.reverse.length = 0 := by rw [hr]; rfl
      simp at this
      rw [this] at h1
      simp at h1
    · have : p.reverse.length = 1 := by rw [hr]; rfl
      simp at this
      omega
    · rw [hr] at h2 h3
      simp at h2 h3
      subst h2 h3
      have hp : p = r.reverse ++ '/' :: ['.'] := by
        have := congrArg List.reverse hr
        simpa using this
      rw [hp, pathElems_append_slash]
      have : pathElems ['.'] = [['.']] := rfl
      rw [this]
      simp

theorem normalLast_not_dot (p : GoString) (h : NormalLast p) : endsWithDot p = false := by
  obtain ⟨e, h1, h2, -⟩ := h
  by_contra hc
  have := endsWithDot_last p (by simpa using hc)
  rw [this] at h1
  simp only [Option.some.injEq] at h1
  exact h2 h1.symm

theorem resolve_normalLast (w : World) (p : GoString) (t : AbsPath) (h : resolve w p = .ok t)
    (hl : NormalLast p) : t ≠ [] := by
  obtain ⟨e, h1, h2, h3⟩ := hl
  have ht := walk_eq_foldl _ _ _ _ h
  rw [List.getLast?_eq_some_iff] at h1
  obtain ⟨ys, hys⟩ := h1
  rw [hys, List.foldl_append] at ht
  simp only [List.foldl_cons, List.foldl_nil] at ht
  unfold absStep at ht
  rw [if_neg h2, if_neg h3] at ht
  rw [ht]
  simp

theorem osRemoveAll_cases (p : GoString) (w : World) :
    (osRemoveAll p w).2 = w ∨
    ∃ t, resolve w p = .ok t ∧
      ((¬ NormalLast p ∧ (osRemoveAll p w).1 ≠ none ∧
          (osRemoveAll p w).2 = { w with fs := removeBelow w.fs t }) ∨
       (NormalLast p ∧ t ≠ [] ∧
          osRemoveAll p w = (none, { w with fs := removeTree w.fs t }))) := by
  unfold osRemoveAll
  by_cases hp : p = []
  · left; rw [if_pos hp]
  rw [if_neg hp]
  by_cases hd : endsWithDot p = true
  · left; rw [if_pos hd]
  rw [if_neg hd]
  cases hn : resolve w p with
  | error e =>
    left
    cases e <;> rfl
  | ok t =>
    simp only
    cases hl : (pathElems p).getLast? with
    | none =>
      simp only
      have hnl : ¬ NormalLast p := by
        rintro ⟨e, h1, -⟩
        rw [hl] at h1
        exact absurd h1 (by simp)
      cases ho : (osOpen ['.'] w).1 with
      | error e =>
        left
        cases e <;> rfl
      | ok f =>
        right
        exact ⟨t, rfl, Or.inl ⟨hnl, by simp, rfl⟩⟩
    | some e =>
      simp only
      by_cases h1 : e = ['.']
      · right
        rw [if_pos h1]
        refine ⟨t, rfl, Or.inl ⟨?_, by simp, rfl⟩⟩
        rintro ⟨e1, k1, k2, -⟩
        rw [hl] at k1
        simp only [Option.some.injEq] at k1
        exact k2 (k1 ▸ h1)
      rw [if_neg h1]
      by_cases h2 : e = ['.', '.']
      · right
        rw [if_pos h2]
        refine ⟨t, rfl, Or.inl ⟨?_, by simp, rfl⟩⟩
        rintro ⟨e1, k1, -, k3⟩
        rw [hl] at k1
        simp only [Option.some.injEq] at k1
        exact k3 (k1 ▸ h2)
      rw [if_neg h2]
      have hnl : NormalLast p := ⟨e, hl, h1, h2⟩
      cases hs : stat w.fs t with
      | none => left; rfl
      | some n =>
        right
        exact ⟨t, rfl, Or.inr ⟨hnl, resolve_normalLast w p t hn hnl, rfl⟩⟩

theorem osRemoveAll_nil (p : GoString) (w : World) (hl : NormalLast p)
    (h : resolve w p = .error .ENOENT ∨ ∃ t, resolve w p = .ok t) :
    (osRemoveAll p w).1 = none := by
  have hd := normalLast_not_dot p hl
  obtain ⟨e, h1, h2, h3⟩ := hl
  unfold osRemoveAll
  by_cases hp : p = []
  · rw [if_pos hp]
  rw [if_neg hp, if_neg (by simp [hd])]
  rcases h with h | ⟨t, h⟩
  · rw [h]
  · rw [h]
    simp only [h1, if_neg h2, if_neg h3]
    cases hs : stat w.fs t with
    | none => rfl
    | some n => rfl

theorem osRemoveAll_again (p : GoString) (w : World) :
    (osRemoveAll p (osRemoveAll p w).2).2 = (osRemoveAll p w).2 ∧
      ((osRemoveAll p w).1 = none → (osRemoveAll p (osRemoveAll p w).2).1 = none) := by
  rcases osRemoveAll_cases p w with h | ⟨t, hn, ⟨hl, hr, h⟩ | ⟨hl, ht, h⟩⟩
  · rw [h]
    exact ⟨h, fun k => k⟩
  · refine ⟨?_, fun k => absurd k hr⟩
    rw [h]
    rcases osRemoveAll_cases p { w with fs := removeBelow w.fs t } with
      k | ⟨t1, kn, ⟨-, -, k⟩ | ⟨kl, -, -⟩⟩
    · exact k
    · have e1 := resolve_lex _ _ _ hn
      have e2 := resolve_lex _ _ _ kn
      simp only at e2
      rw [k, e2, ← e1]
      simp only
      rw [removeBelow_idem]
    · exact absurd kl hl
  · rw [h]
    simp only
    have hnil := osRemoveAll_nil p { w with fs := removeTree w.fs t } hl (by
      rcases resolve_shrinks w { w with fs := removeTree w.fs t } (shrinks_removeTree _ _) rfl
        p t hn with k | k
      · exact Or.inr ⟨t, k⟩
      · exact Or.inl k)
    refine ⟨?_, fun _ => hnil⟩
    rcases osRemoveAll_cases p { w with fs := removeTree w.fs t } with
      k | ⟨t1, kn, ⟨kl, -, -⟩ | ⟨-, -, k⟩⟩
    · exact k
    · exact absurd hl kl
    · have e1 := resolve_lex _ _ _ hn
      have e2 := resolve_lex _ _ _ kn
      simp only at e2
      rw [k, e2, ← e1]
      simp only
      rw [removeTree_idem]

theorem osRemoveAll_confined (p : GoString) (w : World) :
    (osRemoveAll p w).2 = { w with fs := (osRemoveAll p w).2.fs } ∧
      ∀ q, ¬ (lexPath w.cwd p) <+: q → (osRemoveAll p w).2.fs q = w.fs q := by
  rcases osRemoveAll_cases p w with h | ⟨t, hn, ⟨hl, hr, h⟩ | ⟨hl, ht, h⟩⟩
  · rw [h]
    exact ⟨rfl, fun _ _ => rfl⟩
  · rw [h]
    refine ⟨rfl, ?_⟩
    intro q hq
    rw [← resolve_lex w p t hn] at hq
    simp only
    unfold removeBelow
    rw [if_neg]
    rintro ⟨k, -⟩
    rw [List.isPrefixOf_iff_prefix] at k
    exact hq k
  · rw [h]
    refine ⟨rfl, ?_⟩
    intro q hq
    rw [← resolve_lex w p t hn] at hq
    simp only
    unfold removeTree
    rw [if_neg]
    rw [List.isPrefixOf_iff_prefix]
    exact hq

/-! #### The file server -/

theorem walk_dirs (fs fs1 : FS) (h : ∀ p, stat fs p = some .dir → stat fs1 p = some .dir)
    (cur : AbsPath) (es : List GoString) (t : AbsPath) (hw : walk fs cur es = .ok t) :
    walk fs1 cur es = .ok t := by
  induction es generalizing cur with
  | nil => simpa [walk] using hw
  | cons e es ih =>
    unfold walk at hw ⊢
    split at hw
    · rename_i hs
      rw [h cur hs]
      exact ih _ hw
    · exact absurd hw (by simp)
    · exact absurd hw (by simp)

theorem namei_dirs (w w1 : World) (h : ∀ p, stat w.fs p = some .dir → stat w1.fs p = some .dir)
    (hc : w1.cwd = w.cwd) (p : GoString) (t : AbsPath) (hn : namei w p = .ok t) :
    namei w1 p = .ok t := by
  unfold namei at hn ⊢
  by_cases hp : p = []
  · rw [if_pos hp] at hn
    exact absurd hn (by simp)
  · rw [if_neg hp] at hn ⊢
    rw [hc]
    exact walk_dirs _ _ h _ _ _ hn

theorem first_slash_unique (u v a b : GoString) (hu : '/' ∉ u) (hv : '/' ∉ v)
    (h : u ++ '/' :: a = v ++ '/' :: b) : u = v := by
  induction u generalizing v with
  | nil =>
    cases v with
    | nil => rfl
    | cons c cs =>
      simp only [List.nil_append, List.cons_append, List.cons.injEq] at h
      exact absurd (by simp [← h.1]) hv
  | cons c cs ih =>
    cases v with
    | nil =>
      simp only [List.nil_append, List.cons_append, List.cons.injEq] at h
      exact absurd (by simp [h.1]) hu
    | cons c2 cs2 =>
      simp only [List.cons_append, List.cons.injEq] at h
      rw [h.1, ih cs2 (fun hm => hu (by simp [hm])) (fun hm => hv (by simp [hm])) h.2]

theorem last_slash_unique (a b x y : GoString) (hx : '/' ∉ x) (hy : '/' ∉ y)
    (h : a ++ '/' :: x = b ++ '/' :: y) : x = y := by
  have h1 := congrArg List.reverse h
  simp only [List.reverse_append, List.reverse_cons, List.append_assoc, List.singleton_append]
    at h1
  have := first_slash_unique x.reverse y.reverse a.reverse b.reverse (by simpa using hx)
    (by simpa using hy) h1
  simpa using this

theorem not_index_suffix (seg base : GoString) (hb : PlainElem base)
    (hidx : base ≠ "index.html".toList) :
    "/index.html".toList.isSuffixOf ('/' :: seg ++ '/' :: base) = false := by
  by_contra hc
  have hc' : "/index.html".toList.isSuffixOf ('/' :: seg ++ '/' :: base) = true := by
    simpa using hc
  rw [List.isSuffixOf_iff_suffix] at hc'
  obtain ⟨t, ht⟩ := hc'
  have h1 : t ++ '/' :: "index.html".toList = ('/' :: seg) ++ '/' :: base := ht
  have := last_slash_unique t ('/' :: seg) "index.html".toList base (by decide) hb.2 h1
  exact hidx this.symm

theorem getLast_append_plain (x base : GoString) (hb : PlainElem base) :
    (x ++ '/' :: base).getLast? ≠ some '/' := by
  obtain ⟨hne, hsl⟩ := hb
  intro h
  cases base with
  | nil => exact hne rfl
  | cons c cs =>
    rw [List.getLast?_append_of_ne_nil _ (by simp), List.getLast?_cons_cons] at h
    exact hsl (List.mem_of_getLast?_eq_some h)

theorem Clean_render_normal (xs : List GoString) (hx : ∀ e ∈ xs, NormalElem e) :
    path.Clean (render true xs) = render true xs := by
  have hpl : ∀ e ∈ xs, PlainElem e := fun e he => (hx e he).1
  rw [Clean_eq_render, isRooted_render true xs hpl, pathElems_render true xs hpl (Or.inl rfl)]
  have : cleanElems true xs = cleanElems true [] ++ xs := cleanElems_append_normal true [] xs hx
  rw [this]
  rfl

theorem files_normal : NormalElem "files".toList := by decide

theorem cleanPath_files (seg base : GoString) (hs : NormalElem seg) (hb : NormalElem base) :
    cleanPath ("/files/".toList ++ seg ++ '/' :: base) = "/files/".toList ++ seg ++ '/' :: base := by
  have hx : ∀ e ∈ ["files".toList, seg, base], NormalElem e := by
    intro e he
    simp only [List.mem_cons, List.mem_singleton, List.not_mem_nil, or_false] at he
    rcases he with rfl | rfl | rfl
    · exact files_normal
    · exact hs
    · exact hb
  have hp : "/files/".toList ++ seg ++ '/' :: base = render true ["files".toList, seg, base] := by
    simp [render, joinSlash]
  have hlast := getLast_append_plain ("/files/".toList ++ seg) base hb.1
  unfold cleanPath
  rw [if_neg (by simp)]
  have hr : isRooted ("/files/".toList ++ seg ++ '/' :: base) = true := rfl
  simp only [hr, if_true]
  rw [if_neg (fun h => hlast h.1), hp, Clean_render_normal _ hx]

theorem serveHTTP_file (w : World) (d seg base B : GoString) (t : AbsPath)
    (hs : NormalElem seg) (hb : NormalElem base) (hfiles : w.filesRoute = some d)
    (hidx : base ≠ "index.html".toList)
    (hn : namei w (filepath.Join [path.Join [d, seg], base]) = .ok t)
    (hst : stat w.fs t = some (.file B)) :
    serveHTTP w ("/files/".toList ++ seg ++ '/' :: base) = .ok B := by
  unfold serveHTTP
  simp only [cleanPath_files seg base hs hb]
  have h1 : "/files/".toList ++ seg ++ '/' :: base ≠ "/files".toList := by
    intro h
    have := congrArg List.length h
    simp at this
  have h2 : "/files/".toList ++ seg ++ '/' :: base ≠ "/dir".toList := by
    intro h
    have := congrArg (fun l => l.getD 1 'x') h
    simp at this
  have h3 : "/files/".toList.isPrefixOf ("/files/".toList ++ seg ++ '/' :: base) = true := by
    rw [List.isPrefixOf_iff_prefix, List.append_assoc]
    exact List.prefix_append _ _
  have h4 : ("/files/".toList ++ seg ++ '/' :: base).drop 7 = seg ++ '/' :: base := by
    simp
  rw [if_neg (fun h => h1 h.1), if_neg (by simp), if_neg (fun h => h2 h.1), if_pos h3, hfiles, h4]
  simp only
  unfold fileServer
  have hroot : isRooted (seg ++ '/' :: base) = false := by
    rw [isRooted_append _ _ hs.1.1]
    exact isRooted_plain seg hs.1
  simp only [hroot, Bool.false_eq_true, if_false]
  have hsuf := not_index_suffix seg base hb.1 hidx
  have hsuf' : "/index.html".toList.isSuffixOf ('/' :: (seg ++ '/' :: base)) = false := hsuf
  rw [hsuf']
  simp only [Bool.false_eq_true, if_false]
  have hopen : httpDirOpen w d (path.Clean ('/' :: (seg ++ '/' :: base))) = .ok t := by
    unfold httpDirOpen
    have := Join_httpRoot d seg base hs hb
    simp only [List.cons_append] at this
    rw [this]
    unfold osOpen
    rw [hn]
    simp only [hst]
  rw [hopen]
  simp only [hst]
  have hlast : ('/' :: (seg ++ '/' :: base)).getLast? ≠ some '/' :=
    getLast_append_plain ('/' :: seg) base hb.1
  rw [if_neg hlast]

theorem run_body {c : Client} {name : GoString} {w : World} (r : PutRun refEnv c name w)
    (B : GoString) (src : AbsPath) (hsrc : namei w name = .ok src)
    (hB : stat w.fs src = some (.file B)) (halias : src ≠ r.dst) : r.body = B := by
  obtain ⟨-, hsrc', -, -⟩ := stage5_ref r.toPutStage5
  have h6 := (stage6_ref r.toPutStage6).2
  obtain ⟨-, hne, -, -, hw4⟩ := stage4_ref r.toPutStage4
  have hg := (stage3_ref r.toPutStage3).2.1
  have hs : r.src = src := by rw [hsrc', ← namei_lex w name src hsrc]
  rw [hs, hw4] at h6
  simp only at h6
  rw [stat_setNode _ _ _ _ hne, if_neg halias] at h6
  rcases hg src with k | ⟨k, -⟩
  · rw [k, hB] at h6
    simpa using h6.symm
  · rw [hB] at k
    exact absurd k (by simp)

theorem Put_ok_run (env : Env σ H R) (c : Client) (name : GoString) (w : σ)
    (h : (c.Put env name w).err = none) :
    ∃ r : PutRun env c name w,
      c.Put env name w =
        ⟨none, urlLine (privateIP env r.w7) (path.Base r.randDir) (filepath.Base name),
          env.close r.dst (env.close r.src r.w7)⟩ := by
  rcases Put_eq_cases env c name w with ⟨e, w1, -, hP⟩ | ⟨s, e, w3, -, hP⟩ |
    ⟨s, e, w4, -, hP⟩ | ⟨s, e, w5, -, hP⟩ | ⟨s, e, w6, -, hP⟩ | ⟨s, e, w7, -, hP⟩ | ⟨r, hP⟩
  · rw [hP] at h; exact absurd h (Option.some_ne_none e)
  · rw [hP] at h; exact absurd h (Option.some_ne_none e)
  · rw [hP] at h; exact absurd h (Option.some_ne_none e)
  · rw [hP] at h; exact absurd h (Option.some_ne_none e)
  · rw [hP] at h; exact absurd h (Option.some_ne_none e)
  · rw [hP] at h; exact absurd h (Option.some_ne_none e)
  · exact ⟨r, hP⟩

theorem Put_ignores_removeAll (env : Env σ H R) (f : GoString → σ → Option Err × σ)
    (c : Client) (name : GoString) (w : σ) :
    c.Put { env with removeAll := f } name w = c.Put env name w := by
  have hR : ∀ n v, RandomStringRunes { env with removeAll := f } n v
      = RandomStringRunes env n v := by
    intro n
    induction n with
    | zero => intro v; rfl
    | succ n ih =>
      intro v
      simp only [RandomStringRunes, randIntn, ih]
  unfold Client.Put Client.Dir privateIP
  simp only [hR]

theorem stage2_unique {env : Env σ H R} {c : Client} {name : GoString} {w : σ}
    (s t : PutStage2 env c name w) : s = t := by
  obtain ⟨d1, g1, a1, b1, h1, k1⟩ := s
  obtain ⟨d2, g2, a2, b2, h2, k2⟩ := t
  have e1 := h1.symm.trans h2
  simp only [Prod.mk.injEq, Except.ok.injEq] at e1
  obtain ⟨rfl, rfl⟩ := e1
  have e2 := k1.symm.trans k2
  simp only [Prod.mk.injEq] at e2
  obtain ⟨rfl, rfl⟩ := e2
  rfl

theorem stage3_unique {env : Env σ H R} {c : Client} {name : GoString} {w : σ}
    (s t : PutStage3 env c name w) : s = t := by
  obtain ⟨s2, a1, h1⟩ := s
  obtain ⟨t2, a2, h2⟩ := t
  obtain rfl := stage2_unique s2 t2
  have e1 := h1.symm.trans h2
  simp only [Prod.mk.injEq, true_and] at e1
  subst e1
  rfl

theorem stage4_unique {env : Env σ H R} {c : Client} {name : GoString} {w : σ}
    (s t : PutStage4 env c name w) : s = t := by
  obtain ⟨s3, d1, a1, h1⟩ := s
  obtain ⟨t3, d2, a2, h2⟩ := t
  obtain rfl := stage3_unique s3 t3
  have e1 := h1.symm.trans h2
  simp only [Prod.mk.injEq, Except.ok.injEq] at e1
  obtain ⟨rfl, rfl⟩ := e1
  rfl

/-- Whatever `Put` created up to the creation of the destination is there at
the end. -/
theorem Put_keeps_stage4 {c : Client} {name : GoString} {w : World}
    (s : PutStage4 refEnv c name w) : Keeps s.w4.fs (c.Put refEnv name w).world.fs := by
  rcases Put_eq_cases refEnv c name w with ⟨e, w1, h, hP⟩ | ⟨s2, e, w3, h, hP⟩ |
    ⟨s3, e, w4, h, hP⟩ | ⟨s4, e, w5, h, hP⟩ | ⟨s5, e, w6, h, hP⟩ | ⟨s6, e, w7, h, hP⟩ | ⟨r, hP⟩
  · have := s.hDir
    rw [h] at this
    simp at this
  · obtain rfl := stage2_unique s2 s.toPutStage2
    have := s.hMkdir
    rw [h] at this
    simp at this
  · obtain rfl := stage3_unique s3 s.toPutStage3
    have := s.hCreate
    rw [h] at this
    simp at this
  · obtain rfl := stage4_unique s4 s
    rw [hP]
    have := osOpen_world name s4.w4
    rw [show osOpen name s4.w4 = (.error e, w5) from h] at this
    simp only at this
    show Keeps _ w5.fs
    rw [this]
    exact keeps_refl _
  · obtain rfl := stage4_unique s5.toPutStage4 s
    rw [hP]
    have := osReadAll_world s5.src s5.w5
    rw [show osReadAll s5.src s5.w5 = (.error e, w6) from h] at this
    simp only at this
    show Keeps _ w6.fs
    rw [this, (stage5_ref s5).1]
    exact keeps_refl _
  · obtain rfl := stage4_unique s6.toPutStage4 s
    rw [hP]
    have := osWrite_err _ _ _ _ _ (show osWrite s6.dst s6.body s6.w6 = (some e, w7) from h)
    show Keeps _ w7.fs
    rw [this, (stage6_ref s6).1]
    exact keeps_refl _
  · obtain rfl := stage4_unique r.toPutStage4 s
    rw [hP]
    show Keeps _ r.w7.fs
    rw [run_ref r, (stage4_ref r.toPutStage4).2.2.2.2]
    simp only
    have hne := (stage4_ref r.toPutStage4).2.1
    intro p hp
    rw [stat_setNode _ _ _ _ hne] at hp ⊢
    by_cases hq : p = r.dst
    · rw [if_pos hq]
      simp
    · rw [if_neg hq] at hp ⊢
      exact hp

/-- The directory `Put` created is there at the end, with everything that
existed once it was created, whatever happens to the later steps. -/
theorem Put_keeps_stage3 {c : Client} {name : GoString} {w : World}
    (s : PutStage3 refEnv c name w) :
    Keeps s.w3.fs (c.Put refEnv name w).world.fs ∧
      stat (c.Put refEnv name w).world.fs (lexPath w.cwd s.randDir) = some .dir := by
  have hd := (stage3_ref s).2.2
  have k4 : ∀ s4 : PutStage4 refEnv c name w, s4.toPutStage3 = s →
      Keeps s.w3.fs s4.w4.fs ∧ stat s4.w4.fs (lexPath w.cwd s.randDir) = some .dir := by
    intro s4 h4
    subst h4
    obtain ⟨-, hne, hnd, -, hw4⟩ := stage4_ref s4
    rw [hw4]
    refine ⟨keeps_setNode _ _ _, ?_⟩
    simp only
    rw [stat_setNode _ _ _ _ hne, if_neg, hd]
    intro heq
    rw [heq] at hd
    exact hnd hd
  have kfin : ∀ s4 : PutStage4 refEnv c name w, s4.toPutStage3 = s →
      Keeps s4.w4.fs (c.Put refEnv name w).world.fs →
      stat (c.Put refEnv name w).world.fs (lexPath w.cwd s.randDir) = some .dir →
      Keeps s.w3.fs (c.Put refEnv name w).world.fs ∧
        stat (c.Put refEnv name w).world.fs (lexPath w.cwd s.randDir) = some .dir :=
    fun s4 h4 hk hs => ⟨keeps_trans (k4 s4 h4).1 hk, hs⟩
  rcases Put_eq_cases refEnv c name w with ⟨e, w1, h, hP⟩ | ⟨s2, e, w3, h, hP⟩ |
    ⟨s3, e, w4, h, hP⟩ | ⟨s4, e, w5, h, hP⟩ | ⟨s5, e, w6, h, hP⟩ | ⟨s6, e, w7, h, hP⟩ | ⟨r, hP⟩
  · have := s.hDir
    rw [h] at this
    simp at this
  · obtain rfl := stage2_unique s2 s.toPutStage2
    have := s.hMkdir
    rw [h] at this
    simp at this
  · obtain rfl := stage3_unique s3 s
    rw [hP]
    have := osCreate_err _ _ _ _ (show osCreate s3.dest s3.w3 = (.error e, w4) from h)
    simp only
    rw [this]
    exact ⟨keeps_refl _, hd⟩
  · have h3 : s4.toPutStage3 = s := stage3_unique _ _
    have hw := osOpen_world name s4.w4
    rw [show osOpen name s4.w4 = (.error e, w5) from h] at hw
    simp only at hw
    have hf : (c.Put refEnv name w).world = s4.w4 := by rw [hP]; exact hw
    rw [hf]
    exact k4 s4 h3
  · have h3 : s5.toPutStage3 = s := stage3_unique _ _
    have hw := osReadAll_world s5.src s5.w5
    rw [show osReadAll s5.src s5.w5 = (.error e, w6) from h] at hw
    simp only at hw
    have hf : (c.Put refEnv name w).world = s5.w4 := by
      rw [hP]
      show w6 = _
      rw [hw, (stage5_ref s5).1]
    rw [hf]
    exact k4 s5.toPutStage4 h3
  · have h3 : s6.toPutStage3 = s := stage3_unique _ _
    have hw := osWrite_err _ _ _ _ _ (show osWrite s6.dst s6.body s6.w6 = (some e, w7) from h)
    have hf : (c.Put refEnv name w).world = s6.w4 := by
      rw [hP]
      show w7 = _
      rw [hw, (stage6_ref s6).1]
    rw [hf]
    exact k4 s6.toPutStage4 h3
  · have h3 : r.toPutStage3 = s := stage3_unique _ _
    subst h3
    have hf : (c.Put refEnv name w).world = r.w7 := by rw [hP]; rfl
    rw [hf, run_ref r]
    obtain ⟨-, hne, hnd, -, -⟩ := stage4_ref r.toPutStage4
    refine ⟨keeps_setNode _ _ _, ?_⟩
    simp only
    rw [stat_setNode _ _ _ _ hne, if_neg, hd]
    intro heq
    rw [heq] at hd
    exact hnd hd

/-- When the destination cannot be created, `Put` ends in the state the
creation of the directory left, with the directory in it. -/
theorem Put_create_failure {c : Client} {name : GoString} {w : World}
    (s : PutStage3 refEnv c name w) (e : Err) (w4 : World)
    (h : refEnv.create s.dest s.w3 = (.error e, w4)) :
    (c.Put refEnv name w).err = some e ∧ (c.Put refEnv name w).out = [] ∧
      (c.Put refEnv name w).world = s.w3 ∧
      stat (c.Put refEnv name w).world.fs (lexPath w.cwd s.randDir) = some .dir := by
  have hk := (Put_keeps_stage3 s).2
  rw [Put_fail_create s h] at hk ⊢
  have := osCreate_err _ _ _ _ (show osCreate s.dest s.w3 = (.error e, w4) from h)
  exact ⟨rfl, rfl, this, hk⟩

set_option maxRecDepth 100000 in
theorem byteText_plain : ∀ n < 256, ∀ c ∈ byteText n, urlPlain c = true ∧ c ≠ '/' := by
  decide

theorem takeWhile_ne_all (c : Char) (s : GoString) (h : c ∉ s) :
    s.takeWhile (· ≠ c) = s ∧ s.dropWhile (· ≠ c) = [] := by
  induction s with
  | nil => exact ⟨rfl, rfl⟩
  | cons x xs ih =>
    have hx : x ≠ c := fun e => h (by simp [e])
    have := ih (fun e => h (by simp [e]))
    have hd : decide (x ≠ c) = true := by simpa using hx
    rw [List.takeWhile_cons, List.dropWhile_cons]
    simp only [hd, if_true, this.1, this.2, and_self]

theorem takeWhile_ne_append (c : Char) (s t : GoString) (h : c ∉ s) :
    (s ++ c :: t).takeWhile (· ≠ c) = s ∧ (s ++ c :: t).dropWhile (· ≠ c) = c :: t := by
  induction s with
  | nil => simp [List.takeWhile, List.dropWhile]
  | cons x xs ih =>
    have hx : x ≠ c := fun e => h (by simp [e])
    have := ih (fun e => h (by simp [e]))
    have hd : decide (x ≠ c) = true := by simpa using hx
    rw [List.cons_append, List.takeWhile_cons, List.dropWhile_cons]
    simp only [hd, if_true, this.1, this.2, and_self]

theorem unescape_plain (s : GoString) (h : '%' ∉ s) : unescape s = some s := by
  induction s with
  | nil => rfl
  | cons x xs ih =>
    have hx : x ≠ '%' := fun e => h (by simp [e])
    have := ih (fun e => h (by simp [e]))
    unfold unescape
    simp only [if_neg hx, this]

theorem urlPlain_iff (c : Char) :
    urlPlain c = true ↔ c ≠ '?' ∧ c ≠ '#' ∧ c ≠ '%' ∧ isCTL c = false := by
  unfold urlPlain
  simp [and_assoc]

theorem http_plain : ∀ c ∈ "http://".toList, urlPlain c = true := by decide

theorem parseURL_plain (a p : GoString)
    (ha : ∀ c ∈ a, urlPlain c = true ∧ c ≠ '/') (hp : ∀ c ∈ p, urlPlain c = true) :
    parseURL ("http://".toList ++ a ++ '/' :: p) = some (a, '/' :: p) := by
  have hall : ∀ c ∈ "http://".toList ++ a ++ '/' :: p, urlPlain c = true := by
    intro c hc
    simp only [List.mem_append, List.mem_cons] at hc
    rcases hc with (hc | hc) | rfl | hc
    · exact http_plain c hc
    · exact (ha c hc).1
    · decide
    · exact hp c hc
  have h1 : '#' ∉ "http://".toList ++ a ++ '/' :: p := fun h => by
    have := hall _ h
    exact absurd this (by decide)
  have h2 : '?' ∉ "http://".toList ++ a ++ '/' :: p := fun h => by
    have := hall _ h
    exact absurd this (by decide)
  have h3 : '%' ∉ '/' :: p := fun h => by
    have := hall '%' (by simp only [List.mem_append]; exact Or.inr h)
    exact absurd this (by decide)
  have h4 : ("http://".toList ++ a ++ '/' :: p).any isCTL = false := by
    rw [List.any_eq_false]
    intro c hc
    have := (urlPlain_iff c).mp (hall c hc)
    simp [this.2.2.2]
  have h5 : '/' ∉ a := fun h => (ha _ h).2 rfl
  have hcut : cutQuery ("http://".toList ++ a ++ '/' :: p)
      = some ("http://".toList ++ a ++ '/' :: p) := by
    unfold cutQuery
    simp only [(takeWhile_ne_all '#' _ h1).1, (takeWhile_ne_all '#' _ h1).2, h4,
      (takeWhile_ne_all '?' _ h2).1]
    rfl
  have hdrop : ("http://".toList ++ a ++ '/' :: p).drop 7 = a ++ '/' :: p := by
    rw [List.append_assoc]
    rfl
  have hpre : "http://".toList.isPrefixOf ("http://".toList ++ a ++ '/' :: p) = true := by
    rw [List.isPrefixOf_iff_prefix, List.append_assoc]
    exact List.prefix_append _ _
  unfold parseURL
  rw [hcut]
  simp only [hpre, if_true, hdrop, (takeWhile_ne_append '/' a p h5).1,
    (takeWhile_ne_append '/' a p h5).2, unescape_plain _ h3]

theorem privateIPLoop_cases (addrs : List Addr) :
    privateIPLoop addrs = "0.0.0.0".toList ∨
    ∃ n, Addr.ipnet n ∈ addrs ∧ isPrivateIP n.ip = true ∧
      privateIPLoop addrs = IP.String n.ip := by
  induction addrs with
  | nil => exact Or.inl rfl
  | cons a rest ih =>
    cases a with
    | ipnet n =>
      by_cases hp : isPrivateIP n.ip = true
      · right
        exact ⟨n, by simp, hp, by simp [privateIPLoop, hp]⟩
      · rcases ih with h | ⟨m, h1, h2, h3⟩
        · left
          simp [privateIPLoop, hp, h]
        · right
          exact ⟨m, by simp [h1], h2, by simp [privateIPLoop, hp, h3]⟩
    | other t =>
      rcases ih with h | ⟨m, h1, h2, h3⟩
      · left
        simp [privateIPLoop, h]
      · right
        exact ⟨m, by simp [h1], h2, by simp [privateIPLoop, h3]⟩

theorem privateIP_local (w : World) (hb : byteAddrs w = true) :
    privateIP refEnv w ∈ localHosts w ∧
      ∀ c ∈ privateIP refEnv w, urlPlain c = true ∧ c ≠ '/' := by
  have h0 : ∀ c ∈ "0.0.0.0".toList, urlPlain c = true ∧ c ≠ '/' := by decide
  unfold privateIP localHosts byteAddrs at *
  simp only [refEnv] at *
  cases ha : w.addrs with
  | error e => exact ⟨by simp, h0⟩
  | ok addrs =>
    rw [ha] at hb
    simp only at hb ⊢
    rcases privateIPLoop_cases addrs with h | ⟨n, h1, h2, h3⟩
    · rw [h]
      exact ⟨by simp, h0⟩
    · rw [h3]
      have hn : ∀ x ∈ n.ip, x < 256 := by
        rw [List.all_eq_true] at hb
        have := hb _ h1
        simp only [List.all_eq_true, decide_eq_true_eq] at this
        exact this
      rcases to4_cases n.ip with ⟨k, hl⟩ | ⟨a, b, c, d, k, ka, kb, kc, kd⟩
      · rw [isPrivateIP_of_not_to4 n.ip k hl] at h2
        exact absurd h2 (by decide)
      · constructor
        · apply List.mem_cons_of_mem
          rw [List.mem_filterMap]
          exact ⟨.ipnet n, h1, by simp [k]⟩
        · rw [string_of_to4 n.ip a b c d k]
          intro x hx
          simp only [List.mem_append, List.mem_cons] at hx
          rcases hx with ((hx | rfl | hx) | rfl | hx) | rfl | hx
          · exact byteText_plain a (hn a ka) x hx
          · decide
          · exact byteText_plain b (hn b kb) x hx
          · decide
          · exact byteText_plain c (hn c kc) x hx
          · decide
          · exact byteText_plain d (hn d kd) x hx

theorem roundTrip_local (w : World) (h addr path : GoString) (hl : w.listening = some addr)
    (hh : h ∈ localHosts w) (hp : path ≠ []) :
    roundTrip w (h ++ addr) path = .ok (serveHTTP w path) := by
  unfold roundTrip
  rw [hl]
  simp only
  have : (localHosts w).any (fun x => x ++ addr = h ++ addr) = true := by
    rw [List.any_eq_true]
    exact ⟨h, hh, by simp⟩
  rw [if_pos this, if_neg hp]

theorem walk_snoc (fs : FS) (cur : AbsPath) (es : List GoString) (e : GoString) (t1 : AbsPath)
    (h : walk fs cur es = .ok t1) (hd : stat fs t1 = some .dir) :
    walk fs cur (es ++ [e]) = .ok (absStep t1 e) := by
  induction es generalizing cur with
  | nil =>
    simp only [walk, Except.ok.injEq] at h
    subst h
    simp [walk, hd]
  | cons x xs ih =>
    rw [List.cons_append]
    unfold walk at h ⊢
    split at h
    · exact ih _ h
    · exact absurd h (by simp)
    · exact absurd h (by simp)

theorem walk_snoc_inv (fs : FS) (cur : AbsPath) (es : List GoString) (e : GoString) (t : AbsPath)
    (h : walk fs cur (es ++ [e]) = .ok t) :
    ∃ t1, walk fs cur es = .ok t1 ∧ stat fs t1 = some .dir := by
  induction es generalizing cur with
  | nil =>
    simp only [List.nil_append] at h
    unfold walk at h
    split at h
    · rename_i hs
      exact ⟨cur, rfl, hs⟩
    · exact absurd h (by simp)
    · exact absurd h (by simp)
  | cons x xs ih =>
    rw [List.cons_append] at h
    unfold walk at h ⊢
    split at h
    · exact ih _ h
    · exact absurd h (by simp)
    · exact absurd h (by simp)

/-- The lookup of a path with one more element went through the directory the
path names. -/
theorem namei_parent (w : World) (a b : GoString) (t : AbsPath) (ha : a ≠ [])
    (hb : PlainElem b) (h : namei w (a ++ '/' :: b) = .ok t) :
    ∃ t1, namei w a = .ok t1 ∧ stat w.fs t1 = some .dir := by
  unfold namei at h ⊢
  rw [if_neg (by simp), isRooted_append _ _ ha] at h
  rw [if_neg ha]
  have hk : kernelElems (a ++ '/' :: b) = pathElems a ++ [b] := by
    unfold kernelElems
    rw [if_neg (getLast_append_plain a b hb), pathElems_append_slash, pathElems_plain b hb]
  rw [hk] at h
  obtain ⟨t1, h1, h2⟩ := walk_snoc_inv _ _ _ _ _ h
  refine ⟨t1, ?_, h2⟩
  unfold kernelElems
  by_cases hl : a.getLast? = some '/'
  · rw [if_pos hl]
    have := walk_snoc _ _ _ ['.'] _ h1 h2
    rw [this]
    simp [absStep]
  · rw [if_neg hl]
    exact h1

theorem Clean_rooted_normal (p : GoString) (xs : List GoString) (hr : isRooted p = true)
    (hp : pathElems p = xs) (hx : ∀ e ∈ xs, NormalElem e) :
    path.Clean p = '/' :: joinSlash xs := by
  rw [Clean_eq_render, hr, hp]
  have : cleanElems true xs = cleanElems true [] ++ xs := cleanElems_append_normal true [] xs hx
  rw [this]
  rfl

theorem index_normal : NormalElem "index.html".toList := by decide

theorem getLast_plain (s : GoString) (hs : PlainElem s) : s.getLast? ≠ some '/' := by
  intro h
  exact hs.2 (List.mem_of_getLast?_eq_some h)

theorem serveHTTP_index_moved (w : World) (d seg : GoString) (hs : NormalElem seg)
    (hfiles : w.filesRoute = some d) :
    serveHTTP w ("/files/".toList ++ seg ++ '/' :: "index.html".toList)
      = .moved "./".toList := by
  unfold serveHTTP
  simp only [cleanPath_files seg _ hs index_normal]
  have h1 : "/files/".toList ++ seg ++ '/' :: "index.html".toList ≠ "/files".toList := by
    intro h
    have := congrArg List.length h
    simp at this
  have h2 : "/files/".toList ++ seg ++ '/' :: "index.html".toList ≠ "/dir".toList := by
    intro h
    have := congrArg (fun l => l.getD 1 'x') h
    simp at this
  have h3 : "/files/".toList.isPrefixOf ("/files/".toList ++ seg ++ '/' :: "index.html".toList)
      = true := by
    rw [List.isPrefixOf_iff_prefix, List.append_assoc]
    exact List.prefix_append _ _
  have h4 : ("/files/".toList ++ seg ++ '/' :: "index.html".toList).drop 7
      = seg ++ '/' :: "index.html".toList := by
    simp
  rw [if_neg (fun h => h1 h.1), if_neg (by simp), if_neg (fun h => h2 h.1), if_pos h3, hfiles, h4]
  simp only
  unfold fileServer
  have hroot : isRooted (seg ++ '/' :: "index.html".toList) = false := by
    rw [isRooted_append _ _ hs.1.1]
    exact isRooted_plain seg hs.1
  simp only [hroot, Bool.false_eq_true, if_false]
  have hsuf : "/index.html".toList.isSuffixOf ('/' :: (seg ++ '/' :: "index.html".toList))
      = true := by
    rw [List.isSuffixOf_iff_suffix]
    exact ⟨'/' :: seg, by simp⟩
  rw [if_pos hsuf]

theorem cleanPath_files_dir (seg : GoString) (hs : NormalElem seg) :
    cleanPath ("/files/".toList ++ seg ++ ['/']) = "/files/".toList ++ seg ++ ['/'] := by
  have hx : ∀ e ∈ ["files".toList, seg], NormalElem e := by
    intro e he
    simp only [List.mem_cons, List.mem_singleton, List.not_mem_nil, or_false] at he
    rcases he with rfl | rfl
    · exact files_normal
    · exact hs
  have hp : pathElems ("/files/".toList ++ seg ++ ['/']) = ["files".toList, seg] := by
    have : "/files/".toList ++ seg ++ ['/'] = '/' :: ("files".toList ++ '/' :: (seg ++ '/' :: []))
        := by simp
    rw [this, pathElems_slash, pathElems_append_slash, pathElems_append_slash,
      pathElems_plain seg hs.1, pathElems_plain _ files_normal.1]
    rfl
  have hc := Clean_rooted_normal ("/files/".toList ++ seg ++ ['/']) _ rfl hp hx
  unfold cleanPath
  rw [if_neg (by simp)]
  have hr : isRooted ("/files/".toList ++ seg ++ ['/']) = true := rfl
  simp only [hr, if_true]
  rw [hc, if_pos]
  · simp [joinSlash]
  · constructor
    · rw [List.getLast?_append_of_ne_nil _ (by simp)]
      rfl
    · simp [joinSlash]

theorem serveHTTP_dir_index (w : World) (d seg B : GoString) (t1 t : AbsPath)
    (hs : NormalElem seg) (hfiles : w.filesRoute = some d)
    (hn1 : namei w (path.Join [d, seg]) = .ok t1) (hd1 : stat w.fs t1 = some .dir)
    (hn : namei w (filepath.Join [path.Join [d, seg], "index.html".toList]) = .ok t)
    (hst : stat w.fs t = some (.file B)) :
    serveHTTP w ("/files/".toList ++ seg ++ ['/']) = .ok B := by
  unfold serveHTTP
  simp only [cleanPath_files_dir seg hs]
  have h1 : "/files/".toList ++ seg ++ ['/'] ≠ "/files".toList := by
    intro h
    have := congrArg List.length h
    simp at this
  have h2 : "/files/".toList ++ seg ++ ['/'] ≠ "/dir".toList := by
    intro h
    have := congrArg (fun l => l.getD 1 'x') h
    simp at this
  have h3 : "/files/".toList.isPrefixOf ("/files/".toList ++ seg ++ ['/']) = true := by
    rw [List.isPrefixOf_iff_prefix, List.append_assoc]
    exact List.prefix_append _ _
  have h4 : ("/files/".toList ++ seg ++ ['/']).drop 7 = seg ++ ['/'] := by
    simp
  rw [if_neg (fun h => h1 h.1), if_neg (by simp), if_neg (fun h => h2 h.1), if_pos h3, hfiles, h4]
  simp only
  unfold fileServer
  have hroot : isRooted (seg ++ ['/']) = false := by
    rw [isRooted_append _ _ hs.1.1]
    exact isRooted_plain seg hs.1
  simp only [hroot, Bool.false_eq_true, if_false]
  have hsuf : "/index.html".toList.isSuffixOf ('/' :: (seg ++ ['/'])) = false := by
    by_contra hc
    have hc' : "/index.html".toList.isSuffixOf ('/' :: (seg ++ ['/'])) = true := by
      simpa using hc
    rw [List.isSuffixOf_iff_suffix] at hc'
    obtain ⟨u, hu⟩ := hc'
    have := congrArg List.getLast? hu
    rw [← List.cons_append, List.getLast?_append_of_ne_nil _ (by simp),
      List.getLast?_append_of_ne_nil _ (by simp)] at this
    simp at this
  rw [hsuf]
  simp only [Bool.false_eq_true, if_false]
  have hname : path.Clean ('/' :: (seg ++ ['/'])) = '/' :: seg := by
    have hp : pathElems ('/' :: (seg ++ '/' :: [])) = [seg] := by
      rw [pathElems_slash, pathElems_append_slash, pathElems_plain seg hs.1]
      rfl
    rw [Clean_rooted_normal ('/' :: (seg ++ '/' :: [])) [seg] rfl hp (by simpa using hs)]
    rfl
  have hname2 : path.Clean ('/' :: '/' :: seg) = '/' :: seg := by
    have hp : pathElems ('/' :: '/' :: seg) = [seg] := by
      rw [pathElems_slash, pathElems_slash, pathElems_plain seg hs.1]
    rw [Clean_rooted_normal ('/' :: '/' :: seg) [seg] rfl hp (by simpa using hs)]
    rfl
  rw [hname]
  have hopen : httpDirOpen w d ('/' :: seg) = .ok t1 := by
    unfold httpDirOpen
    rw [hname2, Join_served d seg hs]
    unfold osOpen
    rw [hn1]
    simp only [hd1]
  rw [hopen]
  simp only [hd1]
  have hlast : ('/' :: (seg ++ ['/'])).getLast? = some '/' := by
    rw [← List.cons_append, List.getLast?_append_of_ne_nil _ (by simp)]
    rfl
  rw [if_neg (by simp [hlast])]
  have htrim : trimSlash ('/' :: seg) = '/' :: seg := by
    unfold trimSlash
    rw [if_neg]
    have := getLast_append_plain [] seg hs.1
    simpa using this
  have hopen2 : httpDirOpen w d ('/' :: seg ++ "/index.html".toList) = .ok t := by
    unfold httpDirOpen
    have hj := Join_httpRoot d seg "index.html".toList hs index_normal
    rw [Clean_rooted_two seg _ hs index_normal] at hj
    have he : '/' :: seg ++ "/index.html".toList = '/' :: seg ++ '/' :: "index.html".toList := rfl
    rw [he, hj]
    unfold osOpen
    rw [hn]
    simp only [hst]
  rw [htrim, hopen2]
  simp only [hst]

theorem splitSlash_append (a b : GoString) (ha : '/' ∉ a) :
    splitSlash (a ++ '/' :: b) = a :: splitSlash b := by
  induction a with
  | nil => simp [splitSlash]
  | cons x xs ih =>
    have hx : x ≠ '/' := fun e => ha (by simp [e])
    have := ih (fun e => ha (by simp [e]))
    rw [List.cons_append, splitSlash, if_neg hx, this]

theorem resolvePath_index (seg : GoString) (hs : NormalElem seg) :
    resolvePath ("/files/".toList ++ seg ++ '/' :: "index.html".toList) "./".toList
      = "/files/".toList ++ seg ++ ['/'] := by
  have hdir : (("/files/".toList ++ seg ++ '/' :: "index.html".toList).reverse.dropWhile
      (· ≠ '/')).reverse = "/files/".toList ++ seg ++ ['/'] := by
    have hr : ("/files/".toList ++ seg ++ '/' :: "index.html".toList).reverse
        = "index.html".toList.reverse ++ '/' :: ("/files/".toList ++ seg).reverse := by
      simp
    rw [hr, (takeWhile_ne_append '/' _ _ (by decide)).2]
    simp
  have hfull : "/files/".toList ++ seg ++ ['/'] ++ "./".toList
      = [] ++ '/' :: ("files".toList ++ '/' :: (seg ++ '/' :: (['.'] ++ '/' :: []))) := by
    simp
  have hsplit : splitSlash ("/files/".toList ++ seg ++ ['/'] ++ "./".toList)
      = [[], "files".toList, seg, ['.'], []] := by
    rw [hfull, splitSlash_append _ _ (by simp), splitSlash_append _ _ (by decide),
      splitSlash_append _ _ hs.1.2, splitSlash_append _ _ (by decide)]
    rfl
  unfold resolvePath
  have h1 : "./".toList ≠ [] := by decide
  have h2 : isRooted "./".toList = false := rfl
  simp only [if_neg h1, h2, Bool.false_eq_true, if_false, hdir, hsplit]
  rw [if_neg (by simp)]
  have hf : "files".toList ≠ ['.'] ∧ "files".toList ≠ ['.', '.'] := by decide
  simp [resolveStep, hs.2.1, hs.2.2, hf.1, hf.2, isRooted]

theorem followLocation_index (a seg : GoString) (hs : NormalElem seg) :
    followLocation a ("/files/".toList ++ seg ++ '/' :: "index.html".toList) "./".toList
      = some (a, "/files/".toList ++ seg ++ ['/']) := by
  have h1 : "http://".toList.isPrefixOf "./".toList = false := by decide
  have h2 : "//".toList.isPrefixOf "./".toList = false := by decide
  have h3 : cutQuery "./".toList = some "./".toList := by decide
  have h4 : unescape "./".toList = some "./".toList := by decide
  have h5 : ¬ (isRooted "./".toList = false ∧ ':' ∈ "./".toList.takeWhile (· ≠ '/')) := by
    decide
  unfold followLocation
  simp only [h1, h2, h3, h4, Bool.false_eq_true, if_false, resolvePath_index seg hs]
  rw [if_neg h5]

theorem letterRunes_plain : ∀ c ∈ letterRunes, urlPlain c = true ∧ c ≠ '/' := by decide

theorem port_plain : ∀ c ∈ ':' :: port, urlPlain c = true ∧ c ≠ '/' := by decide

theorem files_plain : ∀ c ∈ "files/".toList, urlPlain c = true := by decide

/-- The GET of the URL of a stored file, as `Put` prints it, from the machine
itself: the file is served, for `index.html` after the redirection to the
directory. -/
theorem get_stored (w : World) (d seg base B : GoString) (t : AbsPath)
    (hs : NormalElem seg) (hsl : ∀ c ∈ seg, c ∈ letterRunes) (hb : NormalElem base)
    (hsafe : URLSafe base) (hfiles : w.filesRoute = some d)
    (hl : w.listening = some (':' :: port)) (hbytes : byteAddrs w = true)
    (hn : namei w (filepath.Join [path.Join [d, seg], base]) = .ok t)
    (hst : stat w.fs t = some (.file B)) :
    (osHttpGet ("http://".toList ++ privateIP refEnv w ++ ':' :: port ++ "/files/".toList ++ seg
      ++ '/' :: base) w).1 = .ok (.ok B) := by
  obtain ⟨hloc, hip⟩ := privateIP_local w hbytes
  have hurl : "http://".toList ++ privateIP refEnv w ++ ':' :: port ++ "/files/".toList ++ seg
      ++ '/' :: base
      = "http://".toList ++ (privateIP refEnv w ++ ':' :: port)
        ++ '/' :: ("files/".toList ++ seg ++ '/' :: base) := by
    simp
  have ha : ∀ c ∈ privateIP refEnv w ++ ':' :: port, urlPlain c = true ∧ c ≠ '/' := by
    intro c hc
    rcases List.mem_append.mp hc with k | k
    · exact hip c k
    · exact port_plain c k
  have hp : ∀ c ∈ "files/".toList ++ seg ++ '/' :: base, urlPlain c = true := by
    intro c hc
    simp only [List.mem_append, List.mem_cons] at hc
    rcases hc with (k | k) | rfl | k
    · exact files_plain c k
    · exact (letterRunes_plain c (hsl c k)).1
    · decide
    · exact hsafe c k
  have hpath : '/' :: ("files/".toList ++ seg ++ '/' :: base)
      = "/files/".toList ++ seg ++ '/' :: base := by
    simp
  unfold osHttpGet
  rw [hurl, parseURL_plain _ _ ha hp]
  simp only
  rw [hpath]
  have hrt : ∀ path, path ≠ [] →
      roundTrip w (privateIP refEnv w ++ ':' :: port) path = .ok (serveHTTP w path) :=
    fun path hne => roundTrip_local w _ _ path hl hloc hne
  by_cases hidx : base = "index.html".toList
  · subst hidx
    have hdest := Join_dest_child d seg "index.html".toList hs hb
    rw [hdest] at hn
    obtain ⟨t1, hn1, hd1⟩ := namei_parent w _ _ t (Join_seg_ne_nil d seg hs) hb.1 hn
    rw [← hdest] at hn
    have h1 := serveHTTP_index_moved w d seg hs hfiles
    have h2 := serveHTTP_dir_index w d seg B t1 t hs hfiles hn1 hd1 hn hst
    rw [httpDo, hrt _ (by simp), h1]
    simp only
    rw [if_neg (by decide), followLocation_index _ seg hs]
    simp only
    rw [httpDo, hrt _ (by simp), h2]
  · have h1 := serveHTTP_file w d seg base B t hs hb hfiles hidx hn hst
    rw [httpDo, hrt _ (by simp), h1]

/-! ### C1. Upload and retrieval -/

/-- C1 (amended): in the reference world, let `Put(name)` succeed against a
server whose `/dir` route returns `d` and whose `/files/` route serves `d`,
for a local file `name` with contents `B`.  Then the line printed is
`http://<ip>:8100` followed by the path `/files/<segment>/<base>`.  When `name`
is not itself the destination file, the file at `d/<segment>/<base>` has
contents exactly `B`; and when moreover the base name holds no `?`, `#`, `%`
and no control character, and the server listens on port 8100 of the machine
(whose interface addresses are made of bytes), the GET of the printed URL
(`http.Get`, which follows the redirection the file server answers for
`index.html`) ends with status 200 and body exactly `B`. -/
theorem Put_then_GET (c : Client) (name : GoString) (w : World) (d B : GoString)
    (src : AbsPath)
    (hDir : c.Dir refEnv w = (.ok d, w)) (hfiles : w.filesRoute = some d)
    (hsrc : namei w name = .ok src) (hB : stat w.fs src = some (.file B))
    (hput : (c.Put refEnv name w).err = none) :
    (c.Put refEnv name w).out =
      "http://".toList ++ privateIP refEnv (c.Put refEnv name w).world ++ ":8100".toList ++
        ("/files/".toList ++ (RandomStringRunes refEnv 40 w).1 ++ '/' :: filepath.Base name) ++
        ['\n'] ∧
    (src ≠ lexPath w.cwd
        (filepath.Join [path.Join [d, (RandomStringRunes refEnv 40 w).1], filepath.Base name]) →
      stat (c.Put refEnv name w).world.fs (lexPath w.cwd
          (filepath.Join [path.Join [d, (RandomStringRunes refEnv 40 w).1], filepath.Base name]))
        = some (.file B) ∧
      (w.listening = some ":8100".toList → byteAddrs w = true →
        URLSafe (filepath.Base name) →
        ∃ resp : Response,
          (refEnv.httpGet (c.Put refEnv name w).out.dropLast (c.Put refEnv name w).world).1
            = .ok resp ∧
          resp.status = 200 ∧
          (refEnv.readBody resp (c.Put refEnv name w).world).1 = .ok B)) := by
  obtain ⟨r, hP⟩ := Put_ok_run refEnv c name w hput
  have hd : r.dir = d := by
    have := r.hDir
    rw [hDir] at this
    simp only [Prod.mk.injEq, Except.ok.injEq] at this
    exact this.1.symm
  obtain ⟨-, -, hseg, hs⟩ := stage2_ref r.toPutStage2
  have hb := run_base_normal r
  obtain ⟨hdst, hne, hnd, hn3, -⟩ := stage4_ref r.toPutStage4
  have hw3 := (stage3_ref r.toPutStage3).1
  have hdest : r.dest =
      filepath.Join [path.Join [d, (RandomStringRunes refEnv 40 w).1], filepath.Base name] := by
    unfold PutStage2.dest PutStage2.randDir
    rw [hd, hseg]
  have hfinal : (c.Put refEnv name w).world = r.w7 := (run_final r).1
  have hw7 := run_ref r
  have hbase : path.Base r.randDir = (RandomStringRunes refEnv 40 w).1 := by
    unfold PutStage2.randDir
    rw [Base_Join_seg _ _ hs, hseg]
  have hout : (c.Put refEnv name w).out =
      "http://".toList ++ privateIP refEnv (c.Put refEnv name w).world ++ ":8100".toList ++
        ("/files/".toList ++ (RandomStringRunes refEnv 40 w).1 ++ '/' :: filepath.Base name) ++
        ['\n'] := by
    rw [hfinal]
    rw [hP]
    simp only
    rw [hbase]
    simp [urlLine, port, refEnv]
  refine ⟨hout, ?_⟩
  intro halias
  rw [← hdest, ← hdst]
  rw [← hdest, ← hdst] at halias
  have hbody := run_body r B src hsrc hB halias
  have hst : stat r.w7.fs r.dst = some (.file B) := by
    rw [hw7]
    simp only
    rw [stat_setNode _ _ _ _ hne, if_pos rfl, hbody]
  have hn7 : namei r.w7 r.dest = .ok r.dst := by
    apply namei_dirs r.w3 r.w7 _ _ r.dest r.dst hn3
    · intro p hp
      rw [hw7]
      simp only
      rw [stat_setNode _ _ _ _ hne, if_neg, hp]
      intro heq
      rw [heq] at hp
      exact hnd hp
    · rw [hw7, hw3]
  refine ⟨by rw [hfinal]; exact hst, ?_⟩
  intro hl hbytes hsafe
  have hl7 : r.w7.listening = some (':' :: port) := by
    rw [hw7]
    exact hl
  have hb7 : byteAddrs r.w7 = true := by
    rw [hw7]
    exact hbytes
  have hf7 : r.w7.filesRoute = some d := by
    rw [hw7]
    exact hfiles
  have hget := get_stored r.w7 d (RandomStringRunes refEnv 40 w).1 (filepath.Base name) B r.dst
    (hseg ▸ hs) (RandomStringRunes_mem refEnv 40 w) hb hsafe hf7 hl7 hb7 (hdest ▸ hn7) hst
  have hurl : (c.Put refEnv name w).out.dropLast =
      "http://".toList ++ privateIP refEnv r.w7 ++ ':' :: port ++ "/files/".toList ++
        (RandomStringRunes refEnv 40 w).1 ++ '/' :: filepath.Base name := by
    rw [hout, hfinal, List.dropLast_concat]
    simp [port]
  rw [hurl, hfinal]
  exact ⟨.ok B, hget, rfl, rfl⟩

/-- Counterexample to the round trip as stated.  The readable local file
`a?b.txt` is uploaded with success and stored with its contents, and the GET
of the printed URL is answered with status 404: the path of the URL ends at
the `?`, where its query begins, and the path requested is
`/files/<segment>/a`.  The same happens for `a#b.txt`, at the `#` where the
fragment begins.  For the readable local files `100%.txt` and `a<tab>b.txt`
the printed URL does not parse (`%.t` is no escape; a URL holds no control
character), and `http.Get` returns an error.  And when the local path is the
destination file itself, in a directory that exists already under the name of
the segment about to be drawn, `Put` succeeds and the file stored and served
is empty, not the original contents. -/
theorem Put_then_GET_counterexample :
    (namei oddWorld "a?b.txt".toList = .ok ["home".toList, "a?b.txt".toList] ∧
      stat oddWorld.fs ["home".toList, "a?b.txt".toList] = some (.file "Q".toList) ∧
      (sampleClient.Dir refEnv oddWorld).1 = .ok "/tmp/srv".toList ∧
      oddWorld.filesRoute = some "/tmp/srv".toList ∧
      (sampleClient.Put refEnv "a?b.txt".toList oddWorld).err = none ∧
      (sampleClient.Put refEnv "a?b.txt".toList oddWorld).out =
        "http://192.168.1.20:8100".toList ++
          ("/files/".toList ++ sampleSegment ++ "/a?b.txt".toList) ++ ['\n'] ∧
      stat (sampleClient.Put refEnv "a?b.txt".toList oddWorld).world.fs
          ["tmp".toList, "srv".toList, sampleSegment, "a?b.txt".toList]
        = some (.file "Q".toList) ∧
      (refEnv.httpGet (sampleClient.Put refEnv "a?b.txt".toList oddWorld).out.dropLast
          (sampleClient.Put refEnv "a?b.txt".toList oddWorld).world).1
        = .ok (.failed 404)) ∧
    (namei oddWorld "100%.txt".toList = .ok ["home".toList, "100%.txt".toList] ∧
      stat oddWorld.fs ["home".toList, "100%.txt".toList] = some (.file "P".toList) ∧
      (sampleClient.Put refEnv "100%.txt".toList oddWorld).err = none ∧
      (sampleClient.Put refEnv "100%.txt".toList oddWorld).out =
        "http://192.168.1.20:8100".toList ++
          ("/files/".toList ++ sampleSegment ++ "/100%.txt".toList) ++ ['\n'] ∧
      (refEnv.httpGet (sampleClient.Put refEnv "100%.txt".toList oddWorld).out.dropLast
          (sampleClient.Put refEnv "100%.txt".toList oddWorld).world).1
        = .error (.other "invalid URL".toList)) ∧
    (namei oddWorld "a#b.txt".toList = .ok ["home".toList, "a#b.txt".toList] ∧
      stat oddWorld.fs ["home".toList, "a#b.txt".toList] = some (.file "F".toList) ∧
      (sampleClient.Put refEnv "a#b.txt".toList oddWorld).err = none ∧
      (sampleClient.Put refEnv "a#b.txt".toList oddWorld).out =
        "http://192.168.1.20:8100".toList ++
          ("/files/".toList ++ sampleSegment ++ "/a#b.txt".toList) ++ ['\n'] ∧
      (refEnv.httpGet (sampleClient.Put refEnv "a#b.txt".toList oddWorld).out.dropLast
          (sampleClient.Put refEnv "a#b.txt".toList oddWorld).world).1
        = .ok (.failed 404)) ∧
    (namei oddWorld "a\tb.txt".toList = .ok ["home".toList, "a\tb.txt".toList] ∧
      stat oddWorld.fs ["home".toList, "a\tb.txt".toList] = some (.file "T".toList) ∧
      (sampleClient.Put refEnv "a\tb.txt".toList oddWorld).err = none ∧
      (sampleClient.Put refEnv "a\tb.txt".toList oddWorld).out =
        "http://192.168.1.20:8100".toList ++
          ("/files/".toList ++ sampleSegment ++ "/a\tb.txt".toList) ++ ['\n'] ∧
      (refEnv.httpGet (sampleClient.Put refEnv "a\tb.txt".toList oddWorld).out.dropLast
          (sampleClient.Put refEnv "a\tb.txt".toList oddWorld).world).1
        = .error (.other "invalid URL".toList)) ∧
    (namei aliasWorld ("/tmp/srv/".toList ++ sampleSegment ++ "/f".toList)
        = .ok ["tmp".toList, "srv".toList, sampleSegment, "f".toList] ∧
      stat aliasWorld.fs ["tmp".toList, "srv".toList, sampleSegment, "f".toList]
        = some (.file "data".toList) ∧
      (sampleClient.Dir refEnv aliasWorld).1 = .ok "/tmp/srv".toList ∧
      aliasWorld.filesRoute = some "/tmp/srv".toList ∧
      (sampleClient.Put refEnv ("/tmp/srv/".toList ++ sampleSegment ++ "/f".toList)
        aliasWorld).err = none ∧
      stat (sampleClient.Put refEnv ("/tmp/srv/".toList ++ sampleSegment ++ "/f".toList)
          aliasWorld).world.fs ["tmp".toList, "srv".toList, sampleSegment, "f".toList]
        = some (.file []) ∧
      (refEnv.httpGet
          (sampleClient.Put refEnv ("/tmp/srv/".toList ++ sampleSegment ++ "/f".toList)
            aliasWorld).out.dropLast
          (sampleClient.Put refEnv ("/tmp/srv/".toList ++ sampleSegment ++ "/f".toList)
            aliasWorld).world).1
        = .ok (.ok [])) := by
  exact ⟨by decide, by decide, by decide, by decide, by decide⟩

theorem Put_then_GET_witness :
    (sampleClient.Dir refEnv sampleWorld = (.ok "/tmp/srv".toList, sampleWorld) ∧
      sampleWorld.filesRoute = some "/tmp/srv".toList ∧
      namei sampleWorld "sample.txt".toList = .ok ["home".toList, "sample.txt".toList] ∧
      stat sampleWorld.fs ["home".toList, "sample.txt".toList] = some (.file "hello".toList) ∧
      (sampleClient.Put refEnv "sample.txt".toList sampleWorld).err = none ∧
      ["home".toList, "sample.txt".toList] ≠ lexPath sampleWorld.cwd
        (filepath.Join
          [path.Join ["/tmp/srv".toList, (RandomStringRunes refEnv 40 sampleWorld).1],
            filepath.Base "sample.txt".toList]) ∧
      sampleWorld.listening = some ":8100".toList ∧ byteAddrs sampleWorld = true ∧
      URLSafe (filepath.Base "sample.txt".toList) ∧
      ∃ resp : Response,
        (refEnv.httpGet (sampleClient.Put refEnv "sample.txt".toList sampleWorld).out.dropLast
          (sampleClient.Put refEnv "sample.txt".toList sampleWorld).world).1 = .ok resp ∧
        resp.status = 200 ∧
        (refEnv.readBody resp (sampleClient.Put refEnv "sample.txt".toList sampleWorld).world).1
          = .ok "hello".toList) ∧
    (namei sampleWorld "index.html".toList = .ok ["home".toList, "index.html".toList] ∧
      stat sampleWorld.fs ["home".toList, "index.html".toList]
        = some (.file "<p>hi</p>".toList) ∧
      (sampleClient.Put refEnv "index.html".toList sampleWorld).err = none ∧
      ∃ resp : Response,
        (refEnv.httpGet (sampleClient.Put refEnv "index.html".toList sampleWorld).out.dropLast
          (sampleClient.Put refEnv "index.html".toList sampleWorld).world).1 = .ok resp ∧
        resp.status = 200 ∧
        (refEnv.readBody resp (sampleClient.Put refEnv "index.html".toList sampleWorld).world).1
          = .ok "<p>hi</p>".toList) :=
  have hDir : sampleClient.Dir refEnv sampleWorld = (.ok "/tmp/srv".toList, sampleWorld) := by
    exact Prod.ext (by decide) (Dir_world sampleClient sampleWorld)
  ⟨⟨hDir, rfl, by decide, by decide, by decide, by decide, rfl, by decide, by decide,
    ((Put_then_GET sampleClient "sample.txt".toList sampleWorld "/tmp/srv".toList "hello".toList
      ["home".toList, "sample.txt".toList] hDir rfl (by decide) (by decide) (by decide)).2
        (by decide)).2 rfl (by decide) (by decide)⟩,
   ⟨by decide, by decide, by decide,
    ((Put_then_GET sampleClient "index.html".toList sampleWorld "/tmp/srv".toList
      "<p>hi</p>".toList ["home".toList, "index.html".toList] hDir rfl (by decide) (by decide)
      (by decide)).2 (by decide)).2 rfl (by decide) (by decide)⟩⟩

/-! ### C2. The removal guard -/

/-- C2: a server whose `dir` is the empty string or `/` is guarded: `RemoveAll`
returns `nil` and the state of the world after the call is the state before
it, whatever `os.RemoveAll` would do. -/
theorem RemoveAll_guard (env : Env σ H R) (s : Server) (w : σ)
    (h : s.dir = [] ∨ s.dir = ['/']) : s.RemoveAll env w = (none, w) :=
  RemoveAll_of_guard env s w h

theorem RemoveAll_guard_witness :
    ((serverOn ['/']).dir = [] ∨ (serverOn ['/']).dir = ['/']) ∧
      (serverOn ['/']).RemoveAll refEnv sampleWorld = (none, sampleWorld) :=
  ⟨by decide, RemoveAll_guard refEnv (serverOn ['/']) sampleWorld (by decide)⟩

/-! ### C3. Removal twice -/

/-- C3 (amended): in the reference world, the second of two successive calls
of `RemoveAll` leaves the world exactly as the first call left it and returns
`nil` whenever the first call did; both calls change nothing but the file
system, and there nothing outside `dir` and its descendants.  `RemoveAll`
returns `nil` both times when `dir` is the empty string or `/`, and when the
last element of `dir` is a name other than `.` and `..` and the lookup of
`dir` ends at a node, present or missing, or fails because a directory on the
way is missing. -/
theorem RemoveAll_twice (s : Server) (w : World) :
    ((s.RemoveAll refEnv (s.RemoveAll refEnv w).2).2 = (s.RemoveAll refEnv w).2) ∧
    ((s.RemoveAll refEnv w).1 = none → (s.RemoveAll refEnv (s.RemoveAll refEnv w).2).1 = none) ∧
    ((s.RemoveAll refEnv w).2 = { w with fs := (s.RemoveAll refEnv w).2.fs }) ∧
    (∀ q, ¬ (lexPath w.cwd s.dir) <+: q →
      (s.RemoveAll refEnv w).2.fs q = w.fs q ∧
      (s.RemoveAll refEnv (s.RemoveAll refEnv w).2).2.fs q = w.fs q) ∧
    ((s.dir = [] ∨ s.dir = ['/']) ∨
        (NormalLast s.dir ∧
          (resolve w s.dir = .error .ENOENT ∨ ∃ t, resolve w s.dir = .ok t)) →
      (s.RemoveAll refEnv w).1 = none ∧
        (s.RemoveAll refEnv (s.RemoveAll refEnv w).2).1 = none) := by
  by_cases hg : s.dir = [] ∨ s.dir = ['/']
  · have h1 : ∀ v : World, s.RemoveAll refEnv v = (none, v) :=
      fun v => RemoveAll_of_guard refEnv s v hg
    simp [h1]
  · have h1 : ∀ v : World, s.RemoveAll refEnv v = osRemoveAll s.dir v := by
      intro v
      unfold Server.RemoveAll
      rw [if_neg hg]
      rfl
    simp only [h1]
    have ha := osRemoveAll_again s.dir w
    have hc := osRemoveAll_confined s.dir w
    refine ⟨ha.1, ha.2, hc.1, ?_, ?_⟩
    · intro q hq
      refine ⟨hc.2 q hq, ?_⟩
      rw [ha.1]
      exact hc.2 q hq
    · rintro (hn | ⟨hl, hn⟩)
      · exact absurd hn hg
      · have := osRemoveAll_nil s.dir w hl hn
        exact ⟨this, ha.2 this⟩

/-- Counterexample to the idempotence as stated: for a server whose `dir` is
`.`, `RemoveAll` does not return `nil`, the first time or the second:
`os.RemoveAll` refuses a path that is `.` or ends in `/.`.  For a server
whose `dir` is `/tmp/srv/..` the first call returns an error too, ENOTEMPTY:
the directory `/tmp` that the path names cannot be removed under that name,
and it is still there after the call. -/
theorem RemoveAll_twice_counterexample :
    (((serverOn ".".toList).RemoveAll refEnv sampleWorld).1 = some .EINVAL ∧
      ((serverOn ".".toList).RemoveAll refEnv
        ((serverOn ".".toList).RemoveAll refEnv sampleWorld).2).1 = some .EINVAL) ∧
    (((serverOn "/tmp/srv/..".toList).RemoveAll refEnv sampleWorld).1 = some .ENOTEMPTY ∧
      stat ((serverOn "/tmp/srv/..".toList).RemoveAll refEnv sampleWorld).2.fs
        ["tmp".toList] = some .dir) := by
  decide

theorem RemoveAll_twice_witness :
    ((serverOn "/tmp/srv".toList).RemoveAll refEnv sampleWorld).1 = none ∧
    ((serverOn "/tmp/srv".toList).RemoveAll refEnv
      ((serverOn "/tmp/srv".toList).RemoveAll refEnv sampleWorld).2).1 = none ∧
    ¬ (lexPath sampleWorld.cwd (serverOn "/tmp/srv".toList).dir)
        <+: ["home".toList, "sample.txt".toList] ∧
    ((serverOn "/tmp/srv".toList).RemoveAll refEnv sampleWorld).2.fs
        ["home".toList, "sample.txt".toList] = some (.file "hello".toList) ∧
    ((serverOn "/tmp/srv".toList).RemoveAll refEnv sampleWorld).2.fs
        ["tmp".toList, "srv".toList] = none ∧
    (NormalLast "/tmp/srv".toList ∧
      resolve sampleWorld "/tmp/srv".toList = .ok ["tmp".toList, "srv".toList]) :=
  have hl : NormalLast "/tmp/srv".toList := ⟨"srv".toList, by decide, by decide, by decide⟩
  have hr : resolve sampleWorld "/tmp/srv".toList = .ok ["tmp".toList, "srv".toList] := by
    decide
  ⟨((RemoveAll_twice (serverOn "/tmp/srv".toList) sampleWorld).2.2.2.2
      (Or.inr ⟨hl, Or.inr ⟨_, hr⟩⟩)).1,
    (RemoveAll_twice (serverOn "/tmp/srv".toList) sampleWorld).2.1 (by decide),
    by decide,
    ((RemoveAll_twice (serverOn "/tmp/srv".toList) sampleWorld).2.2.2.1
      ["home".toList, "sample.txt".toList] (by decide)).1.trans (by decide),
    by decide, hl, hr⟩

/-! ### C4. The random segment -/

/-- C4: for every `n` and every behaviour of the random source,
`RandomStringRunes n` is a string of exactly `n` characters, each one of the 52
distinct Latin letters of `letterRunes` (so no digit, no symbol, no dot and no
path separator); in particular the segment of `Put`, drawn with `n = 40`, has
40 letters. -/
theorem RandomStringRunes_shape (env : Env σ H R) (n : Nat) (w : σ) :
    ((RandomStringRunes env n w).1.length = n ∧
      ∀ c ∈ (RandomStringRunes env n w).1,
        c ∈ letterRunes ∧ c.isAlpha = true ∧ c ≠ '/' ∧ c ≠ '.') ∧
    (letterRunes.length = 52 ∧ letterRunes.Nodup) ∧
    ((RandomStringRunes env 40 w).1.length = 40 ∧
      ∀ c ∈ (RandomStringRunes env 40 w).1, c.isAlpha = true ∧ c ≠ '/') := by
  refine ⟨⟨RandomStringRunes_length env n w, fun c hc => ?_⟩,
    ⟨letterRunes_length, by decide⟩, RandomStringRunes_length env 40 w, fun c hc => ?_⟩
  · have hm := RandomStringRunes_mem env n w c hc
    exact ⟨hm, letterRunes_isAlpha c hm⟩
  · have hm := RandomStringRunes_mem env 40 w c hc
    exact ⟨(letterRunes_isAlpha c hm).1, (letterRunes_isAlpha c hm).2.1⟩

/-- The letters of the segment drawn in the sample world. -/
theorem RandomStringRunes_shape_witness :
    'd' ∈ (RandomStringRunes refEnv 40 sampleWorld).1 ∧
      ('d' ∈ letterRunes ∧ 'd'.isAlpha = true ∧ 'd' ≠ '/' ∧ 'd' ≠ '.') ∧
      (RandomStringRunes refEnv 40 sampleWorld).1 = sampleSegment :=
  ⟨by decide, (RandomStringRunes_shape refEnv 40 sampleWorld).1.2 'd' (by decide), by decide⟩

/-! ### C5. The printed URL -/

/-- C5: a successful `Put` prints exactly one line,
`http://<ip>:8100/files/<s>/<base>`, where `<ip>` is the result of `privateIP`,
`<s>` the generated segment and `<base>` the base name of the local path, for
every root string `d` the server reports: the segment recovered as
`path.Base(path.Join(d, s))` is `s` itself, the directory created is
`path.Join(d, s)`, the file is created at `filepath.Join` of that directory and
the base name, and the directory the file server opens for the segment `s` is
that same directory. -/
theorem Put_prints_url (env : Env σ H R) (c : Client) (name : GoString) (w : σ)
    (h : (c.Put env name w).err = none) :
    ∃ d w1 w2 w3 w4 w7 s dst,
      c.Dir env w = (.ok d, w1) ∧ RandomStringRunes env 40 w1 = (s, w2) ∧
      (c.Put env name w).out =
        "http://".toList ++ privateIP env w7 ++ ":8100/files/".toList ++ s ++
          '/' :: filepath.Base name ++ ['\n'] ∧
      path.Base (path.Join [d, s]) = s ∧
      env.mkdirAll (path.Join [d, s]) w2 = (none, w3) ∧
      env.create (filepath.Join [path.Join [d, s], filepath.Base name]) w3 = (.ok dst, w4) ∧
      filepath.Join [httpRoot d, '/' :: s] = path.Join [d, s] := by
  obtain ⟨r, hP⟩ := Put_ok_run env c name w h
  have hs : NormalElem r.seg := by
    have := segment_normal env r.w1
    rw [r.hSeg] at this
    exact this
  refine ⟨r.dir, r.w1, r.w2, r.w3, r.w4, r.w7, r.seg, r.dst, r.hDir, r.hSeg, ?_,
    Base_Join_seg r.dir r.seg hs, r.hMkdir, r.hCreate, Join_served r.dir r.seg hs⟩
  rw [hP]
  unfold PutStage2.randDir
  rw [Base_Join_seg r.dir r.seg hs]
  simp [urlLine, port]

theorem Put_prints_url_witness :
    (sampleClient.Put refEnv "sample.txt".toList sampleWorld).err = none ∧
    (sampleClient.Put refEnv "sample.txt".toList sampleWorld).out =
      "http://192.168.1.20:8100/files/dkryFMTahovCJQXelszGNUbipwDKRYfmtAHOVcjq/sample.txt\n".toList ∧
    ∃ d w1 w2 w3 w4 w7 s dst,
      sampleClient.Dir refEnv sampleWorld = (.ok d, w1) ∧
      RandomStringRunes refEnv 40 w1 = (s, w2) ∧
      (sampleClient.Put refEnv "sample.txt".toList sampleWorld).out =
        "http://".toList ++ privateIP refEnv w7 ++ ":8100/files/".toList ++ s ++
          '/' :: filepath.Base "sample.txt".toList ++ ['\n'] ∧
      path.Base (path.Join [d, s]) = s ∧
      refEnv.mkdirAll (path.Join [d, s]) w2 = (none, w3) ∧
      refEnv.create (filepath.Join [path.Join [d, s], filepath.Base "sample.txt".toList]) w3
        = (.ok dst, w4) ∧
      filepath.Join [httpRoot d, '/' :: s] = path.Join [d, s] :=
  ⟨by decide, by decide,
    Put_prints_url refEnv sampleClient "sample.txt".toList sampleWorld (by decide)⟩

/-! ### C6. The destination path -/

/-- C6 (amended): the base name of the local path is `.`, `..`, `/` or a single
path element other than `.` and `..`.  In the last case it contains no
separator, the destination is the directory `root/segment` followed by a
slash and the base name, and it names a direct child of that directory; a
successful `Put` has such a base name and leaves the bytes it read in that
child.  For the three other base names `Put` gets no further than the creation
of the destination, which fails, and the world stays as the creation of the
directory left it. -/
theorem Put_destination :
    (∀ name : GoString, filepath.Base name = ['.'] ∨ filepath.Base name = ['.', '.'] ∨
        filepath.Base name = ['/'] ∨ NormalElem (filepath.Base name)) ∧
    (∀ (cwd : AbsPath) (d seg name : GoString), NormalElem seg →
        NormalElem (filepath.Base name) →
        '/' ∉ filepath.Base name ∧
        filepath.Join [path.Join [d, seg], filepath.Base name]
          = path.Join [d, seg] ++ '/' :: filepath.Base name ∧
        lexPath cwd (filepath.Join [path.Join [d, seg], filepath.Base name])
          = lexPath cwd (path.Join [d, seg]) ++ [filepath.Base name]) ∧
    (∀ (c : Client) (name : GoString) (w : World) (s : PutStage3 refEnv c name w),
        ¬ NormalElem (filepath.Base name) →
        (c.Put refEnv name w).err ≠ none ∧ (c.Put refEnv name w).world = s.w3) ∧
    (∀ (c : Client) (name : GoString) (w : World), (c.Put refEnv name w).err = none →
        NormalElem (filepath.Base name) ∧
        ∃ r : PutRun refEnv c name w,
          stat (c.Put refEnv name w).world.fs (lexPath w.cwd r.randDir ++ [filepath.Base name])
            = some (.file r.body)) := by
  refine ⟨fun name => Base_cases name, ?_, fun c name w s hb => Put_special_fails s hb, ?_⟩
  · intro cwd d seg name hs hb
    exact ⟨hb.1.2, Join_dest_child d seg _ hs hb, dest_child cwd d seg _ hs hb⟩
  · intro c name w h
    obtain ⟨r, -⟩ := Put_ok_run refEnv c name w h
    refine ⟨run_base_normal r, r, ?_⟩
    rw [(run_final r).1]
    exact (run_final r).2

/-- Counterexample to the destination as stated: the base name of the local
path `/` is `/`, which contains the separator, and the destination computed
for it is the directory `root/segment` itself, not a child of it; for the
local path `..` the destination is the parent of that directory.  In both
cases `Put` fails at the creation of the destination. -/
theorem Put_destination_counterexample :
    ('/' ∈ filepath.Base "/".toList ∧
      filepath.Join [path.Join ["/tmp/srv".toList, sampleSegment], filepath.Base "/".toList]
        = path.Join ["/tmp/srv".toList, sampleSegment] ∧
      (sampleClient.Put refEnv "/".toList sampleWorld).err = some .EISDIR) ∧
    (filepath.Base "..".toList = "..".toList ∧
      filepath.Join [path.Join ["/tmp/srv".toList, sampleSegment], filepath.Base "..".toList]
        = "/tmp/srv".toList ∧
      (sampleClient.Put refEnv "..".toList sampleWorld).err = some .EISDIR) ∧
    (RandomStringRunes refEnv 40 sampleWorld).1 = sampleSegment := by
  decide

theorem Put_destination_witness :
    (sampleClient.Put refEnv "sample.txt".toList sampleWorld).err = none ∧
    NormalElem (filepath.Base "sample.txt".toList) ∧
    ∃ r : PutRun refEnv sampleClient "sample.txt".toList sampleWorld,
      stat (sampleClient.Put refEnv "sample.txt".toList sampleWorld).world.fs
          (lexPath sampleWorld.cwd r.randDir ++ [filepath.Base "sample.txt".toList])
        = some (.file r.body) :=
  ⟨by decide, Put_destination.2.2.2 sampleClient "sample.txt".toList sampleWorld (by decide)⟩

/-! ### C7. Cleanup when the listener terminates -/

/-- C7: when the listener terminates with an error `e`, `Start` calls
`RemoveAll` once on the state the listener left and returns exactly `e`; the
result of that `RemoveAll` is discarded. -/
theorem Start_cleanup (env : Env σ H R) (s : Server) (w w3 : σ) (e : Err)
    (h : env.listenAndServe (':' :: s.port) (fun v => (s.RemoveAll env v).2)
      (env.handleDir s.dir (env.handleFiles s.dir w)) = (some e, w3)) :
    s.Start env w = (some e, (s.RemoveAll env w3).2) := by
  unfold Server.Start
  simp only [h]

theorem Start_cleanup_witness :
    refEnv.listenAndServe (':' :: (serverOn "/tmp/srv".toList).port)
        (fun v => ((serverOn "/tmp/srv".toList).RemoveAll refEnv v).2)
        (refEnv.handleDir "/tmp/srv".toList
          (refEnv.handleFiles "/tmp/srv".toList { sampleWorld with listening := none }))
      = (some .closed, { sampleWorld with listening := none }) ∧
    (serverOn "/tmp/srv".toList).Start refEnv { sampleWorld with listening := none }
      = (some .closed, ((serverOn "/tmp/srv".toList).RemoveAll refEnv
          { sampleWorld with listening := none }).2) :=
  ⟨rfl, Start_cleanup refEnv (serverOn "/tmp/srv".toList) _ _ .closed rfl⟩

/-! ### C8. Failures of `Put` -/

/-- C8: `Put` returns an error exactly when one of its steps fails (root
discovery, creation of the directory, creation of the destination, opening or
reading the source, the write), and it prints nothing exactly when it returns
an error.  Nothing is cleaned up: `Put` never calls the removal of the
environment (its result does not depend on it), and in the reference
environment everything that existed before the call, and everything that
existed once the destination was created, still exists after the call; when
the source file cannot be opened, the directory and an empty destination file
are there at the end.  Whichever step fails, `Put` returns the error of that
step, prints nothing, and ends in the very state that step left, with the
files it opened closed and nothing else done.  In the reference environment
the directory, once created, is there at the end of every run, with everything
that existed when it was created; when the destination cannot be created, the
final state is the one the creation of the directory left. -/
theorem Put_failure (env : Env σ H R) (c : Client) (name : GoString) (w : σ) :
    ((c.Put env name w).err ≠ none ↔ PutStepFails env c name w) ∧
    ((c.Put env name w).out = [] ↔ (c.Put env name w).err ≠ none) ∧
    (∀ f : GoString → σ → Option Err × σ,
      c.Put { env with removeAll := f } name w = c.Put env name w) ∧
    (∀ (c : Client) (name : GoString) (w : World),
      Keeps w.fs (c.Put refEnv name w).world.fs) ∧
    (∀ (c : Client) (name : GoString) (w : World) (s : PutStage4 refEnv c name w),
      Keeps s.w4.fs (c.Put refEnv name w).world.fs) ∧
    (∀ (c : Client) (name : GoString) (w : World) (s : PutStage4 refEnv c name w)
      (e : Err) (w5 : World), refEnv.openFile name s.w4 = (.error e, w5) →
      (c.Put refEnv name w).err = some e ∧ (c.Put refEnv name w).out = [] ∧
        stat (c.Put refEnv name w).world.fs (lexPath w.cwd s.randDir) = some .dir ∧
        stat (c.Put refEnv name w).world.fs (lexPath w.cwd s.dest) = some (.file [])) ∧
    (∀ (e : Err) (w1 : σ), c.Dir env w = (.error e, w1) →
      c.Put env name w = ⟨some e, [], w1⟩) ∧
    (∀ (s : PutStage2 env c name w) (e : Err) (w3 : σ),
      env.mkdirAll s.randDir s.w2 = (some e, w3) → c.Put env name w = ⟨some e, [], w3⟩) ∧
    (∀ (s : PutStage3 env c name w) (e : Err) (w4 : σ),
      env.create s.dest s.w3 = (.error e, w4) → c.Put env name w = ⟨some e, [], w4⟩) ∧
    (∀ (s : PutStage4 env c name w) (e : Err) (w5 : σ),
      env.openFile name s.w4 = (.error e, w5) →
      c.Put env name w = ⟨some e, [], env.close s.dst w5⟩) ∧
    (∀ (s : PutStage5 env c name w) (e : Err) (w6 : σ),
      env.readFile s.src s.w5 = (.error e, w6) →
      c.Put env name w = ⟨some e, [], env.close s.dst (env.close s.src w6)⟩) ∧
    (∀ (s : PutStage6 env c name w) (e : Err) (w7 : σ),
      env.write s.dst s.body s.w6 = (some e, w7) →
      c.Put env name w = ⟨some e, [], env.close s.dst (env.close s.src w7)⟩) ∧
    (∀ (c : Client) (name : GoString) (w : World) (s : PutStage3 refEnv c name w),
      Keeps s.w3.fs (c.Put refEnv name w).world.fs ∧
        stat (c.Put refEnv name w).world.fs (lexPath w.cwd s.randDir) = some .dir) ∧
    (∀ (c : Client) (name : GoString) (w : World) (s : PutStage3 refEnv c name w)
      (e : Err) (w4 : World), refEnv.create s.dest s.w3 = (.error e, w4) →
      (c.Put refEnv name w).err = some e ∧ (c.Put refEnv name w).out = [] ∧
        (c.Put refEnv name w).world = s.w3 ∧
        stat (c.Put refEnv name w).world.fs (lexPath w.cwd s.randDir) = some .dir) :=
  ⟨Put_err_iff env c name w, Put_out_iff env c name w,
    fun f => Put_ignores_removeAll env f c name w, Put_keeps,
    fun _ _ _ s => Put_keeps_stage4 s,
    fun _ _ _ s e w5 h => Put_open_failure s e w5 h,
    fun _ _ h => Put_fail_dir h,
    fun s _ _ h => Put_fail_mkdir s h,
    fun s _ _ h => Put_fail_create s h,
    fun s _ _ h => Put_fail_open s h,
    fun s _ _ h => Put_fail_read s h,
    fun s _ _ h => Put_fail_write s h,
    fun _ _ _ s => Put_keeps_stage3 s,
    fun _ _ _ s e w4 h => Put_create_failure s e w4 h⟩

theorem Put_failure_witness :
    (∃ (s : PutStage4 refEnv sampleClient "missing.txt".toList sampleWorld) (w5 : World),
      refEnv.openFile "missing.txt".toList s.w4 = (.error .ENOENT, w5) ∧
      (sampleClient.Put refEnv "missing.txt".toList sampleWorld).err = some .ENOENT ∧
      (sampleClient.Put refEnv "missing.txt".toList sampleWorld).out = [] ∧
      stat (sampleClient.Put refEnv "missing.txt".toList sampleWorld).world.fs
        (lexPath sampleWorld.cwd s.randDir) = some .dir ∧
      stat (sampleClient.Put refEnv "missing.txt".toList sampleWorld).world.fs
        (lexPath sampleWorld.cwd s.dest) = some (.file [])) ∧
    (∃ (s : PutStage3 refEnv sampleClient "/".toList sampleWorld) (w4 : World),
      refEnv.create s.dest s.w3 = (.error .EISDIR, w4) ∧
      lexPath sampleWorld.cwd s.randDir = ["tmp".toList, "srv".toList, sampleSegment] ∧
      stat sampleWorld.fs ["tmp".toList, "srv".toList, sampleSegment] = none ∧
      (sampleClient.Put refEnv "/".toList sampleWorld).err = some .EISDIR ∧
      (sampleClient.Put refEnv "/".toList sampleWorld).out = [] ∧
      (sampleClient.Put refEnv "/".toList sampleWorld).world = s.w3 ∧
      stat (sampleClient.Put refEnv "/".toList sampleWorld).world.fs
        (lexPath sampleWorld.cwd s.randDir) = some .dir) :=
  have h : refEnv.openFile "missing.txt".toList missingStage.w4
      = (.error .ENOENT, (refEnv.openFile "missing.txt".toList missingStage.w4).2) :=
    Prod.ext (by decide) rfl
  have k : refEnv.create rootStage.dest rootStage.w3
      = (.error .EISDIR, (refEnv.create rootStage.dest rootStage.w3).2) :=
    Prod.ext (by decide) rfl
  ⟨⟨missingStage, _, h,
    (Put_failure refEnv sampleClient "missing.txt".toList sampleWorld).2.2.2.2.2.1 _ _ _
      missingStage _ _ h⟩,
   ⟨rootStage, _, k, by decide, by decide,
    (Put_failure refEnv sampleClient "/".toList sampleWorld).2.2.2.2.2.2.2.2.2.2.2.2.2 _ _ _
      rootStage _ _ k⟩⟩

/-! ### C9. Private address discovery -/

/-- C9: `privateIP` returns the text of the first interface address, in list
order, that is private, and `0.0.0.0` when there is none or when the
enumeration fails; `isPrivateIP` holds exactly for the addresses in the blocks
10.0.0.0/8, 172.16.0.0/12, 192.168.0.0/16 and 169.254.0.0/16; and the text of a
private address is its dotted decimal form. -/
theorem privateIP_spec (env : Env σ H R) (w : σ) :
    (privateIP env w =
      match env.interfaceAddrs w with
      | .error _ => "0.0.0.0".toList
      | .ok addrs =>
        match addrs.find? Addr.isPrivate with
        | some a => a.text
        | none => "0.0.0.0".toList) ∧
    (∀ ip : IP, (∀ x ∈ ip, x < 256) → (isPrivateIP ip = true ↔ inPrivateRange ip)) ∧
    (∀ ip : IP, isPrivateIP ip = true → ∃ a b c d, IP.To4 ip = some [a, b, c, d] ∧
      IP.String ip =
        byteText a ++ '.' :: byteText b ++ '.' :: byteText c ++ '.' :: byteText d) := by
  refine ⟨?_, isPrivateIP_iff, ?_⟩
  · unfold privateIP
    cases h : env.interfaceAddrs w with
    | error e => rfl
    | ok addrs => exact privateIP_loop_eq addrs
  · intro ip hp
    rcases to4_cases ip with ⟨h, hl⟩ | ⟨a, b, c, d, h, -⟩
    · rw [isPrivateIP_of_not_to4 ip h hl] at hp
      exact absurd hp (by decide)
    · exact ⟨a, b, c, d, h, string_of_to4 ip a b c d h⟩

theorem privateIP_spec_witness :
    (∀ x ∈ ([192, 168, 1, 20] : IP), x < 256) ∧
      (isPrivateIP [192, 168, 1, 20] = true ↔ inPrivateRange [192, 168, 1, 20]) ∧
      privateIP refEnv sampleWorld = "192.168.1.20".toList :=
  ⟨by decide, (privateIP_spec refEnv sampleWorld).2.1 [192, 168, 1, 20] (by decide),
    by decide⟩

/-! ### C10. The guard compares strings -/

/-- C10: the guard of `RemoveAll` is an exact comparison of strings: for every
`dir` other than exactly the empty string and exactly `/`, `RemoveAll` is
`os.RemoveAll` on that very string, result and effect; in particular `//`,
`/.`, `/..` and `.` are handed to the recursive removal. -/
theorem RemoveAll_unguarded (env : Env σ H R) (w : σ) :
    (∀ s : Server, s.dir ≠ [] → s.dir ≠ ['/'] → s.RemoveAll env w = env.removeAll s.dir w) ∧
    (∀ d ∈ ["//".toList, "/.".toList, "/..".toList, ".".toList],
      (serverOn d).RemoveAll env w = env.removeAll d w) := by
  have key : ∀ s : Server, s.dir ≠ [] → s.dir ≠ ['/'] →
      s.RemoveAll env w = env.removeAll s.dir w := by
    intro s h1 h2
    unfold Server.RemoveAll
    rw [if_neg (by simp [h1, h2])]
  refine ⟨key, ?_⟩
  intro d hd
  simp only [List.mem_cons, List.mem_singleton, List.not_mem_nil, or_false] at hd
  rcases hd with rfl | rfl | rfl | rfl <;> exact key _ (by decide) (by decide)

theorem RemoveAll_unguarded_witness :
    (serverOn "//".toList).RemoveAll refEnv sampleWorld
      = osRemoveAll "//".toList sampleWorld :=
  (RemoveAll_unguarded refEnv sampleWorld).1 (serverOn "//".toList) (by decide) (by decide)

end Theorems

end Fds
